import Mathlib

set_option linter.unusedSectionVars false

/-!
Verification development for the PathFinder repository.

The repository implements an indexable binary min-heap priority queue
(MinPriorityQueue.py) and an A-star shortest path search over an
8-connected grid with orthogonal cost 10 and diagonal cost 14 (Grid.py).

This file gives a shallow embedding of those two source files and proves
the frozen claims about them.  Python object references to grid nodes are
represented by their (row, column) coordinates; the node objects of a grid
live at fixed slots of the two dimensional list, so coordinates are a
faithful identity proxy.  Python exceptions are represented by the Except
monad.  Loops whose termination is not structural are implemented with an
explicit fuel argument that provably dominates the recursion depth, so
that every definition computes by kernel reduction.
-/

namespace PathFinder

/-- Exceptions that the queue operations of MinPriorityQueue.py can raise:
IndexError (extract_min on an empty queue), KeyError (unknown identity in
decrease_key or get_key) and ValueError (decrease_key with a larger key). -/
inductive QErr where
  | indexError
  | keyError
  | valueError
deriving DecidableEq, Repr

/-- Embedding of the MinPriorityQueue class.  The Python class keeps a
list of (key, identity) pairs, a size counter, and a dict mapping each
identity to its index in the list.  Every method of the class updates the
size counter and the list in lockstep, so the size attribute always equals
the length of the list and is embedded as the derived function below.
The dict is embedded as a function to Option Nat. -/
structure MinPriorityQueue (ι : Type) where
  elements : List (Int × ι)
  mapping : ι → Option Nat

namespace MinPriorityQueue

variable {ι : Type} [DecidableEq ι] [Inhabited ι]

/-- The size attribute of the queue (always equal to the element count). -/
def size (q : MinPriorityQueue ι) : Nat := q.elements.length

/-- The (key, identity) pair stored at index i of the element array.
All reads performed by the source methods are in bounds in every state the
class itself can produce, so the default value is never observable there. -/
def entryAt (q : MinPriorityQueue ι) (i : Nat) : Int × ι :=
  q.elements.getD i (0, default)

/-- The key stored at index i. -/
def keyAt (q : MinPriorityQueue ι) (i : Nat) : Int := (q.entryAt i).1

/-- The identity stored at index i. -/
def idAt (q : MinPriorityQueue ι) (i : Nat) : ι := (q.entryAt i).2

/-- Index of the left child of element i. -/
def leftchild (i : Nat) : Nat := 2 * i + 1

/-- Index of the right child of element i. -/
def rightchild (i : Nat) : Nat := 2 * i + 2

/-- Index of the parent of element i.  The Python expression (i-1)//2
yields -1 at i = 0; the source only evaluates it at i of at least 1
(the decrease_key loop guards with i greater than 0, and build_min_heap
feeds it size-1 with size at least 2), where it agrees with Nat division. -/
def parent (i : Nat) : Nat := (i - 1) / 2

/-- Swap the elements at indices i and j and update the mapping for both
moved identities, exactly as the two swap blocks of min_heapify and
decrease_key do (elements swapped first, then the mapping entry of the
pair now at i set to i, then the entry of the pair now at j set to j). -/
def swap (q : MinPriorityQueue ι) (i j : Nat) : MinPriorityQueue ι :=
  let ei := q.entryAt i
  let ej := q.entryAt j
  { elements := (q.elements.set i ej).set j ei,
    mapping := fun a => if a = ei.2 then some j else if a = ej.2 then some i else q.mapping a }

/-- The smallest computation of min_heapify: the index holding the
smallest key among i and its in-range children, children winning only on
a strictly smaller key. -/
def heapSmallest (q : MinPriorityQueue ι) (i : Nat) : Nat :=
  let lc := leftchild i
  let rc := rightchild i
  let s1 := if lc < q.size ∧ keyAt q lc < keyAt q i then lc else i
  if rc < q.size ∧ keyAt q rc < keyAt q s1 then rc else s1

/-- Recursive worker for min_heapify.  The fuel argument only bounds the
recursion depth; min_heapify passes size+1 which strictly dominates the
depth, since the index strictly increases and stays below size on every
recursive call. -/
def min_heapifyAux : Nat → MinPriorityQueue ι → Nat → MinPriorityQueue ι
  | 0, q, _ => q
  | fuel + 1, q, i =>
    let s2 := heapSmallest q i
    if s2 = i then q else min_heapifyAux fuel (q.swap i s2) s2

/-- Embedding of min_heapify: sift the element at index i down, repeatedly
swapping with the strictly smaller of the two children. -/
def min_heapify (q : MinPriorityQueue ι) (i : Nat) : MinPriorityQueue ι :=
  min_heapifyAux (q.size + 1) q i

/-- The descending loop of build_min_heap, running min_heapify at every
index from i down to 0. -/
def build_loop : Nat → MinPriorityQueue ι → MinPriorityQueue ι
  | 0, q => q.min_heapify 0
  | i + 1, q => build_loop i (q.min_heapify (i + 1))

/-- Embedding of build_min_heap: bottom-up heapify from the last non-leaf
index parent(size-1) down to the root.  For size at most 1 the Python
range is empty and the queue is returned unchanged. -/
def build_min_heap (q : MinPriorityQueue ι) : MinPriorityQueue ι :=
  if q.size ≤ 1 then q else build_loop (parent (q.size - 1)) q

/-- The element-accumulation loop of the constructor: append every
(key, identity) argument and record its index in the mapping. -/
def initElems (args : List (Int × ι)) : MinPriorityQueue ι :=
  args.foldl
    (fun q kv =>
      { elements := q.elements ++ [kv],
        mapping := fun a => if a = kv.2 then some q.elements.length else q.mapping a })
    { elements := [], mapping := fun _ => none }

/-- Embedding of the constructor: accumulate the argument pairs, then
build_min_heap.  The Python assertions that each argument is a tuple whose
first component is an int are enforced by the Lean types. -/
def init (args : List (Int × ι)) : MinPriorityQueue ι :=
  (initElems args).build_min_heap

/-- Embedding of extract_min.  On an empty queue it raises IndexError.
Otherwise the root pair is saved, the last element is written over the
root, the list is popped, the mapping entry of the extracted identity is
removed, and, when elements remain, the mapping of the element moved to
the root is set to 0 and min_heapify restores the heap property. -/
def extract_min (q : MinPriorityQueue ι) : Except QErr (MinPriorityQueue ι × ι) :=
  if q.size = 0 then .error .indexError
  else
    let smallest := q.entryAt 0
    let q1 : MinPriorityQueue ι :=
      { elements := ((q.elements.set 0 (q.entryAt (q.size - 1))).dropLast),
        mapping := fun a => if a = smallest.2 then none else q.mapping a }
    if 0 < q1.size then
      let q2 : MinPriorityQueue ι :=
        { q1 with mapping := fun a => if a = idAt q1 0 then some 0 else q1.mapping a }
      .ok (q2.min_heapify 0, smallest.2)
    else
      .ok (q1, smallest.2)

/-- Write key k into the pair at index i, keeping its identity, as the
assignment in the success branch of decrease_key does. -/
def setKey (q : MinPriorityQueue ι) (i : Nat) (k : Int) : MinPriorityQueue ι :=
  { elements := q.elements.set i (k, idAt q i), mapping := q.mapping }

/-- The sift-up while-loop of decrease_key: while i is positive and the
parent key is strictly greater, swap with the parent and continue from the
parent index.  The fuel i+1 dominates the depth since the index strictly
decreases. -/
def decrease_key_loop : Nat → MinPriorityQueue ι → Nat → MinPriorityQueue ι
  | 0, q, _ => q
  | fuel + 1, q, i =>
    if 0 < i ∧ keyAt q i < keyAt q (parent i) then
      decrease_key_loop fuel (q.swap i (parent i)) (parent i)
    else q

/-- Embedding of decrease_key: look the identity up in the mapping
(KeyError when absent), refuse a key strictly greater than the stored one
(ValueError, raised before any mutation, so the queue is unchanged),
otherwise store the new key and sift up. -/
def decrease_key (q : MinPriorityQueue ι) (a : ι) (k : Int) :
    Except QErr (MinPriorityQueue ι) :=
  match q.mapping a with
  | none => .error .keyError
  | some i =>
    if k ≤ keyAt q i then .ok (decrease_key_loop (i + 1) (q.setKey i k) i)
    else .error .valueError

/-- Embedding of insert: append the new pair, record its index, then call
decrease_key on the fresh identity with its own key.  That call cannot
fail (the identity was just mapped and the key comparison is an equality),
so the error branch below is unreachable. -/
def insert (q : MinPriorityQueue ι) (k : Int) (a : ι) : MinPriorityQueue ι :=
  let q1 : MinPriorityQueue ι :=
    { elements := q.elements ++ [(k, a)],
      mapping := fun b => if b = a then some q.size else q.mapping b }
  match q1.decrease_key a k with
  | .ok q2 => q2
  | .error _ => q1

/-- Embedding of element_exists: the Python method reads the mapping with
default -1 and tests for a non-negative index; stored indices are natural
numbers, so this is exactly definedness of the mapping entry. -/
def element_exists (q : MinPriorityQueue ι) (a : ι) : Bool :=
  (q.mapping a).isSome

/-- Embedding of get_key: KeyError when the identity is absent, otherwise
the key stored at the mapped index. -/
def get_key (q : MinPriorityQueue ι) (a : ι) : Except QErr Int :=
  match q.mapping a with
  | none => .error .keyError
  | some i => .ok (keyAt q i)

/-- One interface operation of the queue, for stating properties of
operation sequences. -/
inductive QueueOp (ι : Type) where
  | insertOp (k : Int) (a : ι)
  | extractMinOp
  | decreaseKeyOp (a : ι) (k : Int)

/-- Apply one operation, respecting its precondition: an insert of an
identity already present is skipped (the spec forbids duplicate
identities), and a failing extract_min or decrease_key raises before any
mutation in the source, leaving the queue unchanged. -/
def applyOp (q : MinPriorityQueue ι) : QueueOp ι → MinPriorityQueue ι
  | .insertOp k a => if q.element_exists a then q else q.insert k a
  | .extractMinOp =>
    match q.extract_min with
    | .ok (q', _) => q'
    | .error _ => q
  | .decreaseKeyOp a k =>
    match q.decrease_key a k with
    | .ok q' => q'
    | .error _ => q

/-- Apply a sequence of operations in order. -/
def applyOps (q : MinPriorityQueue ι) (ops : List (QueueOp ι)) : MinPriorityQueue ι :=
  ops.foldl applyOp q

/-- The min-heap order: every non-root element in range has a key no
smaller than the key of its parent. -/
def heapOrdered (q : MinPriorityQueue ι) : Prop :=
  ∀ j, 0 < j → j < q.size → keyAt q (parent j) ≤ keyAt q j

/-- Consistency of the identity-to-position mapping with the element
array: every mapped identity points at an in-range slot holding exactly
that identity, and every stored identity is mapped back to its slot. -/
def mapOK (q : MinPriorityQueue ι) : Prop :=
  (∀ a i, q.mapping a = some i → i < q.size ∧ idAt q i = a) ∧
  (∀ i, i < q.size → q.mapping (idAt q i) = some i)

/-- Well-formedness of a queue: heap order plus mapping consistency. -/
def WF (q : MinPriorityQueue ι) : Prop := heapOrdered q ∧ mapOK q

/-- Worker for the subtree relation on array indices, recursing along the
parent chain of j; the fuel j+1 dominates the depth since parent j is
strictly below j for positive j. -/
def inSubtreeAux : Nat → Nat → Nat → Bool
  | 0, _, _ => false
  | fuel + 1, i, j =>
    if j < i then false else if j = i then true else inSubtreeAux fuel i (parent j)

/-- Whether index j lies in the subtree rooted at index i of the implicit
binary heap layout. -/
def inSubtree (i j : Nat) : Bool := inSubtreeAux (j + 1) i j

/-- Heap order restricted to the subtree rooted at i. -/
def heapAt (q : MinPriorityQueue ι) (i : Nat) : Prop :=
  ∀ j, inSubtree i j = true → i < j → j < q.size → keyAt q (parent j) ≤ keyAt q j

/-- Heap order everywhere except possibly on the edge into index i, while
additionally the key of the parent of i bounds the keys of the children of
i.  This is the invariant of the sift-up loop of decrease_key. -/
def heapExceptAt (q : MinPriorityQueue ι) (i : Nat) : Prop :=
  (∀ j, 0 < j → j < q.size → j ≠ i → keyAt q (parent j) ≤ keyAt q j) ∧
  (0 < i → ∀ c, c = leftchild i ∨ c = rightchild i → c < q.size →
    keyAt q (parent i) ≤ keyAt q c)

/-- Worker for drain, extracting repeatedly; fuel equal to the size is
exactly the number of successful extractions possible. -/
def drainAux : Nat → MinPriorityQueue ι → List (Int × ι)
  | 0, _ => []
  | fuel + 1, q =>
    match q.extract_min with
    | .error _ => []
    | .ok (q', a) => (keyAt q 0, a) :: drainAux fuel q'

/-- Repeatedly extract_min until the queue is empty, recording for each
extraction the root key (which is the key of the extracted pair) together
with the extracted identity. -/
def drain (q : MinPriorityQueue ι) : List (Int × ι) := drainAux q.size q

end MinPriorityQueue

/-! ## Embedding of Grid.py

The Node class carries a display state, the search costs and a
predecessor reference; the pygame surface, rect and drawing methods are
rendering-only and have no effect on any claim.  A Python reference to a
node object is modelled by the (row, column) coordinates of its fixed
slot in the two dimensional node list.  The node list itself is modelled
as a function from row and column indices; every mutation in the source
is an in-place update of one slot, so the list shape stays rows by
columns, and an index access succeeds exactly when the indices are below
rows and columns, which nodeAt? captures. -/

/-- The state constants of the Node class. -/
inductive NState where
  | UNDISCOVERED
  | OPENED
  | CLOSED
  | START
  | TARGET
  | OBSTACLE
  | SOLUTION
  | NO_SOL_TARGET
deriving DecidableEq, Repr

/-- Embedding of the Node class attributes (row, col, pos, state, h_cost,
g_cost, prev).  pos is the pixel position (width*col, height*row) set by
the constructor and read back by the neighbour methods through integer
division.  prev holds the coordinates of the referenced node. -/
structure Node where
  row : Nat
  col : Nat
  pos : Nat × Nat
  state : NState
  h_cost : Option Int
  g_cost : Option Int
  prev : Option (Nat × Nat)
deriving DecidableEq, Repr

namespace Node

/-- The Node constructor Node(col, row, width, height). -/
def initNode (col row width height : Nat) : Node :=
  { row := row, col := col, pos := (width * col, height * row),
    state := .UNDISCOVERED, h_cost := none, g_cost := none, prev := none }

/-- toggle_obstacle: UNDISCOVERED becomes OBSTACLE and vice versa; any
other state is left alone. -/
def toggle_obstacle (n : Node) : Node :=
  if n.state = .UNDISCOVERED then { n with state := .OBSTACLE }
  else if n.state = .OBSTACLE then { n with state := .UNDISCOVERED }
  else n

/-- set_start. -/
def set_start (n : Node) : Node := { n with state := .START }

/-- set_target. -/
def set_target (n : Node) : Node := { n with state := .TARGET }

/-- set_no_sol_target. -/
def set_no_sol_target (n : Node) : Node := { n with state := .NO_SOL_TARGET }

/-- make_undiscovered. -/
def make_undiscovered (n : Node) : Node := { n with state := .UNDISCOVERED }

/-- make_open: only a node that is neither start nor target is marked
OPENED. -/
def make_open (n : Node) : Node :=
  if n.state ≠ .START ∧ n.state ≠ .TARGET then { n with state := .OPENED } else n

/-- close: only a node that is neither start nor target is marked
CLOSED. -/
def close (n : Node) : Node :=
  if n.state ≠ .START ∧ n.state ≠ .TARGET then { n with state := .CLOSED } else n

/-- is_obstacle. -/
def is_obstacle (n : Node) : Bool := n.state = .OBSTACLE

/-- add_to_solution. -/
def add_to_solution (n : Node) : Node := { n with state := .SOLUTION }

/-- set_h_cost (the isinstance int assertion is enforced by the type). -/
def set_h_cost (n : Node) (h : Int) : Node := { n with h_cost := some h }

/-- relax_g_cost: assign the candidate cost when g is unset or strictly
larger, returning whether an assignment happened. -/
def relax_g_cost (n : Node) (cost : Int) : Node × Bool :=
  match n.g_cost with
  | none => ({ n with g_cost := some cost }, true)
  | some g => if cost < g then ({ n with g_cost := some cost }, true) else (n, false)

/-- get_f_cost returns h_cost + g_cost.  Python raises a TypeError when
either is None; at every call site of a search run both are set (h by
calculate_all_h_costs, g by the preceding relaxation), so the getD
defaults are never observable there. -/
def get_f_cost (n : Node) : Int := n.h_cost.getD 0 + n.g_cost.getD 0

/-- set_prev (the isinstance Node check is enforced by the type). -/
def set_prev (n : Node) (p : Nat × Nat) : Node := { n with prev := some p }

end Node

/-- Coordinates of a grid slot, the identity of a node object. -/
abbrev Coord := Nat × Nat

/-- Embedding of the Grid class.  start and target are the node
references held in the start and target attributes (None before they are
set); solved is the solved flag. -/
structure Grid where
  width : Nat
  height : Nat
  columns : Nat
  rows : Nat
  nodes : Nat → Nat → Node
  start : Option Coord
  target : Option Coord
  solved : Bool

namespace Grid

/-- Cost of a vertical or horizontal movement. -/
def VERT_HORZ_COST : Int := 10

/-- Cost of a diagonal movement. -/
def DIAG_COST : Int := 14

/-- An index access nodes[r][c], raising IndexError (modelled by none)
when a non-negative index is out of range. -/
def nodeAt? (g : Grid) (r c : Nat) : Option Node :=
  if r < g.rows ∧ c < g.columns then some (g.nodes r c) else none

/-- In-place update of the node object at one slot. -/
def setNode (g : Grid) (r c : Nat) (nd : Node) : Grid :=
  { g with nodes := fun r' c' => if r' = r ∧ c' = c then nd else g.nodes r' c' }

/-- create_grid: a fresh rows-by-columns arrangement of undiscovered
nodes, each sized width//columns by height//rows, with the solved flag
cleared.  The start and target attributes are still unset, as after the
first half of the Grid constructor. -/
def create_grid (width height columns rows : Nat) : Grid :=
  { width := width, height := height, columns := columns, rows := rows,
    nodes := fun r c => Node.initNode c r (width / columns) (height / rows),
    start := none, target := none, solved := false }

/-- set_start_node with an explicit node argument (the Python default
argument selects nodes[9][4]).  The node becomes the start only if it is
not currently the target; the previous start node, when present, is made
undiscovered first. -/
def set_start_node (g : Grid) (rc : Coord) : Grid :=
  if g.target ≠ some rc then
    let g1 := match g.start with
      | some s => g.setNode s.1 s.2 ((g.nodes s.1 s.2).make_undiscovered)
      | none => g
    let g2 := g1.setNode rc.1 rc.2 ((g1.nodes rc.1 rc.2).set_start)
    { g2 with start := some rc }
  else g

/-- set_target_node with an explicit node argument (the Python default
argument selects nodes[9][-5], which wraps to column columns-5). -/
def set_target_node (g : Grid) (rc : Coord) : Grid :=
  if g.start ≠ some rc then
    let g1 := match g.target with
      | some t => g.setNode t.1 t.2 ((g.nodes t.1 t.2).make_undiscovered)
      | none => g
    let g2 := g1.setNode rc.1 rc.2 ((g1.nodes rc.1 rc.2).set_target)
    { g2 with target := some rc }
  else g

/-- The toggle performed by set_as_obstacle on a freshly selected node. -/
def toggle_obstacle_at (g : Grid) (rc : Coord) : Grid :=
  g.setNode rc.1 rc.2 ((g.nodes rc.1 rc.2).toggle_obstacle)

/-- The grid produced by the Grid constructor with explicit start and
target coordinates: create_grid, then set_start_node, then
set_target_node. -/
def fresh (width height columns rows : Nat) (s t : Coord) : Grid :=
  ((create_grid width height columns rows).set_start_node s).set_target_node t

/-- calculate_all_h_costs: set the h cost of every node to the octile
distance to the target node, computed from the row and column attributes
of the node and of the target, scaled by the two movement costs.  The
target attribute is always set when a search runs (solve guards). -/
def calculate_all_h_costs (g : Grid) : Grid :=
  let t := g.target.getD (0, 0)
  let tn := g.nodes t.1 t.2
  { g with nodes := fun r c =>
      if r < g.rows ∧ c < g.columns then
        let node := g.nodes r c
        let vdist := ((node.row : Int) - (tn.row : Int)).natAbs
        let hdist := ((node.col : Int) - (tn.col : Int)).natAbs
        let diag := min vdist hdist
        let updown := max vdist hdist - min vdist hdist
        node.set_h_cost ((diag : Int) * DIAG_COST + (updown : Int) * VERT_HORZ_COST)
      else g.nodes r c }

/-- get_vert_horz_neighbours: recover the row and column of the given
node from its pixel position by integer division (Python would raise
ZeroDivisionError when width//columns or height//rows is zero; the claims
assume positive cell dimensions), then for each of the four orthogonal
offsets keep the node when both shifted indices are non-negative and in
range (the try/except IndexError of the source) and the node is not an
obstacle. -/
def get_vert_horz_neighbours (g : Grid) (node : Node) : List Node :=
  let cw := g.width / g.columns
  let ch := g.height / g.rows
  let col := node.pos.1 / cw
  let row := node.pos.2 / ch
  [((-1 : Int), (0 : Int)), (1, 0), (0, -1), (0, 1)].filterMap fun ij =>
    if (row : Int) + ij.1 ≥ 0 ∧ (col : Int) + ij.2 ≥ 0 then
      match g.nodeAt? ((row : Int) + ij.1).toNat ((col : Int) + ij.2).toNat with
      | some adj => if ¬ adj.is_obstacle then some adj else none
      | none => none
    else none

/-- get_diag_neighbors: as get_vert_horz_neighbours, with the four
diagonal offsets. -/
def get_diag_neighbors (g : Grid) (node : Node) : List Node :=
  let cw := g.width / g.columns
  let ch := g.height / g.rows
  let col := node.pos.1 / cw
  let row := node.pos.2 / ch
  [((-1 : Int), (-1 : Int)), (1, -1), (-1, 1), (1, 1)].filterMap fun ij =>
    if (row : Int) + ij.1 ≥ 0 ∧ (col : Int) + ij.2 ≥ 0 then
      match g.nodeAt? ((row : Int) + ij.1).toNat ((col : Int) + ij.2).toNat with
      | some adj => if ¬ adj.is_obstacle then some adj else none
      | none => none
    else none

/-- The references returned by get_vert_horz_neighbours, as
coordinates. -/
def vhNeighbourCoords (g : Grid) (rc : Coord) : List Coord :=
  (g.get_vert_horz_neighbours (g.nodes rc.1 rc.2)).map fun nd => (nd.row, nd.col)

/-- The references returned by get_diag_neighbors, as coordinates. -/
def diagNeighbourCoords (g : Grid) (rc : Coord) : List Coord :=
  (g.get_diag_neighbors (g.nodes rc.1 rc.2)).map fun nd => (nd.row, nd.col)

end Grid

/-- The mutable state of one run of find_path_nonvisual: the grid (whose
nodes carry g, h and prev), the opened priority queue of node references,
and the closed set (a Python set of node references, as a list of
coordinates that is kept duplicate-free by the algorithm). -/
structure SearchState where
  grid : Grid
  opened : MinPriorityQueue Coord
  closed : List Coord

namespace Grid

/-- The body of one neighbour iteration of the search loop: relax the
neighbour with the candidate cost current.g + cost; on success set its
predecessor to current and either decrease its key to the new f cost
(when already in the queue) or insert it with that f cost.  A failing
relaxation leaves grid and queue unchanged.  current.get_g_cost() is an
int whenever current has been extracted from the queue. -/
def relax_neighbour (cur : Coord) (cost : Int) (st : Grid × MinPriorityQueue Coord)
    (nb : Coord) : Except QErr (Grid × MinPriorityQueue Coord) :=
  let G := st.1
  let q := st.2
  let curNode := G.nodes cur.1 cur.2
  let cand := curNode.g_cost.getD 0 + cost
  let res := (G.nodes nb.1 nb.2).relax_g_cost cand
  if res.2 then
    let nd2 := res.1.set_prev cur
    let G2 := G.setNode nb.1 nb.2 nd2
    if q.element_exists nb then
      match q.decrease_key nb nd2.get_f_cost with
      | .ok q2 => .ok (G2, q2)
      | .error e => .error e
    else
      .ok (G2, q.insert nd2.get_f_cost nb)
  else .ok (G, q)

/-- One of the two neighbour for-loops, processed in list order. -/
def relax_neighbours (cur : Coord) (cost : Int) (st : Grid × MinPriorityQueue Coord)
    (nbs : List Coord) : Except QErr (Grid × MinPriorityQueue Coord) :=
  nbs.foldlM (relax_neighbour cur cost) st

/-- One iteration of the while loop of find_path_nonvisual: extract the
minimum (IndexError propagates), either finish on the target (setting the
solved flag) or relax the orthogonal then the diagonal neighbours, and in
both cases add current to the closed set.  inl is the path-found exit,
inr continues the loop. -/
def find_path_step (tgt : Coord) (s : SearchState) :
    Except QErr (SearchState ⊕ SearchState) :=
  match s.opened.extract_min with
  | .error e => .error e
  | .ok (q', cur) =>
    if cur = tgt then
      .ok (.inl { grid := { s.grid with solved := true },
                  opened := q', closed := s.closed ++ [cur] })
    else
      let vh := s.grid.vhNeighbourCoords cur
      let dg := s.grid.diagNeighbourCoords cur
      match relax_neighbours cur VERT_HORZ_COST (s.grid, q') vh with
      | .error e => .error e
      | .ok (G1, q1) =>
        match relax_neighbours cur DIAG_COST (G1, q1) dg with
        | .error e => .error e
        | .ok (G2, q2) =>
          .ok (.inr { grid := G2, opened := q2, closed := s.closed ++ [cur] })

/-- The possible ends of a search run: the target was found; the queue
emptied (the IndexError of extract_min, caught by solve); another queue
exception propagated (never happens in a well-formed run); or the
modelling fuel ran out (dominated below by rows*columns+1 for every run
from a well-formed state). -/
inductive SearchOutcome where
  | found (s : SearchState)
  | queueEmpty (s : SearchState)
  | raised (e : QErr)
  | outOfFuel (s : SearchState)

/-- The while loop of find_path_nonvisual. -/
def find_path_loop (tgt : Coord) : Nat → SearchState → SearchOutcome
  | 0, s => .outOfFuel s
  | fuel + 1, s =>
    match find_path_step tgt s with
    | .error .indexError => .queueEmpty s
    | .error e => .raised e
    | .ok (.inl s') => .found s'
    | .ok (.inr s') => find_path_loop tgt fuel s'

/-- The initialization of find_path_nonvisual (and of find_path): a fresh
empty queue and closed set, calculate_all_h_costs over the whole grid,
relax the start g cost to 0 (the Boolean result is discarded), and insert
the start reference with its f cost.  Nothing else is reset. -/
def init_run (g : Grid) : SearchState :=
  let s := g.start.getD (0, 0)
  let g1 := g.calculate_all_h_costs
  let g2 := g1.setNode s.1 s.2 ((g1.nodes s.1 s.2).relax_g_cost 0).1
  { grid := g2,
    opened := (MinPriorityQueue.init []).insert ((g2.nodes s.1 s.2).get_f_cost) s,
    closed := [] }

/-- find_path_nonvisual, run with the given fuel. -/
def find_path_nonvisual (g : Grid) (fuel : Nat) : SearchOutcome :=
  find_path_loop (g.target.getD (0, 0)) fuel g.init_run

/-- Result of print_path: the updated grid, or the AttributeError Python
raises when the predecessor chain hits None before reaching start. -/
inductive PathResult where
  | ok (g : Grid)
  | attrError
  | outOfFuel

/-- The while loop of print_path: walk the predecessor chain from the
target predecessor, marking every node as solution, until the start node
reference is reached; stepping through None raises AttributeError. -/
def print_path_loop (s : Coord) : Nat → Grid → Option Coord → PathResult
  | 0, _, _ => .outOfFuel
  | fuel + 1, g, cur =>
    if cur = some s then .ok g
    else
      match cur with
      | none => .attrError
      | some c =>
        let g2 := g.setNode c.1 c.2 ((g.nodes c.1 c.2).add_to_solution)
        print_path_loop s fuel g2 ((g2.nodes c.1 c.2).prev)

/-- print_path: only acts when the grid is solved. -/
def print_path (g : Grid) (fuel : Nat) : PathResult :=
  if g.solved then
    print_path_loop (g.start.getD (0, 0)) fuel g
      ((g.nodes (g.target.getD (0, 0)).1 (g.target.getD (0, 0)).2).prev)
  else .ok g

/-- print_no_solution: mark the target node as the no-solution target. -/
def print_no_solution (g : Grid) : Grid :=
  let t := g.target.getD (0, 0)
  g.setNode t.1 t.2 ((g.nodes t.1 t.2).set_no_sol_target)

/-- The outcomes of solve. -/
inductive SolveOutcome where
  | done (g : Grid)
  | attrErrorStartTarget
  | attrErrorPath
  | raised (e : QErr)
  | outOfFuel

/-- solve(show_steps=False): guard on unset start or target, run
find_path_nonvisual, translate the IndexError into print_no_solution, and
otherwise run print_path.  The internal print_path fuel rows*columns+1
dominates the predecessor chain length of every reachable solved grid
(the g cost strictly decreases along the chain). -/
def solve (g : Grid) (fuel : Nat) : SolveOutcome :=
  if g.start = none ∨ g.target = none then .attrErrorStartTarget
  else
    match g.find_path_nonvisual fuel with
    | .queueEmpty s => .done s.grid.print_no_solution
    | .found s =>
      match s.grid.print_path (g.rows * g.columns + 1) with
      | .ok g' => .done g'
      | .attrError => .attrErrorPath
      | .outOfFuel => .outOfFuel
    | .raised e => .raised e
    | .outOfFuel _ => .outOfFuel

end Grid

/-! ## Specification-side notions for the grid claims -/

/-- Octile distance between two coordinates under the movement cost
model: 14 per diagonal step, 10 per remaining straight step. -/
def octile (a b : Coord) : Nat :=
  let dr := ((a.1 : Int) - (b.1 : Int)).natAbs
  let dc := ((a.2 : Int) - (b.2 : Int)).natAbs
  14 * min dr dc + 10 * (max dr dc - min dr dc)

/-- Orthogonal adjacency of two coordinates. -/
def OrthAdj (u v : Coord) : Prop :=
  (u.1 = v.1 ∧ (v.2 = u.2 + 1 ∨ u.2 = v.2 + 1)) ∨
  (u.2 = v.2 ∧ (v.1 = u.1 + 1 ∨ u.1 = v.1 + 1))

instance (u v : Coord) : Decidable (OrthAdj u v) := by
  unfold OrthAdj
  infer_instance

/-- Diagonal adjacency of two coordinates. -/
def DiagAdj (u v : Coord) : Prop :=
  (v.1 = u.1 + 1 ∨ u.1 = v.1 + 1) ∧ (v.2 = u.2 + 1 ∨ u.2 = v.2 + 1)

instance (u v : Coord) : Decidable (DiagAdj u v) := by
  unfold DiagAdj
  infer_instance

namespace Grid

/-- Whether a coordinate is inside the grid. -/
def inBounds (g : Grid) (v : Coord) : Prop := v.1 < g.rows ∧ v.2 < g.columns

instance (g : Grid) (v : Coord) : Decidable (g.inBounds v) := by
  unfold inBounds
  infer_instance

/-- Whether the node at a coordinate is an obstacle. -/
def isObst (g : Grid) (v : Coord) : Bool := (g.nodes v.1 v.2).is_obstacle

/-- The movement model realized by the search code: a path from s walks
through in-bounds non-obstacle cells (the cell stepped from is not
checked, matching the neighbour methods, which filter the destination
only), paying 10 per orthogonal and 14 per diagonal step.  PathCost g s v
n says some such path from s to v costs exactly n. -/
inductive PathCost (g : Grid) (s : Coord) : Coord → Nat → Prop where
  | nil : PathCost g s s 0
  | orth {u v : Coord} {n : Nat} : PathCost g s u n → OrthAdj u v →
      g.inBounds v → g.isObst v = false → PathCost g s v (n + 10)
  | diag {u v : Coord} {n : Nat} : PathCost g s u n → DiagAdj u v →
      g.inBounds v → g.isObst v = false → PathCost g s v (n + 14)

/-- Reachability in the movement model. -/
def Reachable (g : Grid) (s t : Coord) : Prop := ∃ n, PathCost g s t n

/-- Structural well-formedness of a grid as produced by the constructor:
positive cell dimensions, and every in-range node stores its own row,
column and pixel position. -/
def Coherent (g : Grid) : Prop :=
  0 < g.width / g.columns ∧ 0 < g.height / g.rows ∧
  ∀ r, r < g.rows → ∀ c, c < g.columns →
    (g.nodes r c).row = r ∧ (g.nodes r c).col = c ∧
    (g.nodes r c).pos = ((g.width / g.columns) * c, (g.height / g.rows) * r)

instance (g : Grid) : Decidable g.Coherent := by
  unfold Coherent
  infer_instance

/-- The grid delivered by a normally finished solve, with a fallback for
the other outcomes; used to feed the end grid of one run into a later
run. -/
def SolveOutcome.gridD (o : SolveOutcome) (d : Grid) : Grid :=
  match o with
  | .done g2 => g2
  | _ => d

/-- The display state of one cell after a normally finished solve (none
for the other outcomes), an observation on solve results that is
comparable by evaluation. -/
def SolveOutcome.stateAt (o : SolveOutcome) (r c : Nat) : Option NState :=
  match o with
  | .done g2 => some (g2.nodes r c).state
  | _ => none

/-- The solved flag after a normally finished solve. -/
def SolveOutcome.solvedFlag (o : SolveOutcome) : Option Bool :=
  match o with
  | .done g2 => some g2.solved
  | _ => none

/-- One admissible move of the cost model: an orthogonal step of cost 10
or a diagonal step of cost 14 into an in-bounds non-obstacle cell (the
neighbour methods check the destination only). -/
def EdgeW (g : Grid) (u v : Coord) (w : Nat) : Prop :=
  ((w = 10 ∧ OrthAdj u v) ∨ (w = 14 ∧ DiagAdj u v)) ∧
  g.inBounds v ∧ g.isObst v = false

end Grid

/-- A 5 by 5 grid whose target (2,2) is fully enclosed by obstacle cells
on all 8 sides — the unreachable-target configuration named by the
specification. -/
def ringGrid : Grid :=
  ((((((((Grid.fresh 5 5 5 5 (0, 0) (2, 2)).toggle_obstacle_at
    (1, 1)).toggle_obstacle_at (1, 2)).toggle_obstacle_at
    (1, 3)).toggle_obstacle_at (2, 1)).toggle_obstacle_at
    (2, 3)).toggle_obstacle_at (3, 1)).toggle_obstacle_at
    (3, 2)).toggle_obstacle_at (3, 3)

/-- The relaxation-independent part of the loop invariant of
find_path_nonvisual, relative to the pre-run grid g, the start s and the
target t; G, q and cl are the current grid, open queue and closed set.
The grid keeps its dimensions, endpoints, solved flag and per-node
skeleton (row, column, pixel position, display state); every in-range
cell holds the octile heuristic; the queue is well formed and holds
in-bounds references keyed by h plus the stored g; every stored g cost is
the cost of a real path from s; queue and closed set are disjoint; a cell
with a g cost is in the queue or closed; closed cells are in bounds, have
a g cost that undercuts every path from s, and are never revisited
(no duplicates); the start has g cost 0 and the closed set either is
empty (with the queue holding only references to s) or contains s; the
target is not closed. -/
structure ACore (g : Grid) (s t : Coord) (G : Grid) (q : MinPriorityQueue Coord)
    (cl : List Coord) : Prop where
  dims : G.rows = g.rows ∧ G.columns = g.columns ∧
    G.width = g.width ∧ G.height = g.height
  ends : G.start = g.start ∧ G.target = g.target
  skel : ∀ r c, (G.nodes r c).row = (g.nodes r c).row ∧
    (G.nodes r c).col = (g.nodes r c).col ∧
    (G.nodes r c).pos = (g.nodes r c).pos ∧
    (G.nodes r c).state = (g.nodes r c).state
  unsolved : G.solved = g.solved
  hset : ∀ r c, r < g.rows → c < g.columns →
    (G.nodes r c).h_cost = some ((octile (r, c) t : Nat) : Int)
  wf : MinPriorityQueue.WF q
  gsound : ∀ v : Coord, g.inBounds v → ∀ z : Int,
    (G.nodes v.1 v.2).g_cost = some z →
    ∃ n : Nat, z = (n : Int) ∧ g.PathCost s v n
  qbnd : ∀ x ∈ q.elements, g.inBounds x.2
  keys : ∀ x ∈ q.elements, ∃ gz : Int,
    (G.nodes x.2.1 x.2.2).g_cost = some gz ∧
    x.1 = ((octile x.2 t : Nat) : Int) + gz
  qdisj : ∀ x ∈ q.elements, x.2 ∉ cl
  openC : ∀ v : Coord, g.inBounds v →
    (G.nodes v.1 v.2).g_cost ≠ none → v ∉ cl →
    q.element_exists v = true
  closedBnd : ∀ v ∈ cl, g.inBounds v
  closedG : ∀ v ∈ cl, (G.nodes v.1 v.2).g_cost ≠ none
  closedMin : ∀ v ∈ cl, ∀ z, (G.nodes v.1 v.2).g_cost = some z →
    ∀ n : Nat, g.PathCost s v n → z ≤ (n : Int)
  gstart : (G.nodes s.1 s.2).g_cost = some 0
  startCl : s ∈ cl ∨ (cl = [] ∧ ∀ x ∈ q.elements, x.2 = s)
  nodup : cl.Nodup
  tfree : t ∉ cl

/-- The remaining invariant clause: every admissible move out of a cell
of cl is relaxed in G — the g cost of the move's destination undercuts
the g cost of its source plus the move cost. -/
def ClosedRelaxOn (g G : Grid) (cl : List Coord) : Prop :=
  ∀ u ∈ cl, ∀ v w, g.EdgeW u v w →
    ∀ zu, (G.nodes u.1 u.2).g_cost = some zu →
    ∃ zv, (G.nodes v.1 v.2).g_cost = some zv ∧ zv ≤ zu + (w : Int)

/-- The full loop invariant of find_path_nonvisual. -/
def AInv (g : Grid) (s t : Coord) (S : SearchState) : Prop :=
  ACore g s t S.grid S.opened S.closed ∧ ClosedRelaxOn g S.grid S.closed

/-- What holds of the state delivered by the found exit of the search
loop: the solved flag is set, the endpoints are kept, the target is
closed, and every closed cell's g cost is the cost of a path from the
start that undercuts every path from the start — the shortest-path
cost. -/
def FoundSpec (g : Grid) (s t : Coord) (S2 : SearchState) : Prop :=
  S2.grid.solved = true ∧ S2.grid.start = g.start ∧ S2.grid.target = g.target ∧
  t ∈ S2.closed ∧
  ∀ v ∈ S2.closed, ∃ z : Int, (S2.grid.nodes v.1 v.2).g_cost = some z ∧
    (∀ n : Nat, g.PathCost s v n → z ≤ (n : Int)) ∧
    (∃ nc : Nat, z = (nc : Int) ∧ g.PathCost s v nc)

/-! ## Lemmas about the priority queue -/

namespace MinPriorityQueue

variable {ι : Type} [DecidableEq ι] [Inhabited ι]

theorem getElem?_eq_entryAt (q : MinPriorityQueue ι) (i : Nat) (h : i < q.size) :
    q.elements[i]? = some (q.entryAt i) := by
  unfold entryAt
  rw [List.getElem?_eq_getElem h, List.getD_eq_getElem?_getD, List.getElem?_eq_getElem h]
  rfl

theorem entryAt_mem (q : MinPriorityQueue ι) (i : Nat) (h : i < q.size) :
    q.entryAt i ∈ q.elements :=
  List.mem_iff_getElem?.mpr ⟨i, q.getElem?_eq_entryAt i h⟩

theorem entryAt_congr {q q' : MinPriorityQueue ι} (i : Nat)
    (h : q.elements[i]? = q'.elements[i]?) : q.entryAt i = q'.entryAt i := by
  unfold entryAt
  rw [List.getD_eq_getElem?_getD, List.getD_eq_getElem?_getD, h]

@[simp] theorem size_swap (q : MinPriorityQueue ι) (i j : Nat) :
    (q.swap i j).size = q.size := by
  simp [swap, size]

theorem mapping_swap (q : MinPriorityQueue ι) (i j : Nat) (a : ι) :
    (q.swap i j).mapping a =
      if a = idAt q i then some j else if a = idAt q j then some i else q.mapping a := rfl

theorem entryAt_of_getElem? {q : MinPriorityQueue ι} {i : Nat} {x : Int × ι}
    (h : q.elements[i]? = some x) : q.entryAt i = x := by
  unfold entryAt
  rw [List.getD_eq_getElem?_getD, h]
  rfl

theorem entryAt_swap_j (q : MinPriorityQueue ι) (i j : Nat) (hj : j < q.size) :
    (q.swap i j).entryAt j = q.entryAt i := by
  apply entryAt_of_getElem?
  show ((q.elements.set i _).set j _)[j]? = _
  rw [List.getElem?_set_self', List.getElem?_eq_getElem (by simpa [size] using hj)]
  rfl

theorem entryAt_swap_i (q : MinPriorityQueue ι) (i j : Nat) (hi : i < q.size)
    (hij : i ≠ j) : (q.swap i j).entryAt i = q.entryAt j := by
  apply entryAt_of_getElem?
  show ((q.elements.set i _).set j _)[i]? = _
  rw [List.getElem?_set_ne (by omega), List.getElem?_set_self',
    List.getElem?_eq_getElem (by simpa [size] using hi)]
  rfl

theorem entryAt_swap_other (q : MinPriorityQueue ι) (i j m : Nat)
    (hmi : m ≠ i) (hmj : m ≠ j) : (q.swap i j).entryAt m = q.entryAt m := by
  apply entryAt_congr
  show ((q.elements.set i _).set j _)[m]? = _
  rw [List.getElem?_set_ne (by omega), List.getElem?_set_ne (by omega)]

theorem mem_swap (q : MinPriorityQueue ι) (i j : Nat) (hi : i < q.size)
    (hj : j < q.size) (x : Int × ι) : x ∈ (q.swap i j).elements ↔ x ∈ q.elements := by
  constructor
  · intro hx
    rcases List.mem_or_eq_of_mem_set hx with hx' | rfl
    · rcases List.mem_or_eq_of_mem_set hx' with hx'' | rfl
      · exact hx''
      · exact q.entryAt_mem j hj
    · exact q.entryAt_mem i hi
  · intro hx
    rcases List.mem_iff_getElem?.mp hx with ⟨k, hk⟩
    have hk' : k < q.size := by
      have := List.getElem?_eq_some_iff.mp hk
      simpa [size] using this.1
    have hekx : q.entryAt k = x := entryAt_of_getElem? hk
    by_cases hkj : k = j
    · by_cases hij : i = j
      · refine List.mem_iff_getElem?.mpr ⟨j, ?_⟩
        rw [getElem?_eq_entryAt _ j (by simpa using hj), entryAt_swap_j q i j hj, hij, ← hkj,
          hekx]
      · refine List.mem_iff_getElem?.mpr ⟨i, ?_⟩
        rw [getElem?_eq_entryAt _ i (by simpa using hi), entryAt_swap_i q i j hi hij, ← hkj,
          hekx]
    · by_cases hki : k = i
      · refine List.mem_iff_getElem?.mpr ⟨j, ?_⟩
        rw [getElem?_eq_entryAt _ j (by simpa using hj), entryAt_swap_j q i j hj, ← hki, hekx]
      · refine List.mem_iff_getElem?.mpr ⟨k, ?_⟩
        rw [getElem?_eq_entryAt _ k (by simpa using hk'), entryAt_swap_other q i j k hki hkj,
          hekx]

/-! ### Heap index arithmetic and the subtree relation -/

theorem parent_lt {j : Nat} (h : 0 < j) : parent j < j := by
  unfold parent; omega

theorem parent_leftchild (i : Nat) : parent (leftchild i) = i := by
  unfold parent leftchild; omega

theorem parent_rightchild (i : Nat) : parent (rightchild i) = i := by
  unfold parent rightchild; omega

theorem child_of_parent {i j : Nat} (hj : 0 < j) (h : parent j = i) :
    j = leftchild i ∨ j = rightchild i := by
  unfold parent at h; unfold leftchild rightchild; omega

theorem lt_leftchild (i : Nat) : i < leftchild i := by unfold leftchild; omega

theorem lt_rightchild (i : Nat) : i < rightchild i := by unfold rightchild; omega

theorem inSubtreeAux_congr (i : Nat) :
    ∀ j fuel, j < fuel → inSubtreeAux fuel i j = inSubtree i j := by
  intro j
  induction j using Nat.strong_induction_on with
  | _ j IH =>
    intro fuel hf
    match fuel, hf with
    | f + 1, hf =>
      show inSubtreeAux (f + 1) i j = inSubtreeAux (j + 1) i j
      unfold inSubtreeAux
      by_cases h1 : j < i
      · simp [h1]
      · by_cases h2 : j = i
        · simp [h1, h2]
        · have hj : 0 < j := by omega
          have hpj : parent j < j := parent_lt hj
          simp only [if_neg h1, if_neg h2]
          rw [IH (parent j) hpj f (by omega), IH (parent j) hpj j hpj]

theorem inSubtree_eq (i j : Nat) :
    inSubtree i j = if j < i then false else if j = i then true else inSubtree i (parent j) := by
  show inSubtreeAux (j + 1) i j = _
  unfold inSubtreeAux
  by_cases h1 : j < i
  · simp [h1]
  · by_cases h2 : j = i
    · simp [h1, h2]
    · have hj : 0 < j := by omega
      simp only [if_neg h1, if_neg h2]
      exact inSubtreeAux_congr i (parent j) j (parent_lt hj)

theorem inSubtree_self (i : Nat) : inSubtree i i = true := by
  rw [inSubtree_eq]; simp

theorem inSubtree_le {i j : Nat} (h : inSubtree i j = true) : i ≤ j := by
  by_contra hc
  rw [inSubtree_eq, if_pos (by omega)] at h
  exact Bool.false_ne_true h

theorem inSubtree_parent {i j : Nat} (h : inSubtree i j = true) (hne : j ≠ i) :
    inSubtree i (parent j) = true ∧ i < j := by
  have hle := inSubtree_le h
  have hij : i < j := by omega
  rw [inSubtree_eq, if_neg (by omega), if_neg hne] at h
  exact ⟨h, hij⟩

theorem inSubtree_of_parent {i j : Nat} (hij : i < j) (h : inSubtree i (parent j) = true) :
    inSubtree i j = true := by
  rw [inSubtree_eq, if_neg (by omega), if_neg (by omega)]
  exact h

theorem inSubtree_leftchild (i : Nat) : inSubtree i (leftchild i) = true :=
  inSubtree_of_parent (lt_leftchild i) (by rw [parent_leftchild]; exact inSubtree_self i)

theorem inSubtree_rightchild (i : Nat) : inSubtree i (rightchild i) = true :=
  inSubtree_of_parent (lt_rightchild i) (by rw [parent_rightchild]; exact inSubtree_self i)

theorem inSubtree_trans {i j : Nat} (h1 : inSubtree i j = true) :
    ∀ m, inSubtree j m = true → inSubtree i m = true := by
  intro m
  induction m using Nat.strong_induction_on with
  | _ m IH =>
    intro h2
    by_cases hmj : m = j
    · exact hmj ▸ h1
    · obtain ⟨hp, hlt⟩ := inSubtree_parent h2 hmj
      have hrec := IH (parent m) (parent_lt (by omega)) hp
      have hile : i ≤ j := inSubtree_le h1
      exact inSubtree_of_parent (by omega) hrec

theorem inSubtree_zero : ∀ j, inSubtree 0 j = true := by
  intro j
  induction j using Nat.strong_induction_on with
  | _ j IH =>
    by_cases hj : j = 0
    · exact hj ▸ inSubtree_self 0
    · exact inSubtree_of_parent (by omega) (IH (parent j) (parent_lt (by omega)))

theorem inSubtree_child {i : Nat} :
    ∀ j, inSubtree i j = true → j ≠ i →
      inSubtree (leftchild i) j = true ∨ inSubtree (rightchild i) j = true := by
  intro j
  induction j using Nat.strong_induction_on with
  | _ j IH =>
    intro h hne
    obtain ⟨hp, hij⟩ := inSubtree_parent h hne
    by_cases hpi : parent j = i
    · rcases child_of_parent (by omega) hpi with hc | hc
      · exact Or.inl (hc ▸ inSubtree_self _)
      · exact Or.inr (hc ▸ inSubtree_self _)
    · rcases IH (parent j) (parent_lt (by omega)) hp hpi with hc | hc
      · exact Or.inl (inSubtree_of_parent (by have := inSubtree_le hc; have := parent_lt (show 0 < j by omega); omega) hc)
      · exact Or.inr (inSubtree_of_parent (by have := inSubtree_le hc; have := parent_lt (show 0 < j by omega); omega) hc)

theorem leftchild_le_of_mem {i j : Nat} (h : inSubtree i j = true) (hne : j ≠ i) :
    leftchild i ≤ j := by
  rcases inSubtree_child j h hne with hc | hc
  · exact inSubtree_le hc
  · have := inSubtree_le hc
    unfold leftchild rightchild at *
    omega

theorem inSubtree_comparable {i j : Nat} (hij : i ≤ j) :
    ∀ m, inSubtree i m = true → inSubtree j m = true → inSubtree i j = true := by
  intro m
  induction m using Nat.strong_induction_on with
  | _ m IH =>
    intro h1 h2
    by_cases hmj : m = j
    · exact hmj ▸ h1
    · by_cases hmi : m = i
      · have : j ≤ i := inSubtree_le (hmi ▸ h2)
        have : i = j := by omega
        exact this ▸ inSubtree_self i
      · obtain ⟨hp1, _⟩ := inSubtree_parent h1 hmi
        obtain ⟨hp2, _⟩ := inSubtree_parent h2 hmj
        exact IH (parent m) (parent_lt (by have := inSubtree_le h1; omega)) hp1 hp2

theorem subtree_disjoint {i j m : Nat} (hij : i ≤ j) (hnot : ¬ inSubtree i j = true)
    (h1 : inSubtree i m = true) (h2 : inSubtree j m = true) : False :=
  hnot (inSubtree_comparable hij m h1 h2)

/-! ### Subtree heap order -/

theorem heapAt_sub {q : MinPriorityQueue ι} {i j : Nat} (h : heapAt q i)
    (hij : inSubtree i j = true) : heapAt q j := by
  intro m hm him hms
  exact h m (inSubtree_trans hij m hm) (by have := inSubtree_le hij; omega) hms

theorem heapAt_root_le {q : MinPriorityQueue ι} {i : Nat} (h : heapAt q i) :
    ∀ j, inSubtree i j = true → j < q.size → keyAt q i ≤ keyAt q j := by
  intro j
  induction j using Nat.strong_induction_on with
  | _ j IH =>
    intro hj hjs
    by_cases hji : j = i
    · exact hji ▸ le_refl _
    · obtain ⟨hp, hij⟩ := inSubtree_parent hj hji
      have h1 : keyAt q i ≤ keyAt q (parent j) :=
        IH (parent j) (parent_lt (by omega)) hp (by have := parent_lt (show 0 < j by omega); omega)
      have h2 : keyAt q (parent j) ≤ keyAt q j := h j hj hij hjs
      omega

theorem heapAt_of_no_child {q : MinPriorityQueue ι} {i : Nat} (h : q.size ≤ leftchild i) :
    heapAt q i := by
  intro j hj hij hjs
  have := leftchild_le_of_mem hj (by omega)
  omega

theorem heapOrdered_iff_heapAt_zero (q : MinPriorityQueue ι) :
    heapOrdered q ↔ heapAt q 0 := by
  constructor
  · intro h j hj h0 hs
    exact h j h0 hs
  · intro h j h0 hs
    exact h j (inSubtree_zero j) h0 hs

/-! ### Correctness of min_heapify -/

theorem keyAt_swap_j (q : MinPriorityQueue ι) (i j : Nat) (hj : j < q.size) :
    keyAt (q.swap i j) j = keyAt q i := by
  unfold keyAt; rw [entryAt_swap_j q i j hj]

theorem keyAt_swap_i (q : MinPriorityQueue ι) (i j : Nat) (hi : i < q.size) (hij : i ≠ j) :
    keyAt (q.swap i j) i = keyAt q j := by
  unfold keyAt; rw [entryAt_swap_i q i j hi hij]

theorem keyAt_swap_other (q : MinPriorityQueue ι) (i j m : Nat) (hmi : m ≠ i) (hmj : m ≠ j) :
    keyAt (q.swap i j) m = keyAt q m := by
  unfold keyAt; rw [entryAt_swap_other q i j m hmi hmj]

theorem hs_spec (q : MinPriorityQueue ι) (i : Nat) :
    heapSmallest q i = i ∨
      (i < heapSmallest q i ∧ heapSmallest q i < q.size ∧
        keyAt q (heapSmallest q i) < keyAt q i ∧
        (heapSmallest q i = leftchild i ∨ heapSmallest q i = rightchild i)) := by
  simp only [heapSmallest]
  have hlc := lt_leftchild i
  have hrc := lt_rightchild i
  split_ifs with h1 h2 h3
  · exact Or.inr ⟨hrc, h2.1, by omega, Or.inr rfl⟩
  · exact Or.inr ⟨hlc, h1.1, h1.2, Or.inl rfl⟩
  · exact Or.inr ⟨hrc, h3.1, h3.2, Or.inr rfl⟩
  · exact Or.inl rfl

theorem hs_le_left (q : MinPriorityQueue ι) (i : Nat) (h : leftchild i < q.size) :
    keyAt q (heapSmallest q i) ≤ keyAt q (leftchild i) := by
  simp only [heapSmallest]
  split_ifs with h1 h2 h3 <;> omega

theorem hs_le_right (q : MinPriorityQueue ι) (i : Nat) (h : rightchild i < q.size) :
    keyAt q (heapSmallest q i) ≤ keyAt q (rightchild i) := by
  simp only [heapSmallest]
  split_ifs with h1 h2 h3 <;> omega

theorem hs_le_self (q : MinPriorityQueue ι) (i : Nat) :
    keyAt q (heapSmallest q i) ≤ keyAt q i := by
  simp only [heapSmallest]
  split_ifs with h1 h2 h3 <;> omega

theorem mh_aux_size : ∀ (fuel : Nat) (q : MinPriorityQueue ι) (i : Nat),
    (min_heapifyAux fuel q i).size = q.size := by
  intro fuel
  induction fuel with
  | zero => intro q i; rfl
  | succ f IH =>
    intro q i
    simp only [min_heapifyAux]
    by_cases h : heapSmallest q i = i
    · simp [h]
    · simp only [if_neg h]
      rw [IH, size_swap]

@[simp] theorem size_min_heapify (q : MinPriorityQueue ι) (i : Nat) :
    (q.min_heapify i).size = q.size := mh_aux_size _ q i

theorem mapOK_idAt_inj {q : MinPriorityQueue ι} (hm : mapOK q) {i j : Nat}
    (hi : i < q.size) (hj : j < q.size) (h : idAt q i = idAt q j) : i = j := by
  have h1 := hm.2 i hi
  have h2 := hm.2 j hj
  rw [h, h2] at h1
  exact (Option.some_inj.mp h1).symm

theorem swap_mapOK {q : MinPriorityQueue ι} (hm : mapOK q) {i j : Nat}
    (hi : i < q.size) (hj : j < q.size) (hij : i ≠ j) : mapOK (q.swap i j) := by
  have hids : idAt q i ≠ idAt q j := fun h => hij (mapOK_idAt_inj hm hi hj h)
  have hsz : (q.swap i j).size = q.size := size_swap q i j
  have idswj : idAt (q.swap i j) j = idAt q i := by
    unfold idAt; rw [entryAt_swap_j q i j hj]
  have idswi : idAt (q.swap i j) i = idAt q j := by
    unfold idAt; rw [entryAt_swap_i q i j hi hij]
  constructor
  · intro a m hmap
    rw [mapping_swap] at hmap
    by_cases ha1 : a = idAt q i
    · rw [if_pos ha1] at hmap
      have hmj : m = j := (Option.some_inj.mp hmap).symm
      exact ⟨by omega, by rw [hmj, idswj, ha1]⟩
    · rw [if_neg ha1] at hmap
      by_cases ha2 : a = idAt q j
      · rw [if_pos ha2] at hmap
        have hmi : m = i := (Option.some_inj.mp hmap).symm
        exact ⟨by omega, by rw [hmi, idswi, ha2]⟩
      · rw [if_neg ha2] at hmap
        obtain ⟨hms, hid⟩ := hm.1 a m hmap
        have hmne1 : m ≠ i := by intro hc; exact ha1 (by rw [← hid, hc])
        have hmne2 : m ≠ j := by intro hc; exact ha2 (by rw [← hid, hc])
        refine ⟨by omega, ?_⟩
        unfold idAt
        rw [entryAt_swap_other q i j m hmne1 hmne2]
        exact hid
  · intro m hms
    rw [hsz] at hms
    by_cases hmj : m = j
    · rw [hmj, idswj, mapping_swap, if_pos rfl]
    · by_cases hmi : m = i
      · rw [hmi, idswi, mapping_swap, if_neg (fun h => hids h.symm), if_pos rfl]
      · have hid : idAt (q.swap i j) m = idAt q m := by
          unfold idAt; rw [entryAt_swap_other q i j m hmi hmj]
        rw [hid, mapping_swap]
        rw [if_neg (fun h => hmi (mapOK_idAt_inj hm hms hi h)),
          if_neg (fun h => hmj (mapOK_idAt_inj hm hms hj h))]
        exact hm.2 m hms

theorem mh_aux_mapOK : ∀ (fuel : Nat) (q : MinPriorityQueue ι) (i : Nat),
    mapOK q → mapOK (min_heapifyAux fuel q i) := by
  intro fuel
  induction fuel with
  | zero => intro q i hm; exact hm
  | succ f IH =>
    intro q i hm
    simp only [min_heapifyAux]
    by_cases h : heapSmallest q i = i
    · simp [h]; exact hm
    · simp only [if_neg h]
      rcases hs_spec q i with hc | ⟨hlt, hsz, _, _⟩
      · exact absurd hc h
      · exact IH _ _ (swap_mapOK hm (by omega) hsz (by omega))

theorem mh_aux_mem : ∀ (fuel : Nat) (q : MinPriorityQueue ι) (i : Nat) (x : Int × ι),
    x ∈ (min_heapifyAux fuel q i).elements ↔ x ∈ q.elements := by
  intro fuel
  induction fuel with
  | zero => intro q i x; exact Iff.rfl
  | succ f IH =>
    intro q i x
    simp only [min_heapifyAux]
    by_cases h : heapSmallest q i = i
    · simp [h]
    · simp only [if_neg h]
      rcases hs_spec q i with hc | ⟨hlt, hsz, _, _⟩
      · exact absurd hc h
      · rw [IH, mem_swap q i _ (by omega) hsz]

theorem mh_aux_untouched : ∀ (fuel : Nat) (q : MinPriorityQueue ι) (i m : Nat),
    ¬ inSubtree i m = true → (min_heapifyAux fuel q i).entryAt m = q.entryAt m := by
  intro fuel
  induction fuel with
  | zero => intro q i m _; rfl
  | succ f IH =>
    intro q i m hm
    simp only [min_heapifyAux]
    by_cases h : heapSmallest q i = i
    · simp [h]
    · simp only [if_neg h]
      rcases hs_spec q i with hc | ⟨hlt, hsz, _, hchild⟩
      · exact absurd hc h
      · have hsub : inSubtree i (heapSmallest q i) = true := by
          rcases hchild with hc | hc
          · exact hc ▸ inSubtree_leftchild i
          · exact hc ▸ inSubtree_rightchild i
        have hmi : m ≠ i := fun hc => hm (hc ▸ inSubtree_self i)
        have hms2 : m ≠ heapSmallest q i := fun hc => hm (hc ▸ hsub)
        have hnot2 : ¬ inSubtree (heapSmallest q i) m = true :=
          fun hc => hm (inSubtree_trans hsub m hc)
        rw [IH _ _ _ hnot2, entryAt_swap_other q i _ m hmi hms2]

theorem mh_root_src : ∀ (fuel : Nat) (q : MinPriorityQueue ι) (i : Nat),
    ∃ j, inSubtree i j = true ∧ (min_heapifyAux fuel q i).entryAt i = q.entryAt j ∧
      (j = i ∨ j < q.size) := by
  intro fuel
  induction fuel with
  | zero => intro q i; exact ⟨i, inSubtree_self i, rfl, Or.inl rfl⟩
  | succ f IH =>
    intro q i
    simp only [min_heapifyAux]
    by_cases h : heapSmallest q i = i
    · simp only [if_pos h]
      exact ⟨i, inSubtree_self i, rfl, Or.inl rfl⟩
    · simp only [if_neg h]
      rcases hs_spec q i with hc | ⟨hlt, hsz, _, hchild⟩
      · exact absurd hc h
      · have hsub : inSubtree i (heapSmallest q i) = true := by
          rcases hchild with hc | hc
          · exact hc ▸ inSubtree_leftchild i
          · exact hc ▸ inSubtree_rightchild i
        have hnoti : ¬ inSubtree (heapSmallest q i) i = true := by
          intro hc
          have := inSubtree_le hc
          omega
        refine ⟨heapSmallest q i, hsub, ?_, Or.inr hsz⟩
        rw [mh_aux_untouched f _ _ i hnoti,
          entryAt_swap_i q i _ (by omega) (by omega)]

theorem mh_aux_heapAt : ∀ (fuel : Nat) (q : MinPriorityQueue ι) (i : Nat),
    q.size ≤ fuel + i → heapAt q (leftchild i) → heapAt q (rightchild i) →
    heapAt (min_heapifyAux fuel q i) i := by
  intro fuel
  induction fuel with
  | zero =>
    intro q i hsz _ _
    intro j hj hij hjs
    have : i ≤ j := inSubtree_le hj
    simp only [min_heapifyAux] at hjs
    omega
  | succ f IH =>
    intro q i hsz hl hr
    simp only [min_heapifyAux]
    by_cases h : heapSmallest q i = i
    · simp only [if_pos h]
      intro j hj hij hjs
      rcases inSubtree_child j hj (by omega) with hcl | hcr
      · by_cases hjlc : j = leftchild i
        · rw [hjlc, parent_leftchild]
          have hle := hs_le_left q i (hjlc ▸ hjs)
          rw [h] at hle
          exact hle
        · exact hl j hcl (by have := inSubtree_le hcl; have := lt_leftchild i; omega) hjs
      · by_cases hjrc : j = rightchild i
        · rw [hjrc, parent_rightchild]
          have hle := hs_le_right q i (hjrc ▸ hjs)
          rw [h] at hle
          exact hle
        · exact hr j hcr (by have := inSubtree_le hcr; have := lt_rightchild i; omega) hjs
    · simp only [if_neg h]
      rcases hs_spec q i with hc | ⟨hlt, hs2sz, hks2, hchild⟩
      · exact absurd hc h
      · set s2 := heapSmallest q i with hs2def
        have hsub : inSubtree i s2 = true := by
          rcases hchild with hc | hc
          · exact hc ▸ inSubtree_leftchild i
          · exact hc ▸ inSubtree_rightchild i
        have hqs2 : heapAt q s2 := by
          rcases hchild with hc | hc
          · exact hc ▸ hl
          · exact hc ▸ hr
        have hwsize : (q.swap i s2).size = q.size := size_swap q i s2
        -- both children subtrees of s2 are untouched by the swap
        have hwchild : ∀ c, c = leftchild s2 ∨ c = rightchild s2 → heapAt (q.swap i s2) c := by
          intro c hc
          have hcsub : inSubtree s2 c = true := by
            rcases hc with hc | hc
            · exact hc ▸ inSubtree_leftchild s2
            · exact hc ▸ inSubtree_rightchild s2
          have hs2c : s2 < c := by
            rcases hc with hc | hc
            · exact hc ▸ lt_leftchild s2
            · exact hc ▸ lt_rightchild s2
          intro m hm hcm hms
          have hmc : c ≤ m := inSubtree_le hm
          have hpm : inSubtree c (parent m) = true := (inSubtree_parent hm (by omega)).1
          have hppos : c ≤ parent m := inSubtree_le hpm
          have hkm : keyAt (q.swap i s2) m = keyAt q m :=
            keyAt_swap_other q i s2 m (by omega) (by omega)
          have hkpm : keyAt (q.swap i s2) (parent m) = keyAt q (parent m) :=
            keyAt_swap_other q i s2 (parent m) (by omega) (by omega)
          rw [hkm, hkpm]
          exact heapAt_sub hqs2 hcsub m hm hcm (by omega)
        have hfuel : (q.swap i s2).size ≤ f + s2 := by omega
        have hR : heapAt (min_heapifyAux f (q.swap i s2) s2) s2 :=
          IH (q.swap i s2) s2 hfuel (hwchild _ (Or.inl rfl)) (hwchild _ (Or.inr rfl))
        have hRsize : (min_heapifyAux f (q.swap i s2) s2).size = q.size := by
          rw [mh_aux_size, hwsize]
        have hnoti : ¬ inSubtree s2 i = true := by
          intro hc; have := inSubtree_le hc; omega
        have hkRi : keyAt (min_heapifyAux f (q.swap i s2) s2) i = keyAt q s2 := by
          unfold keyAt
          rw [mh_aux_untouched f _ _ i hnoti, entryAt_swap_i q i s2 (by omega) (by omega)]
        have hps2 : parent s2 = i := by
          rcases hchild with hc | hc
          · rw [hc, parent_leftchild]
          · rw [hc, parent_rightchild]
        intro j hj hij hjR
        rw [hRsize] at hjR
        by_cases hjs2sub : inSubtree s2 j = true
        · by_cases hjs2 : j = s2
          · -- the edge from i into s2
            rw [hjs2, hps2, hkRi]
            obtain ⟨j', hj'sub, hj'entry, hj'rng⟩ := mh_root_src f (q.swap i s2) s2
            have hkRs2 : keyAt (min_heapifyAux f (q.swap i s2) s2) s2 =
                keyAt (q.swap i s2) j' := by
              unfold keyAt; rw [hj'entry]
            rcases hj'rng with hj'eq | hj'lt
            · rw [hkRs2, hj'eq, keyAt_swap_j q i s2 hs2sz]
              omega
            · by_cases hj's2 : j' = s2
              · rw [hkRs2, hj's2, keyAt_swap_j q i s2 hs2sz]
                omega
              · have hj'gt : s2 < j' := by have := inSubtree_le hj'sub; omega
                rw [hkRs2, keyAt_swap_other q i s2 j' (by omega) (by omega)]
                have := heapAt_root_le hqs2 j' hj'sub (by rw [hwsize] at hj'lt; omega)
                omega
          · exact hR j hjs2sub (by have := inSubtree_le hjs2sub; omega)
              (by rw [hRsize]; exact hjR)
        · -- j lies in the subtree of the sibling child, untouched throughout
          have hsib : ∀ c, c = leftchild i ∨ c = rightchild i → inSubtree c j = true →
              keyAt (min_heapifyAux f (q.swap i s2) s2) (parent j) ≤
                keyAt (min_heapifyAux f (q.swap i s2) s2) j := by
            intro c hcdef hcj
            have hcs2 : c ≠ s2 := fun hceq => hjs2sub (hceq ▸ hcj)
            have hic : i < c := by
              rcases hcdef with hc | hc
              · exact hc ▸ lt_leftchild i
              · exact hc ▸ lt_rightchild i
            have hcbounds : leftchild i ≤ c ∧ c ≤ rightchild i := by
              rcases hcdef with hc | hc <;>
                (rw [hc]; unfold leftchild rightchild; omega)
            have hs2bounds : leftchild i ≤ s2 ∧ s2 ≤ rightchild i := by
              rcases hchild with hc | hc <;>
                (rw [hc]; unfold leftchild rightchild; omega)
            have hdisj : ∀ m, inSubtree c m = true → ¬ inSubtree s2 m = true := by
              intro m hcm hs2m
              rcases le_or_lt s2 c with hle | hlt2
              · have hcomp := inSubtree_comparable hle m hs2m hcm
                have hge := leftchild_le_of_mem hcomp (by omega)
                unfold leftchild rightchild at *
                omega
              · have hcomp := inSubtree_comparable (le_of_lt hlt2) m hcm hs2m
                have hge := leftchild_le_of_mem hcomp (by omega)
                unfold leftchild rightchild at *
                omega
            have huntouched : ∀ m, inSubtree c m = true →
                keyAt (min_heapifyAux f (q.swap i s2) s2) m = keyAt q m := by
              intro m hcm
              have hmge : c ≤ m := inSubtree_le hcm
              have hms2 : m ≠ s2 := fun hms2 => hdisj m hcm (hms2 ▸ inSubtree_self s2)
              unfold keyAt
              rw [mh_aux_untouched f _ _ m (hdisj m hcm),
                entryAt_swap_other q i s2 m (by omega) hms2]
            by_cases hjc : j = c
            · have hpc : parent c = i := by
                rcases hcdef with hc | hc
                · rw [hc, parent_leftchild]
                · rw [hc, parent_rightchild]
              rw [hjc, hpc, hkRi, huntouched c (inSubtree_self c)]
              rcases hcdef with hc | hc
              · rw [hc]
                exact hs_le_left q i (by rw [← hc, ← hjc]; exact hjR)
              · rw [hc]
                exact hs_le_right q i (by rw [← hc, ← hjc]; exact hjR)
            · have hqc : heapAt q c := by
                rcases hcdef with hc | hc
                · exact hc ▸ hl
                · exact hc ▸ hr
              have hcj' : c < j := by have := inSubtree_le hcj; omega
              have hpj : inSubtree c (parent j) = true := (inSubtree_parent hcj hjc).1
              rw [huntouched j hcj, huntouched (parent j) hpj]
              exact hqc j hcj hcj' hjR
          rcases inSubtree_child j hj (by omega) with hcl | hcr
          · exact hsib (leftchild i) (Or.inl rfl) hcl
          · exact hsib (rightchild i) (Or.inr rfl) hcr

/-! ### Correctness of build_min_heap -/

theorem min_heapify_heapAt {q : MinPriorityQueue ι} {i : Nat}
    (hl : heapAt q (leftchild i)) (hr : heapAt q (rightchild i)) :
    heapAt (q.min_heapify i) i :=
  mh_aux_heapAt (q.size + 1) q i (by omega) hl hr

theorem keyAt_min_heapify_untouched (q : MinPriorityQueue ι) (i m : Nat)
    (h : ¬ inSubtree i m = true) : keyAt (q.min_heapify i) m = keyAt q m := by
  unfold keyAt min_heapify
  rw [mh_aux_untouched _ _ _ _ h]

theorem min_heapify_preserves_heapAt {q : MinPriorityQueue ι} {i j : Nat} (hij : i < j)
    (hl : heapAt q (leftchild i)) (hr : heapAt q (rightchild i)) (hj : heapAt q j) :
    heapAt (q.min_heapify i) j := by
  by_cases hsub : inSubtree i j = true
  · exact heapAt_sub (min_heapify_heapAt hl hr) hsub
  · intro m hm hjm hms
    have hnotm : ¬ inSubtree i m = true := fun him =>
      subtree_disjoint (le_of_lt hij) hsub him hm
    have hpmj : inSubtree j (parent m) = true := (inSubtree_parent hm (by omega)).1
    have hnotpm : ¬ inSubtree i (parent m) = true := fun hipm =>
      subtree_disjoint (le_of_lt hij) hsub hipm hpmj
    rw [keyAt_min_heapify_untouched q i m hnotm,
      keyAt_min_heapify_untouched q i (parent m) hnotpm]
    exact hj m hm hjm (by rw [← size_min_heapify q i]; exact hms)

theorem build_loop_heapAt : ∀ (i : Nat) (q : MinPriorityQueue ι),
    (∀ j, i < j → heapAt q j) → ∀ j, heapAt (build_loop i q) j := by
  intro i
  induction i with
  | zero =>
    intro q hq j
    show heapAt (q.min_heapify 0) j
    have h0 : heapAt (q.min_heapify 0) 0 :=
      min_heapify_heapAt (hq _ (by unfold leftchild; omega)) (hq _ (by unfold rightchild; omega))
    exact heapAt_sub h0 (inSubtree_zero j)
  | succ i IH =>
    intro q hq j
    show heapAt (build_loop i (q.min_heapify (i + 1))) j
    apply IH
    intro m hm
    by_cases hmi : m = i + 1
    · exact hmi ▸ min_heapify_heapAt
        (hq _ (by unfold leftchild; omega)) (hq _ (by unfold rightchild; omega))
    · exact min_heapify_preserves_heapAt (by omega)
        (hq _ (by unfold leftchild; omega)) (hq _ (by unfold rightchild; omega))
        (hq m (by omega))

theorem build_loop_size : ∀ (i : Nat) (q : MinPriorityQueue ι),
    (build_loop i q).size = q.size := by
  intro i
  induction i with
  | zero => intro q; exact size_min_heapify q 0
  | succ i IH => intro q; rw [show build_loop (i + 1) q = build_loop i (q.min_heapify (i + 1)) from rfl, IH, size_min_heapify]

theorem build_loop_mapOK : ∀ (i : Nat) (q : MinPriorityQueue ι),
    mapOK q → mapOK (build_loop i q) := by
  intro i
  induction i with
  | zero => intro q hm; exact mh_aux_mapOK _ _ _ hm
  | succ i IH => intro q hm; exact IH _ (mh_aux_mapOK _ _ _ hm)

theorem build_loop_mem : ∀ (i : Nat) (q : MinPriorityQueue ι) (x : Int × ι),
    x ∈ (build_loop i q).elements ↔ x ∈ q.elements := by
  intro i
  induction i with
  | zero => intro q x; exact mh_aux_mem _ _ _ x
  | succ i IH =>
    intro q x
    rw [show build_loop (i + 1) q = build_loop i (q.min_heapify (i + 1)) from rfl, IH]
    exact mh_aux_mem _ q (i + 1) x

theorem build_min_heap_heapOrdered (q : MinPriorityQueue ι) :
    heapOrdered q.build_min_heap := by
  unfold build_min_heap
  by_cases hsz : q.size ≤ 1
  · rw [if_pos hsz]
    intro j hj0 hjs
    omega
  · rw [if_neg hsz]
    rw [heapOrdered_iff_heapAt_zero]
    apply build_loop_heapAt
    intro j hj
    apply heapAt_of_no_child
    unfold parent at hj
    unfold leftchild
    omega

theorem build_min_heap_size (q : MinPriorityQueue ι) : q.build_min_heap.size = q.size := by
  unfold build_min_heap
  by_cases hsz : q.size ≤ 1
  · rw [if_pos hsz]
  · rw [if_neg hsz, build_loop_size]

theorem build_min_heap_mapOK {q : MinPriorityQueue ι} (hm : mapOK q) :
    mapOK q.build_min_heap := by
  unfold build_min_heap
  by_cases hsz : q.size ≤ 1
  · rw [if_pos hsz]; exact hm
  · rw [if_neg hsz]; exact build_loop_mapOK _ _ hm

theorem build_min_heap_mem (q : MinPriorityQueue ι) (x : Int × ι) :
    x ∈ q.build_min_heap.elements ↔ x ∈ q.elements := by
  unfold build_min_heap
  by_cases hsz : q.size ≤ 1
  · rw [if_pos hsz]
  · rw [if_neg hsz, build_loop_mem]

/-! ### Correctness of the sift-up loop and decrease_key -/

theorem swap_up_heapExceptAt {q : MinPriorityQueue ι} {i : Nat} (hexc : heapExceptAt q i)
    (hi0 : 0 < i) (his : i < q.size) (hki : keyAt q i < keyAt q (parent i)) :
    heapExceptAt (q.swap i (parent i)) (parent i) := by
  have hpi : parent i < i := parent_lt hi0
  have hps : parent i < q.size := by omega
  have hsz : (q.swap i (parent i)).size = q.size := size_swap q i (parent i)
  have hkwi : keyAt (q.swap i (parent i)) i = keyAt q (parent i) :=
    keyAt_swap_i q i (parent i) his (by omega)
  have hkwp : keyAt (q.swap i (parent i)) (parent i) = keyAt q i :=
    keyAt_swap_j q i (parent i) hps
  have hkwo : ∀ m, m ≠ i → m ≠ parent i →
      keyAt (q.swap i (parent i)) m = keyAt q m := fun m h1 h2 =>
    keyAt_swap_other q i (parent i) m h1 h2
  constructor
  · intro j hj0 hjs hjp
    rw [hsz] at hjs
    by_cases hji : j = i
    · rw [hji, hkwi, hkwp]
      omega
    · rw [hkwo j hji hjp]
      by_cases hpji : parent j = i
      · rw [hpji, hkwi]
        have := hexc.2 hi0 j (child_of_parent hj0 hpji) hjs
        exact this
      · by_cases hpjp : parent j = parent i
        · rw [hpjp, hkwp]
          have := hexc.1 j hj0 hjs hji
          rw [hpjp] at this
          omega
        · rw [hkwo (parent j) hpji hpjp]
          exact hexc.1 j hj0 hjs hji
  · intro hp0 c hc hcs
    rw [hsz] at hcs
    have hpc : parent c = parent i := by
      rcases hc with hc | hc
      · rw [hc, parent_leftchild]
      · rw [hc, parent_rightchild]
    have hcgt : parent i < c := by
      rcases hc with hc | hc
      · exact hc ▸ lt_leftchild _
      · exact hc ▸ lt_rightchild _
    have hppne : parent (parent i) ≠ i := by
      have := parent_lt hp0
      omega
    have hppnp : parent (parent i) ≠ parent i := by
      have := parent_lt hp0
      omega
    rw [hkwo (parent (parent i)) hppne hppnp]
    have hbase : keyAt q (parent (parent i)) ≤ keyAt q (parent i) :=
      hexc.1 (parent i) hp0 hps (by omega)
    by_cases hci : c = i
    · rw [hci, hkwi]
      exact hbase
    · rw [hkwo c hci (by omega)]
      have : keyAt q (parent c) ≤ keyAt q c := hexc.1 c (by omega) hcs hci
      rw [hpc] at this
      omega

theorem dkl_spec : ∀ (fuel : Nat) (q : MinPriorityQueue ι) (i : Nat), i < fuel →
    i < q.size → heapExceptAt q i →
    (decrease_key_loop fuel q i).size = q.size ∧
    heapOrdered (decrease_key_loop fuel q i) ∧
    (mapOK q → mapOK (decrease_key_loop fuel q i)) ∧
    (∀ x, x ∈ (decrease_key_loop fuel q i).elements ↔ x ∈ q.elements) := by
  intro fuel
  induction fuel with
  | zero => intro q i h; omega
  | succ f IH =>
    intro q i hif his hexc
    simp only [decrease_key_loop]
    by_cases hg : 0 < i ∧ keyAt q i < keyAt q (parent i)
    · rw [if_pos hg]
      have hpi : parent i < i := parent_lt hg.1
      have hps : parent i < q.size := by omega
      have hexc' : heapExceptAt (q.swap i (parent i)) (parent i) :=
        swap_up_heapExceptAt hexc hg.1 his hg.2
      have hrec := IH (q.swap i (parent i)) (parent i) (by omega)
        (by rw [size_swap]; omega) hexc'
      refine ⟨by rw [hrec.1, size_swap], hrec.2.1, ?_, ?_⟩
      · intro hm
        exact hrec.2.2.1 (swap_mapOK hm his hps (by omega))
      · intro x
        rw [hrec.2.2.2 x, mem_swap q i (parent i) his hps]
    · rw [if_neg hg]
      have hord : heapOrdered q := by
        intro j hj0 hjs
        by_cases hji : j = i
        · have hnk : ¬ keyAt q i < keyAt q (parent i) := fun hk => hg ⟨hji ▸ hj0, hk⟩
          rw [hji]
          omega
        · exact hexc.1 j hj0 hjs hji
      exact ⟨rfl, hord, fun hm => hm, fun x => Iff.rfl⟩

theorem setKey_size (q : MinPriorityQueue ι) (i : Nat) (k : Int) :
    (q.setKey i k).size = q.size := by
  simp [setKey, size]

theorem setKey_entryAt_self (q : MinPriorityQueue ι) {i : Nat} (hi : i < q.size) (k : Int) :
    (q.setKey i k).entryAt i = (k, idAt q i) := by
  apply entryAt_of_getElem?
  show (q.elements.set i _)[i]? = _
  rw [List.getElem?_set_self', List.getElem?_eq_getElem (by simpa [size] using hi)]
  rfl

theorem setKey_entryAt_other (q : MinPriorityQueue ι) {i m : Nat} (hmi : m ≠ i) (k : Int) :
    (q.setKey i k).entryAt m = q.entryAt m := by
  apply entryAt_congr
  show (q.elements.set i _)[m]? = _
  rw [List.getElem?_set_ne (by omega)]

theorem setKey_idAt (q : MinPriorityQueue ι) (i : Nat) (k : Int) (m : Nat) :
    idAt (q.setKey i k) m = idAt q m := by
  by_cases hmi : m = i
  · by_cases his : i < q.size
    · rw [hmi]
      unfold idAt
      rw [setKey_entryAt_self q his k]
      rfl
    · rw [hmi]
      apply congrArg Prod.snd
      apply entryAt_congr
      show (q.elements.set i _)[i]? = _
      rw [List.set_eq_of_length_le (by simpa [size] using his)]
  · unfold idAt
    rw [setKey_entryAt_other q hmi k]

theorem setKey_mapOK {q : MinPriorityQueue ι} (hm : mapOK q) (i : Nat) (k : Int) :
    mapOK (q.setKey i k) := by
  constructor
  · intro a m hmap
    obtain ⟨hms, hid⟩ := hm.1 a m hmap
    rw [setKey_size]
    exact ⟨hms, by rw [setKey_idAt]; exact hid⟩
  · intro m hms
    rw [setKey_size] at hms
    rw [setKey_idAt]
    exact hm.2 m hms

theorem setKey_heapExceptAt {q : MinPriorityQueue ι} (hord : heapOrdered q) {i : Nat}
    (his : i < q.size) {k : Int} (hk : k ≤ keyAt q i) :
    heapExceptAt (q.setKey i k) i := by
  have hke : keyAt (q.setKey i k) i = k := by
    unfold keyAt
    rw [setKey_entryAt_self q his k]
  have hko : ∀ m, m ≠ i → keyAt (q.setKey i k) m = keyAt q m := fun m hmi => by
    unfold keyAt
    rw [setKey_entryAt_other q hmi k]
  constructor
  · intro j hj0 hjs hji
    rw [setKey_size] at hjs
    rw [hko j hji]
    by_cases hpj : parent j = i
    · rw [hpj, hke]
      have := hord j hj0 hjs
      rw [hpj] at this
      omega
    · rw [hko (parent j) hpj]
      exact hord j hj0 hjs
  · intro hi0 c hc hcs
    rw [setKey_size] at hcs
    have hpc : parent c = i := by
      rcases hc with hc | hc
      · rw [hc, parent_leftchild]
      · rw [hc, parent_rightchild]
    have hcgt : i < c := by
      rcases hc with hc | hc
      · exact hc ▸ lt_leftchild _
      · exact hc ▸ lt_rightchild _
    rw [hko (parent i) (by have := parent_lt hi0; omega), hko c (by omega)]
    have h1 : keyAt q (parent i) ≤ keyAt q i := hord i hi0 his
    have h2 : keyAt q (parent c) ≤ keyAt q c := hord c (by omega) hcs
    rw [hpc] at h2
    omega

theorem decrease_key_ok {q : MinPriorityQueue ι} (hWF : WF q) {a : ι} {i : Nat}
    (hi : q.mapping a = some i) {k : Int} (hk : k ≤ keyAt q i) :
    ∃ R, q.decrease_key a k = .ok R ∧ WF R ∧ R.size = q.size ∧
      (∀ x, x ∈ R.elements ↔ x ∈ (q.setKey i k).elements) := by
  have his : i < q.size := (hWF.2.1 a i hi).1
  have hexc : heapExceptAt (q.setKey i k) i := setKey_heapExceptAt hWF.1 his hk
  have hspec := dkl_spec (i + 1) (q.setKey i k) i (by omega)
    (by rw [setKey_size]; exact his) hexc
  refine ⟨decrease_key_loop (i + 1) (q.setKey i k) i, ?_, ?_, ?_, hspec.2.2.2⟩
  · simp only [decrease_key, hi]
    rw [if_pos hk]
  · exact ⟨hspec.2.1, hspec.2.2.1 (setKey_mapOK hWF.2 i k)⟩
  · rw [hspec.1, setKey_size]

theorem decrease_key_err_absent {q : MinPriorityQueue ι} {a : ι}
    (h : q.mapping a = none) (k : Int) : q.decrease_key a k = .error .keyError := by
  simp only [decrease_key, h]

theorem decrease_key_err_greater {q : MinPriorityQueue ι} {a : ι} {i : Nat}
    (hi : q.mapping a = some i) {k : Int} (hk : keyAt q i < k) :
    q.decrease_key a k = .error .valueError := by
  simp only [decrease_key, hi]
  rw [if_neg (by omega)]

/-! ### Specifications of extract_min, insert and lookup helpers -/

theorem root_min {q : MinPriorityQueue ι} (hord : heapOrdered q) :
    ∀ j, j < q.size → keyAt q 0 ≤ keyAt q j := fun j hj =>
  heapAt_root_le ((heapOrdered_iff_heapAt_zero q).mp hord) j (inSubtree_zero j) hj

theorem get_key_of_mem {q : MinPriorityQueue ι} (hm : mapOK q) {k : Int} {a : ι}
    (h : (k, a) ∈ q.elements) : q.get_key a = .ok k := by
  rcases List.mem_iff_getElem?.mp h with ⟨j, hj⟩
  have hjs : j < q.size := by
    have := List.getElem?_eq_some_iff.mp hj
    simpa [size] using this.1
  have hent : q.entryAt j = (k, a) := entryAt_of_getElem? hj
  have hid : idAt q j = a := by rw [idAt, hent]
  have hmap := hm.2 j hjs
  rw [hid] at hmap
  unfold get_key
  rw [hmap]
  show Except.ok (keyAt q j) = Except.ok k
  rw [keyAt, hent]

theorem mapping_of_mem {q : MinPriorityQueue ι} (hm : mapOK q) {a : ι}
    (h : a ∈ q.elements.map Prod.snd) : ∃ i, q.mapping a = some i := by
  rcases List.mem_map.mp h with ⟨x, hx, hxa⟩
  rcases List.mem_iff_getElem?.mp hx with ⟨j, hj⟩
  have hjs : j < q.size := by
    have := List.getElem?_eq_some_iff.mp hj
    simpa [size] using this.1
  have hid : idAt q j = a := by rw [idAt, entryAt_of_getElem? hj, hxa]
  exact ⟨j, by rw [← hid]; exact hm.2 j hjs⟩

theorem mem_of_mapping {q : MinPriorityQueue ι} (hm : mapOK q) {a : ι} {i : Nat}
    (h : q.mapping a = some i) : a ∈ q.elements.map Prod.snd := by
  obtain ⟨his, hid⟩ := hm.1 a i h
  exact List.mem_map.mpr ⟨q.entryAt i, entryAt_mem q i his, hid⟩

theorem element_exists_iff {q : MinPriorityQueue ι} (hm : mapOK q) (a : ι) :
    q.element_exists a = true ↔ a ∈ q.elements.map Prod.snd := by
  unfold element_exists
  rw [Option.isSome_iff_exists]
  constructor
  · rintro ⟨i, hi⟩
    exact mem_of_mapping hm hi
  · intro h
    exact mapping_of_mem hm h

theorem setKey_eq_self {q : MinPriorityQueue ι} {i : Nat} {k : Int}
    (h : q.elements[i]? = some (k, idAt q i)) : q.setKey i k = q := by
  show MinPriorityQueue.mk _ _ = _
  have : q.elements.set i (k, idAt q i) = q.elements := by
    apply List.ext_getElem?
    intro j
    by_cases hj : j = i
    · subst hj
      rw [List.getElem?_set_self', h]
      rfl
    · rw [List.getElem?_set_ne (by omega)]
  rw [this]

theorem insert_spec {q : MinPriorityQueue ι} (hWF : WF q) {a : ι}
    (hnew : q.mapping a = none) (k : Int) :
    WF (q.insert k a) ∧ (q.insert k a).size = q.size + 1 ∧
      (∀ x, x ∈ (q.insert k a).elements ↔ x ∈ q.elements ∨ x = (k, a)) := by
  set q1 : MinPriorityQueue ι :=
    { elements := q.elements ++ [(k, a)],
      mapping := fun b => if b = a then some q.size else q.mapping b } with hq1def
  have hq1size : q1.size = q.size + 1 := by simp [hq1def, size]
  have hq1lt : ∀ m, m < q.size → q1.entryAt m = q.entryAt m := by
    intro m hm
    apply entryAt_congr
    show (q.elements ++ [(k, a)])[m]? = _
    rw [List.getElem?_append]
    simp [size] at hm
    simp [hm]
  have hq1last : q1.entryAt q.size = (k, a) := by
    apply entryAt_of_getElem?
    show (q.elements ++ [(k, a)])[q.elements.length]? = _
    simp
  have hq1keylt : ∀ m, m < q.size → keyAt q1 m = keyAt q m := by
    intro m hm
    unfold keyAt
    rw [hq1lt m hm]
  have hq1ids : ∀ m, m < q.size → idAt q1 m = idAt q m := by
    intro m hm
    unfold idAt
    rw [hq1lt m hm]
  have hq1idlast : idAt q1 q.size = a := by rw [idAt, hq1last]
  have hidne : ∀ m, m < q.size → idAt q m ≠ a := by
    intro m hm hc
    have hmm := hWF.2.2 m hm
    rw [hc, hnew] at hmm
    exact Option.noConfusion hmm
  have hm1 : mapOK q1 := by
    constructor
    · intro b m hmap
      show m < q1.size ∧ idAt q1 m = b
      by_cases hba : b = a
      · have hm0 : m = q.size := by
          have : (if b = a then some q.size else q.mapping b) = some m := hmap
          rw [if_pos hba] at this
          exact (Option.some_inj.mp this).symm
        rw [hm0, hq1size, hq1idlast]
        exact ⟨by omega, hba.symm⟩
      · have : (if b = a then some q.size else q.mapping b) = some m := hmap
        rw [if_neg hba] at this
        obtain ⟨hms, hid⟩ := hWF.2.1 b m this
        rw [hq1size, hq1ids m hms]
        exact ⟨by omega, hid⟩
    · intro m hms
      rw [hq1size] at hms
      by_cases hm0 : m = q.size
      · rw [hm0, hq1idlast]
        show (if a = a then some q.size else q.mapping a) = some q.size
        rw [if_pos rfl]
      · have hms' : m < q.size := by omega
        rw [hq1ids m hms']
        show (if idAt q m = a then some q.size else q.mapping (idAt q m)) = some m
        rw [if_neg (hidne m hms')]
        exact hWF.2.2 m hms'
  have hexc : heapExceptAt q1 q.size := by
    constructor
    · intro j hj0 hjs hjne
      rw [hq1size] at hjs
      have hjlt : j < q.size := by omega
      have hpj : parent j < q.size := by
        have := parent_lt hj0
        omega
      rw [hq1keylt j hjlt, hq1keylt (parent j) hpj]
      exact hWF.1 j hj0 hjlt
    · intro h0 c hc hcs
      rw [hq1size] at hcs
      have : leftchild q.size ≤ c := by
        rcases hc with hc | hc
        · omega
        · rw [hc]; unfold leftchild rightchild; omega
      unfold leftchild at this
      omega
  have hsetself : q1.setKey q.size k = q1 := by
    apply setKey_eq_self
    rw [hq1idlast]
    show (q.elements ++ [(k, a)])[q.elements.length]? = _
    simp
  have hkeylast : keyAt q1 q.size = k := by rw [keyAt, hq1last]
  have hdk : q1.decrease_key a k = .ok (decrease_key_loop (q.size + 1) q1 q.size) := by
    have hmapa : q1.mapping a = some q.size := by
      show (if a = a then some q.size else q.mapping a) = some q.size
      rw [if_pos rfl]
    unfold decrease_key
    rw [hmapa]
    show (if k ≤ keyAt q1 q.size then
        Except.ok (decrease_key_loop (q.size + 1) (q1.setKey q.size k) q.size)
      else Except.error QErr.valueError) = _
    rw [if_pos (le_of_eq hkeylast.symm), hsetself]
  have hins : q.insert k a = decrease_key_loop (q.size + 1) q1 q.size := by
    show (match q1.decrease_key a k with
      | .ok q2 => q2
      | .error _ => q1) = _
    rw [hdk]
  have hspec := dkl_spec (q.size + 1) q1 q.size (by omega) (by omega) hexc
  rw [hins]
  refine ⟨⟨hspec.2.1, hspec.2.2.1 hm1⟩, by rw [hspec.1, hq1size], ?_⟩
  intro x
  rw [hspec.2.2.2 x]
  show x ∈ q.elements ++ [(k, a)] ↔ _
  simp

theorem extract_min_spec {q : MinPriorityQueue ι} (hWF : WF q) (hne : q.size ≠ 0) :
    ∃ R, q.extract_min = .ok (R, idAt q 0) ∧ WF R ∧ R.size = q.size - 1 ∧
      (∀ x, x ∈ R.elements → x ∈ q.elements) ∧
      (∀ x, x ∈ q.elements → x.2 ≠ idAt q 0 → x ∈ R.elements) := by
  have hqlen : q.size = q.elements.length := rfl
  set e := q.entryAt (q.size - 1) with hedef
  set l1 := (q.elements.set 0 e).dropLast with hl1def
  set m1 : ι → Option Nat :=
    fun a => if a = (q.entryAt 0).2 then none else q.mapping a with hm1def
  have hl1len : l1.length = q.size - 1 := by
    simp [hl1def, size]
  have hl1get : ∀ m, m < q.size - 1 → l1[m]? = (q.elements.set 0 e)[m]? := by
    intro m hm
    have h1 : m < l1.length := by omega
    have h2 : m < (q.elements.set 0 e).length := by
      rw [List.length_set]
      omega
    rw [List.getElem?_eq_getElem h1, List.getElem?_eq_getElem h2]
    exact congrArg some (List.getElem_dropLast _ m h1)
  have hl1sub : ∀ x, x ∈ l1 → x ∈ q.elements := by
    intro x hx
    have hx' : x ∈ q.elements.set 0 e := List.dropLast_subset _ hx
    rcases List.mem_or_eq_of_mem_set hx' with h | h
    · exact h
    · exact h ▸ entryAt_mem q (q.size - 1) (by omega)
  by_cases hsz1 : q.size = 1
  · -- the queue becomes empty, no heapify call
    have hl10 : l1.length = 0 := by omega
    have hq1sz : (MinPriorityQueue.mk l1 m1).size = 0 := hl10
    refine ⟨⟨l1, m1⟩, ?_, ?_, ?_, hl1sub, ?_⟩
    · simp only [extract_min, if_neg hne]
      rw [if_neg (by rw [show (MinPriorityQueue.mk l1 m1).size = l1.length from rfl]; omega)]
      rfl
    · constructor
      · intro j hj0 hjs
        rw [show (MinPriorityQueue.mk l1 m1).size = l1.length from rfl] at hjs
        omega
      · constructor
        · intro a m hmap
          have : (if a = (q.entryAt 0).2 then none else q.mapping a) = some m := hmap
          by_cases ha : a = (q.entryAt 0).2
          · rw [if_pos ha] at this
            exact Option.noConfusion this
          · rw [if_neg ha] at this
            obtain ⟨hms, hid⟩ := hWF.2.1 a m this
            have : m = 0 := by omega
            rw [this] at hid
            exact absurd (show a = (q.entryAt 0).2 by rw [← hid]; rfl) ha
        · intro m hms
          rw [show (MinPriorityQueue.mk l1 m1).size = l1.length from rfl] at hms
          omega
    · rw [show (MinPriorityQueue.mk l1 m1).size = l1.length from rfl]
      omega
    · intro x hx hxne
      exfalso
      rcases List.mem_iff_getElem?.mp hx with ⟨m, hm⟩
      have hms : m < q.size := by
        have := List.getElem?_eq_some_iff.mp hm
        simpa [size] using this.1
      have : m = 0 := by omega
      rw [this] at hm
      refine hxne ?_
      rw [← entryAt_of_getElem? hm]
      rfl
  · -- at least two elements: the moved root is heapified down
    have hsz2 : 2 ≤ q.size := by omega
    have hq1sz : (MinPriorityQueue.mk l1 m1).size = q.size - 1 := hl1len
    have hq1e0 : entryAt ⟨l1, m1⟩ 0 = e := by
      apply entryAt_of_getElem?
      show l1[0]? = some e
      rw [hl1get 0 (by omega)]
      rw [List.getElem?_set_self', List.getElem?_eq_getElem (by omega)]
      rfl
    have hq1em : ∀ m, 0 < m → m < q.size - 1 → entryAt ⟨l1, m1⟩ m = q.entryAt m := by
      intro m hm0 hm
      apply entryAt_congr
      show l1[m]? = _
      rw [hl1get m hm, List.getElem?_set_ne (by omega)]
    set aroot := idAt q 0 with haroot
    set amoved := idAt q (q.size - 1) with hamoved
    have hdistinct : amoved ≠ aroot :=
      fun h => absurd (mapOK_idAt_inj hWF.2 (by omega) (by omega) h) (by omega)
    have hq1id0 : idAt ⟨l1, m1⟩ 0 = amoved := by rw [idAt, hq1e0, hedef]; rfl
    set m2 : ι → Option Nat :=
      fun a => if a = idAt ⟨l1, m1⟩ 0 then some 0 else m1 a with hm2def
    set q2 : MinPriorityQueue ι := ⟨l1, m2⟩ with hq2def
    have hq2sz : q2.size = q.size - 1 := hl1len
    have hq2e0 : q2.entryAt 0 = e := hq1e0
    have hq2em : ∀ m, 0 < m → m < q.size - 1 → q2.entryAt m = q.entryAt m := hq1em
    have hq2id : ∀ m, m < q.size - 1 → idAt q2 m = idAt q m ∨ (m = 0 ∧ idAt q2 m = amoved) := by
      intro m hm
      by_cases hm0 : m = 0
      · right
        exact ⟨hm0, by rw [hm0]; exact hq1id0⟩
      · left
        rw [idAt, hq2em m (by omega) hm]
        rfl
    have hmapok2 : mapOK q2 := by
      constructor
      · intro b m hmap
        have hmap' : (if b = idAt ⟨l1, m1⟩ 0 then some 0 else m1 b) = some m := hmap
        by_cases hb1 : b = idAt ⟨l1, m1⟩ 0
        · rw [if_pos hb1] at hmap'
          have hm0 : m = 0 := (Option.some_inj.mp hmap').symm
          refine ⟨by rw [hq2sz]; omega, ?_⟩
          rw [hm0, hb1]
          rfl
        · rw [if_neg hb1] at hmap'
          have hb2 : b ≠ aroot := by
            intro hc
            rw [hm1def] at hmap'
            simp only [hc, haroot] at hmap'
            rw [if_pos (show q.idAt 0 = (q.entryAt 0).2 from rfl)] at hmap'
            exact Option.noConfusion hmap'
          have hmap'' : q.mapping b = some m := by
            have : (if b = (q.entryAt 0).2 then none else q.mapping b) = some m := hmap'
            rwa [if_neg (by rw [haroot] at hb2; exact fun h => hb2 h)] at this
          obtain ⟨hms, hid⟩ := hWF.2.1 b m hmap''
          have hmne0 : m ≠ 0 := by
            intro hc
            apply hb2
            rw [← hid, hc, haroot]
          have hmnel : m ≠ q.size - 1 := by
            intro hc
            apply hb1
            rw [← hid, hc, hq1id0, hamoved]
          refine ⟨by rw [hq2sz]; omega, ?_⟩
          show (entryAt q2 m).2 = b
          rw [hq2em m (by omega) (by omega)]
          exact hid
      · intro m hms
        rw [hq2sz] at hms
        by_cases hm0 : m = 0
        · rw [hm0]
          show (if idAt q2 0 = idAt ⟨l1, m1⟩ 0 then some 0 else m1 (idAt q2 0)) = some 0
          rw [if_pos (show idAt q2 0 = idAt ⟨l1, m1⟩ 0 from rfl)]
        · have hid : idAt q2 m = idAt q m := by
            rw [idAt, hq2em m (by omega) hms]
            rfl
          have h1 : idAt q m ≠ amoved := by
            intro hc
            have := mapOK_idAt_inj hWF.2 (show m < q.size by omega) (by omega) (hamoved ▸ hc)
            omega
          have h2 : idAt q m ≠ aroot := by
            intro hc
            have := mapOK_idAt_inj hWF.2 (show m < q.size by omega) (by omega) (haroot ▸ hc)
            omega
          show (if idAt q2 m = idAt ⟨l1, m1⟩ 0 then some 0 else m1 (idAt q2 m)) = some m
          rw [if_neg (by rw [hid, hq1id0]; exact h1), hid, hm1def]
          show (if idAt q m = (q.entryAt 0).2 then none else q.mapping (idAt q m)) = some m
          rw [if_neg (by rw [haroot] at h2; exact h2)]
          exact hWF.2.2 m (by omega)
    have hkeym : ∀ m, 0 < m → m < q.size - 1 → keyAt q2 m = keyAt q m := by
      intro m h1 h2
      rw [keyAt, hq2em m h1 h2]
      rfl
    have hchildheap : ∀ c, c = leftchild 0 ∨ c = rightchild 0 → heapAt q2 c := by
      intro c hc
      have hc12 : c = 1 ∨ c = 2 := by
        rcases hc with hc | hc
        · left; rw [hc]; rfl
        · right; rw [hc]; rfl
      have hcpos : 0 < c := by rcases hc12 with hc' | hc' <;> omega
      intro j hj hcj hjs
      rw [hq2sz] at hjs
      have hj0 : 0 < j := by omega
      have hpj0 : c ≤ parent j := inSubtree_le (inSubtree_parent hj (by omega)).1
      have hpjlt : parent j < j := parent_lt hj0
      rw [hkeym j hj0 hjs, hkeym (parent j) (by omega) (by omega)]
      exact hWF.1 j hj0 (by omega)
    have hfinheap : heapOrdered (q2.min_heapify 0) := by
      rw [heapOrdered_iff_heapAt_zero]
      exact min_heapify_heapAt (hchildheap _ (Or.inl rfl)) (hchildheap _ (Or.inr rfl))
    refine ⟨q2.min_heapify 0, ?_, ⟨hfinheap, mh_aux_mapOK _ _ _ hmapok2⟩, ?_, ?_, ?_⟩
    · simp only [extract_min, if_neg hne]
      rw [if_pos (by rw [show (MinPriorityQueue.mk l1 m1).size = l1.length from rfl]; omega)]
      rfl
    · rw [size_min_heapify, hq2sz]
    · intro x hx
      exact hl1sub x ((mh_aux_mem _ q2 0 x).mp hx)
    · intro x hx hxne
      rcases List.mem_iff_getElem?.mp hx with ⟨m, hm⟩
      have hms : m < q.size := by
        have := List.getElem?_eq_some_iff.mp hm
        simpa [size] using this.1
      have hentm : q.entryAt m = x := entryAt_of_getElem? hm
      have hmne0 : m ≠ 0 := by
        intro hc
        exact hxne (by rw [← hentm, hc, haroot, idAt])
      apply (mh_aux_mem _ q2 0 x).mpr
      by_cases hml : m = q.size - 1
      · have : q2.entryAt 0 = x := by rw [hq2e0, hedef, ← hml, hentm]
        exact this ▸ entryAt_mem q2 0 (by rw [hq2sz]; omega)
      · have : q2.entryAt m = x := by rw [hq2em m (by omega) (by omega), hentm]
        exact this ▸ entryAt_mem q2 m (by rw [hq2sz]; omega)

theorem extract_min_err {q : MinPriorityQueue ι} (h : q.size = 0) :
    q.extract_min = .error .indexError := by
  simp only [extract_min, if_pos h]

/-! ### Constructor, operation sequences and drain order -/

theorem append_mapOK {q : MinPriorityQueue ι} (hm : mapOK q) {kv : Int × ι}
    (hnew : q.mapping kv.2 = none) :
    mapOK { elements := q.elements ++ [kv],
            mapping := fun a =>
              if a = kv.2 then some q.elements.length else q.mapping a } := by
  set q1 : MinPriorityQueue ι :=
    { elements := q.elements ++ [kv],
      mapping := fun a => if a = kv.2 then some q.elements.length else q.mapping a }
    with hq1def
  have hq1size : q1.size = q.size + 1 := by simp [hq1def, size]
  have hq1lt : ∀ m, m < q.size → q1.entryAt m = q.entryAt m := by
    intro m hmx
    apply entryAt_congr
    show (q.elements ++ [kv])[m]? = _
    rw [List.getElem?_append]
    simp only [size] at hmx
    simp [hmx]
  have hq1last : q1.entryAt q.size = kv := by
    apply entryAt_of_getElem?
    show (q.elements ++ [kv])[q.elements.length]? = _
    simp
  have hq1idlast : idAt q1 q.size = kv.2 := by rw [idAt, hq1last]
  have hidne : ∀ m, m < q.size → idAt q m ≠ kv.2 := by
    intro m hmx hc
    have hmm := hm.2 m hmx
    rw [hc, hnew] at hmm
    exact Option.noConfusion hmm
  constructor
  · intro b m hmap
    by_cases hba : b = kv.2
    · have : (if b = kv.2 then some q.elements.length else q.mapping b) = some m := hmap
      rw [if_pos hba] at this
      have hm0 : m = q.size := (Option.some_inj.mp this).symm
      rw [hm0, hq1size, hq1idlast]
      exact ⟨by omega, hba.symm⟩
    · have : (if b = kv.2 then some q.elements.length else q.mapping b) = some m := hmap
      rw [if_neg hba] at this
      obtain ⟨hms, hid⟩ := hm.1 b m this
      refine ⟨by rw [hq1size]; omega, ?_⟩
      rw [idAt, hq1lt m hms]
      exact hid
  · intro m hms
    rw [hq1size] at hms
    by_cases hm0 : m = q.size
    · rw [hm0, hq1idlast]
      show (if kv.2 = kv.2 then some q.elements.length else q.mapping kv.2) = some q.size
      rw [if_pos rfl]
      rfl
    · have hms' : m < q.size := by omega
      have hid : idAt q1 m = idAt q m := by
        rw [idAt, hq1lt m hms']
        rfl
      rw [hid]
      show (if idAt q m = kv.2 then some q.elements.length else q.mapping (idAt q m)) = some m
      rw [if_neg (hidne m hms')]
      exact hm.2 m hms'

theorem initElems_fold_elements : ∀ (args : List (Int × ι)) (acc : MinPriorityQueue ι),
    (args.foldl
      (fun q kv =>
        { elements := q.elements ++ [kv],
          mapping := fun a => if a = kv.2 then some q.elements.length else q.mapping a })
      acc).elements = acc.elements ++ args := by
  intro args
  induction args with
  | nil => intro acc; simp
  | cons kv rest IH =>
    intro acc
    rw [List.foldl_cons, IH]
    simp

theorem initElems_elements (args : List (Int × ι)) : (initElems args).elements = args := by
  unfold initElems
  rw [initElems_fold_elements]
  rfl

theorem initElems_fold_mapOK : ∀ (args : List (Int × ι)) (acc : MinPriorityQueue ι),
    mapOK acc → ((acc.elements ++ args).map Prod.snd).Nodup →
    mapOK (args.foldl
      (fun q kv =>
        { elements := q.elements ++ [kv],
          mapping := fun a => if a = kv.2 then some q.elements.length else q.mapping a })
      acc) := by
  intro args
  induction args with
  | nil => intro acc hm _; exact hm
  | cons kv rest IH =>
    intro acc hm hnodup
    rw [List.foldl_cons]
    have hnodup' : ((acc.elements ++ [kv] ++ rest).map Prod.snd).Nodup := by
      rw [List.append_assoc]
      exact hnodup
    have hnotin : kv.2 ∉ acc.elements.map Prod.snd := by
      rw [List.map_append, List.nodup_append] at hnodup
      intro hc
      exact hnodup.2.2 hc (by simp)
    have hnone : acc.mapping kv.2 = none := by
      cases hmap : acc.mapping kv.2 with
      | none => rfl
      | some i => exact absurd (mem_of_mapping hm hmap) hnotin
    apply IH _ (append_mapOK hm hnone)
    show ((({ elements := acc.elements ++ [kv],
              mapping := fun a =>
                if a = kv.2 then some acc.elements.length else acc.mapping a }
        : MinPriorityQueue ι).elements ++ rest).map Prod.snd).Nodup
    exact hnodup'

theorem init_WF {args : List (Int × ι)} (hnodup : (args.map Prod.snd).Nodup) :
    WF (init args) := by
  constructor
  · exact build_min_heap_heapOrdered _
  · apply build_min_heap_mapOK
    apply initElems_fold_mapOK args { elements := [], mapping := fun _ => none }
    · exact ⟨fun a i h => Option.noConfusion h, fun i h => absurd h (by simp [size])⟩
    · simpa using hnodup

theorem get_key_of_mapping {q : MinPriorityQueue ι} {a : ι} {i : Nat}
    (h : q.mapping a = some i) : q.get_key a = .ok (keyAt q i) := by
  unfold get_key
  rw [h]

theorem element_exists_false_of_none {q : MinPriorityQueue ι} {a : ι}
    (h : q.mapping a = none) : q.element_exists a = false := by
  unfold element_exists
  rw [h]
  rfl

theorem mapping_none_of_not_mem {q : MinPriorityQueue ι} (hm : mapOK q) {a : ι}
    (h : a ∉ q.elements.map Prod.snd) : q.mapping a = none := by
  cases hmap : q.mapping a with
  | none => rfl
  | some i => exact absurd (mem_of_mapping hm hmap) h

theorem applyOp_WF {q : MinPriorityQueue ι} (h : WF q) (op : QueueOp ι) :
    WF (applyOp q op) := by
  cases op with
  | insertOp k a =>
    show WF (if q.element_exists a then q else q.insert k a)
    by_cases he : q.element_exists a
    · rw [if_pos he]; exact h
    · rw [if_neg he]
      have hnone : q.mapping a = none := by
        unfold element_exists at he
        cases hmap : q.mapping a with
        | none => rfl
        | some i => rw [hmap] at he; exact absurd rfl he
      exact (insert_spec h hnone k).1
  | extractMinOp =>
    show WF (match q.extract_min with
      | .ok (q', _) => q'
      | .error _ => q)
    by_cases hsz : q.size = 0
    · rw [extract_min_err hsz]
      exact h
    · obtain ⟨R, hR, hWFR, _⟩ := extract_min_spec h hsz
      rw [hR]
      exact hWFR
  | decreaseKeyOp a k =>
    show WF (match q.decrease_key a k with
      | .ok q' => q'
      | .error _ => q)
    cases hmap : q.mapping a with
    | none =>
      rw [decrease_key_err_absent hmap k]
      exact h
    | some i =>
      by_cases hk : k ≤ keyAt q i
      · obtain ⟨R, hR, hWFR, _⟩ := decrease_key_ok h hmap hk
        rw [hR]
        exact hWFR
      · rw [decrease_key_err_greater hmap (by omega)]
        exact h

theorem applyOps_WF {q : MinPriorityQueue ι} (h : WF q) (ops : List (QueueOp ι)) :
    WF (applyOps q ops) := by
  induction ops generalizing q with
  | nil => exact h
  | cons op rest IH => exact IH (applyOp_WF h op)

theorem extract_min_isOk {q : MinPriorityQueue ι} (h : q.size ≠ 0) :
    ∃ p, q.extract_min = .ok p := by
  simp only [extract_min, if_neg h]
  set q1 : MinPriorityQueue ι :=
    { elements := (q.elements.set 0 (q.entryAt (q.size - 1))).dropLast,
      mapping := fun a => if a = (q.entryAt 0).2 then none else q.mapping a } with hq1
  by_cases h1 : 0 < q1.size
  · exact ⟨_, by rw [if_pos h1]⟩
  · exact ⟨_, by rw [if_neg h1]⟩

theorem drainAux_head : ∀ (fuel : Nat) (q : MinPriorityQueue ι) (y : Int × ι),
    (drainAux fuel q).head? = some y → y.1 = keyAt q 0 ∧ q.size ≠ 0 := by
  intro fuel q y h
  match fuel with
  | 0 => exact Option.noConfusion h
  | f + 1 =>
    by_cases hsz : q.size = 0
    · rw [show drainAux (f + 1) q = (match q.extract_min with
        | .error _ => []
        | .ok (q', a) => (keyAt q 0, a) :: drainAux f q') from rfl,
        extract_min_err hsz] at h
      exact Option.noConfusion h
    · obtain ⟨p, hp⟩ := extract_min_isOk hsz
      rw [show drainAux (f + 1) q = (match q.extract_min with
        | .error _ => []
        | .ok (q', a) => (keyAt q 0, a) :: drainAux f q') from rfl, hp] at h
      have : y = (keyAt q 0, p.2) := Option.some_inj.mp h.symm
      exact ⟨by rw [this], hsz⟩

theorem drainAux_chain : ∀ (fuel : Nat) (q : MinPriorityQueue ι), WF q →
    List.Chain' (fun x y : Int × ι => x.1 ≤ y.1) (drainAux fuel q) := by
  intro fuel
  induction fuel with
  | zero => intro q _; exact List.chain'_nil
  | succ f IH =>
    intro q hWF
    by_cases hsz : q.size = 0
    · rw [show drainAux (f + 1) q = (match q.extract_min with
        | .error _ => []
        | .ok (q', a) => (keyAt q 0, a) :: drainAux f q') from rfl,
        extract_min_err hsz]
      exact List.chain'_nil
    · obtain ⟨R, hR, hWFR, hsize, hfwd, _⟩ := extract_min_spec hWF hsz
      rw [show drainAux (f + 1) q = (match q.extract_min with
        | .error _ => []
        | .ok (q', a) => (keyAt q 0, a) :: drainAux f q') from rfl, hR]
      refine List.chain'_cons'.mpr ⟨?_, IH R hWFR⟩
      intro y hy
      obtain ⟨hy1, hRsz⟩ := drainAux_head f R y hy
      have hmem : R.entryAt 0 ∈ q.elements := hfwd _ (entryAt_mem R 0 (by omega))
      rcases List.mem_iff_getElem?.mp hmem with ⟨j, hj⟩
      have hjs : j < q.size := by
        have := List.getElem?_eq_some_iff.mp hj
        simpa [size] using this.1
      have hkey : keyAt q j = keyAt R 0 := by
        rw [keyAt, entryAt_of_getElem? hj]
        rfl
      have := root_min hWF.1 j hjs
      show (keyAt q 0, idAt q 0).1 ≤ y.1
      rw [hy1]
      simp only
      omega

theorem drainAux_length : ∀ (fuel : Nat) (q : MinPriorityQueue ι), WF q →
    (drainAux fuel q).length = min fuel q.size := by
  intro fuel
  induction fuel with
  | zero => intro q _; simp [drainAux]
  | succ f IH =>
    intro q hWF
    by_cases hsz : q.size = 0
    · rw [show drainAux (f + 1) q = (match q.extract_min with
        | .error _ => []
        | .ok (q', a) => (keyAt q 0, a) :: drainAux f q') from rfl,
        extract_min_err hsz]
      simp [hsz]
    · obtain ⟨R, hR, hWFR, hsize, _, _⟩ := extract_min_spec hWF hsz
      rw [show drainAux (f + 1) q = (match q.extract_min with
        | .error _ => []
        | .ok (q', a) => (keyAt q 0, a) :: drainAux f q') from rfl, hR]
      show (drainAux f R).length + 1 = min (f + 1) q.size
      rw [IH R hWFR, hsize]
      omega

theorem drain_chain {q : MinPriorityQueue ι} (hWF : WF q) :
    List.Chain' (fun x y : Int × ι => x.1 ≤ y.1) (drain q) :=
  drainAux_chain q.size q hWF

theorem drain_length {q : MinPriorityQueue ι} (hWF : WF q) :
    (drain q).length = q.size := by
  unfold drain
  rw [drainAux_length q.size q hWF]
  omega

theorem get_key_ok_imp {q : MinPriorityQueue ι} {a : ι} {cur : Int}
    (h : q.get_key a = .ok cur) : ∃ i, q.mapping a = some i ∧ keyAt q i = cur := by
  unfold get_key at h
  cases hm : q.mapping a with
  | none =>
    rw [hm] at h
    exact Except.noConfusion h
  | some i =>
    rw [hm] at h
    refine ⟨i, rfl, ?_⟩
    injection h

end MinPriorityQueue

open MinPriorityQueue

/-- C3: starting from any validly constructed queue (a batch of integer
keys with distinct identities) and applying any sequence of insert,
extract_min and decrease_key operations that respects each operation's
precondition (an operation whose precondition fails raises before any
mutation and leaves the queue unchanged), the min-heap order holds
afterwards: the key at parent(i) is at most the key at i for every
non-root element in range. -/
theorem heap_invariant_after_ops {ι : Type} [DecidableEq ι] [Inhabited ι]
    (args : List (Int × ι)) (hnodup : (args.map Prod.snd).Nodup)
    (ops : List (QueueOp ι)) :
    heapOrdered (applyOps (init args) ops) :=
  (applyOps_WF (init_WF hnodup) ops).1

theorem heap_invariant_after_ops_witness :
    heapOrdered (applyOps (init [((5 : Int), (10 : Nat)), (3, 11), (7, 12)])
      [QueueOp.insertOp 4 13, QueueOp.extractMinOp, QueueOp.decreaseKeyOp 12 1]) :=
  heap_invariant_after_ops _ (by decide) _

/-- C4: after every sequence of queue operations the identity-to-position
mapping is consistent with the element array: every mapped identity points
at an in-range position holding exactly that identity and get_key returns
the key stored there; conversely every identity currently stored in the
element array has a recorded position with those properties, so get_key
succeeds and element_exists returns true for it; while identities not
stored in the queue (including extracted ones) are absent from the
mapping, so element_exists returns false for them. -/
theorem mapping_consistency_after_ops {ι : Type} [DecidableEq ι] [Inhabited ι]
    (args : List (Int × ι)) (hnodup : (args.map Prod.snd).Nodup)
    (ops : List (QueueOp ι)) :
    (∀ a i, (applyOps (init args) ops).mapping a = some i →
      i < (applyOps (init args) ops).size ∧
      idAt (applyOps (init args) ops) i = a ∧
      (applyOps (init args) ops).get_key a =
        .ok (keyAt (applyOps (init args) ops) i)) ∧
    (∀ a, a ∈ ((applyOps (init args) ops).elements.map Prod.snd) →
      (∃ i, (applyOps (init args) ops).mapping a = some i ∧
        i < (applyOps (init args) ops).size ∧
        idAt (applyOps (init args) ops) i = a ∧
        (applyOps (init args) ops).get_key a =
          .ok (keyAt (applyOps (init args) ops) i)) ∧
      (applyOps (init args) ops).element_exists a = true) ∧
    (∀ a, a ∉ ((applyOps (init args) ops).elements.map Prod.snd) →
      (applyOps (init args) ops).mapping a = none ∧
      (applyOps (init args) ops).element_exists a = false) := by
  have hWF := applyOps_WF (init_WF hnodup) ops
  refine ⟨?_, ?_, ?_⟩
  · intro a i hmap
    obtain ⟨his, hid⟩ := hWF.2.1 a i hmap
    exact ⟨his, hid, get_key_of_mapping hmap⟩
  · intro a hmem
    obtain ⟨i, hmap⟩ := mapping_of_mem hWF.2 hmem
    obtain ⟨his, hid⟩ := hWF.2.1 a i hmap
    exact ⟨⟨i, hmap, his, hid, get_key_of_mapping hmap⟩,
      (element_exists_iff hWF.2 a).mpr hmem⟩
  · intro a hnot
    have hnone := mapping_none_of_not_mem hWF.2 hnot
    exact ⟨hnone, element_exists_false_of_none hnone⟩

theorem mapping_consistency_after_ops_witness :
    ((10 : Nat) ∈ ((applyOps (init [((5 : Int), (10 : Nat)), (3, 11)])
        [QueueOp.extractMinOp]).elements.map Prod.snd) ∧
      (applyOps (init [((5 : Int), (10 : Nat)), (3, 11)])
        [QueueOp.extractMinOp]).element_exists 10 = true) ∧
    ((applyOps (init [((5 : Int), (10 : Nat)), (3, 11)])
        [QueueOp.extractMinOp]).mapping 11 = none ∧
      (applyOps (init [((5 : Int), (10 : Nat)), (3, 11)])
        [QueueOp.extractMinOp]).element_exists 11 = false) :=
  ⟨⟨by decide,
    ((mapping_consistency_after_ops [((5 : Int), (10 : Nat)), (3, 11)]
      (by decide) [QueueOp.extractMinOp]).2.1 10 (by decide)).2⟩,
    (mapping_consistency_after_ops [((5 : Int), (10 : Nat)), (3, 11)]
      (by decide) [QueueOp.extractMinOp]).2.2 11 (by decide)⟩

/-- C5: on a well-formed queue, decrease_key with an identity that is not
in the queue fails with the unknown-identity error (KeyError); with a new
key strictly greater than the identity's current key it fails with the
key-order-violation error (ValueError) and, the error being raised before
any assignment, the queue state is unchanged; with a new key at most the
current key it succeeds, afterwards get_key returns the new key and the
queue is again well formed, heap order having been restored by the
sift-up loop. -/
theorem decrease_key_contract {ι : Type} [DecidableEq ι] [Inhabited ι]
    {q : MinPriorityQueue ι} (hWF : WF q) (a : ι) (k : Int) :
    (q.mapping a = none →
      q.decrease_key a k = .error .keyError ∧ applyOp q (.decreaseKeyOp a k) = q) ∧
    (∀ cur : Int, q.get_key a = .ok cur →
      (cur < k →
        q.decrease_key a k = .error .valueError ∧ applyOp q (.decreaseKeyOp a k) = q) ∧
      (k ≤ cur →
        ∃ R, q.decrease_key a k = .ok R ∧ R.get_key a = .ok k ∧ heapOrdered R ∧ WF R)) := by
  constructor
  · intro hnone
    have herr := decrease_key_err_absent hnone k
    refine ⟨herr, ?_⟩
    show (match q.decrease_key a k with
      | .ok q' => q'
      | .error _ => q) = q
    rw [herr]
  · intro cur hcur
    obtain ⟨i, hmap, hkey⟩ := get_key_ok_imp hcur
    constructor
    · intro hlt
      have herr := decrease_key_err_greater hmap (show keyAt q i < k by rw [hkey]; exact hlt)
      refine ⟨herr, ?_⟩
      show (match q.decrease_key a k with
        | .ok q' => q'
        | .error _ => q) = q
      rw [herr]
    · intro hle
      obtain ⟨R, hok, hWFR, hsz, hmem⟩ :=
        decrease_key_ok hWF hmap (show k ≤ keyAt q i by rw [hkey]; exact hle)
      refine ⟨R, hok, ?_, hWFR.1, hWFR⟩
      have his : i < q.size := (hWF.2.1 a i hmap).1
      have hida : idAt q i = a := (hWF.2.1 a i hmap).2
      have hpair : (k, a) ∈ (q.setKey i k).elements := by
        have hent : (q.setKey i k).entryAt i = (k, a) := by
          rw [setKey_entryAt_self q his k, hida]
        exact hent ▸ entryAt_mem _ i (by rw [setKey_size]; exact his)
      exact get_key_of_mem hWFR.2 ((hmem _).mpr hpair)

theorem decrease_key_contract_witness :
    ((init [((5 : Int), (0 : Nat)), (3, 1)]).decrease_key 2 7 = .error QErr.keyError) ∧
    ((init [((5 : Int), (0 : Nat)), (3, 1)]).decrease_key 0 7 = .error QErr.valueError) :=
  ⟨((decrease_key_contract (init_WF (by decide)) 2 7).1 (by decide)).1,
   (((decrease_key_contract (init_WF (by decide)) 0 7).2 5
      (show (init [((5 : Int), (0 : Nat)), (3, 1)]).get_key 0 = Except.ok 5 from rfl)).1
        (by decide)).1⟩

/-- C6: constructing a queue from any batch of integer keys with distinct
identities produces a valid min-heap regardless of input order, and
draining it by repeated extract_min returns all its entries in
non-decreasing key order; in particular the batch with keys 5,3,8,1,9,2
drains in key order 1,2,3,5,8,9, and extract_min on an empty queue fails
with the empty-queue error (IndexError). -/
theorem construction_and_extraction_order {ι : Type} [DecidableEq ι] [Inhabited ι] :
    (∀ args : List (Int × ι), (args.map Prod.snd).Nodup → heapOrdered (init args)) ∧
    (∀ args : List (Int × ι), (args.map Prod.snd).Nodup →
      List.Chain' (fun x y : Int × ι => x.1 ≤ y.1) (drain (init args)) ∧
      (drain (init args)).length = (init args).size) ∧
    ((drain (init [((5 : Int), (0 : Nat)), (3, 1), (8, 2), (1, 3), (9, 4), (2, 5)])).map
        Prod.fst = [1, 2, 3, 5, 8, 9]) ∧
    (∀ q : MinPriorityQueue ι, q.size = 0 → q.extract_min = .error .indexError) := by
  refine ⟨?_, ?_, ?_, ?_⟩
  · intro args hnodup
    exact (init_WF hnodup).1
  · intro args hnodup
    exact ⟨drain_chain (init_WF hnodup), drain_length (init_WF hnodup)⟩
  · decide
  · intro q hq
    exact extract_min_err hq

theorem construction_and_extraction_order_witness :
    heapOrdered (init [((4 : Int), (0 : Nat)), (2, 1), (3, 2)]) ∧
    List.Chain' (fun x y : Int × Nat => x.1 ≤ y.1)
      (drain (init [((4 : Int), (0 : Nat)), (2, 1), (3, 2)])) := by
  exact ⟨(construction_and_extraction_order (ι := Nat)).1 _ (by decide),
    ((construction_and_extraction_order (ι := Nat)).2.1 _ (by decide)).1⟩

/-! ## Lemmas about the grid neighbour methods -/

namespace Grid

theorem nb_body_some_iff (g : Grid) (r c : Nat) (ij : Int × Int) (nd : Node) :
    (if (r : Int) + ij.1 ≥ 0 ∧ (c : Int) + ij.2 ≥ 0 then
      match g.nodeAt? ((r : Int) + ij.1).toNat ((c : Int) + ij.2).toNat with
      | some adj => if ¬ adj.is_obstacle then some adj else none
      | none => none
     else none) = some nd ↔
    ∃ r' c' : Nat, (r : Int) + ij.1 = (r' : Int) ∧ (c : Int) + ij.2 = (c' : Int) ∧
      r' < g.rows ∧ c' < g.columns ∧ (g.nodes r' c').is_obstacle = false ∧
      nd = g.nodes r' c' := by
  constructor
  · intro h
    by_cases hge : (r : Int) + ij.1 ≥ 0 ∧ (c : Int) + ij.2 ≥ 0
    case neg =>
      rw [if_neg hge] at h
      exact Option.noConfusion h
    rw [if_pos hge] at h
    by_cases hb : ((r : Int) + ij.1).toNat < g.rows ∧ ((c : Int) + ij.2).toNat < g.columns
    case neg =>
      unfold nodeAt? at h
      rw [if_neg hb] at h
      exact Option.noConfusion h
    unfold nodeAt? at h
    rw [if_pos hb] at h
    have h2 : (if ¬ (g.nodes ((r : Int) + ij.1).toNat ((c : Int) + ij.2).toNat).is_obstacle
          = true
        then some (g.nodes ((r : Int) + ij.1).toNat ((c : Int) + ij.2).toNat)
        else none) = some nd := h
    by_cases hobst :
      (g.nodes ((r : Int) + ij.1).toNat ((c : Int) + ij.2).toNat).is_obstacle = true
    case pos =>
      rw [if_neg (not_not_intro hobst)] at h2
      exact Option.noConfusion h2
    rw [if_pos hobst] at h2
    exact ⟨((r : Int) + ij.1).toNat, ((c : Int) + ij.2).toNat, by omega, by omega,
      hb.1, hb.2, by simpa using hobst, (Option.some_inj.mp h2).symm⟩
  · rintro ⟨r', c', hr1, hc1, hr2, hc2, hobst, rfl⟩
    rw [if_pos (by omega)]
    have her : ((r : Int) + ij.1).toNat = r' := by omega
    have hec : ((c : Int) + ij.2).toNat = c' := by omega
    rw [her, hec]
    unfold nodeAt?
    rw [if_pos ⟨hr2, hc2⟩]
    show (if ¬ (g.nodes r' c').is_obstacle = true then some (g.nodes r' c') else none) = _
    rw [if_pos (by rw [hobst]; exact Bool.false_ne_true)]

theorem pos_div_row {g : Grid} (hcoh : g.Coherent) {r c : Nat}
    (hr : r < g.rows) (hc : c < g.columns) :
    (g.nodes r c).pos.2 / (g.height / g.rows) = r := by
  obtain ⟨hcw, hch, hnodes⟩ := hcoh
  rw [(hnodes r hr c hc).2.2]
  exact Nat.mul_div_cancel_left r hch

theorem pos_div_col {g : Grid} (hcoh : g.Coherent) {r c : Nat}
    (hr : r < g.rows) (hc : c < g.columns) :
    (g.nodes r c).pos.1 / (g.width / g.columns) = c := by
  obtain ⟨hcw, hch, hnodes⟩ := hcoh
  rw [(hnodes r hr c hc).2.2]
  exact Nat.mul_div_cancel_left c hcw

theorem mem_vh_iff {g : Grid} (hcoh : g.Coherent) {r c : Nat}
    (hr : r < g.rows) (hc : c < g.columns) (nd : Node) :
    nd ∈ g.get_vert_horz_neighbours (g.nodes r c) ↔
      ∃ r' c', r' < g.rows ∧ c' < g.columns ∧ OrthAdj (r, c) (r', c') ∧
        (g.nodes r' c').is_obstacle = false ∧ nd = g.nodes r' c' := by
  simp only [get_vert_horz_neighbours]
  rw [pos_div_row hcoh hr hc, pos_div_col hcoh hr hc, List.mem_filterMap]
  constructor
  · rintro ⟨ij, hij, hbody⟩
    obtain ⟨r', c', h1, h2, h3, h4, h5, h6⟩ := (nb_body_some_iff g r c ij nd).mp hbody
    refine ⟨r', c', h3, h4, ?_, h5, h6⟩
    have : ij = ((-1 : Int), (0 : Int)) ∨ ij = (1, 0) ∨ ij = (0, -1) ∨ ij = (0, 1) := by
      simpa using hij
    unfold OrthAdj
    rcases this with rfl | rfl | rfl | rfl <;> simp at h1 h2 <;> omega
  · rintro ⟨r', c', hr', hc', hadj, hobst, rfl⟩
    unfold OrthAdj at hadj
    have : ∃ ij : Int × Int,
        (ij = ((-1 : Int), (0 : Int)) ∨ ij = (1, 0) ∨ ij = (0, -1) ∨ ij = (0, 1)) ∧
        (r : Int) + ij.1 = (r' : Int) ∧ (c : Int) + ij.2 = (c' : Int) := by
      rcases hadj with ⟨he, hca | hca⟩ | ⟨he, hra | hra⟩
      · exact ⟨(0, 1), by simp, by omega, by omega⟩
      · exact ⟨(0, -1), by simp, by omega, by omega⟩
      · exact ⟨(1, 0), by simp, by omega, by omega⟩
      · exact ⟨(-1, 0), by simp, by omega, by omega⟩
    obtain ⟨ij, hijmem, hije1, hije2⟩ := this
    refine ⟨ij, by simpa using hijmem, ?_⟩
    exact (nb_body_some_iff g r c ij _).mpr ⟨r', c', hije1, hije2, hr', hc', hobst, rfl⟩

theorem mem_diag_iff {g : Grid} (hcoh : g.Coherent) {r c : Nat}
    (hr : r < g.rows) (hc : c < g.columns) (nd : Node) :
    nd ∈ g.get_diag_neighbors (g.nodes r c) ↔
      ∃ r' c', r' < g.rows ∧ c' < g.columns ∧ DiagAdj (r, c) (r', c') ∧
        (g.nodes r' c').is_obstacle = false ∧ nd = g.nodes r' c' := by
  simp only [get_diag_neighbors]
  rw [pos_div_row hcoh hr hc, pos_div_col hcoh hr hc, List.mem_filterMap]
  constructor
  · rintro ⟨ij, hij, hbody⟩
    obtain ⟨r', c', h1, h2, h3, h4, h5, h6⟩ := (nb_body_some_iff g r c ij nd).mp hbody
    refine ⟨r', c', h3, h4, ?_, h5, h6⟩
    have : ij = ((-1 : Int), (-1 : Int)) ∨ ij = (1, -1) ∨ ij = (-1, 1) ∨ ij = (1, 1) := by
      simpa using hij
    unfold DiagAdj
    rcases this with rfl | rfl | rfl | rfl <;> simp at h1 h2 <;> omega
  · rintro ⟨r', c', hr', hc', hadj, hobst, rfl⟩
    unfold DiagAdj at hadj
    have : ∃ ij : Int × Int,
        (ij = ((-1 : Int), (-1 : Int)) ∨ ij = (1, -1) ∨ ij = (-1, 1) ∨ ij = (1, 1)) ∧
        (r : Int) + ij.1 = (r' : Int) ∧ (c : Int) + ij.2 = (c' : Int) := by
      rcases hadj with ⟨hra | hra, hca | hca⟩
      · exact ⟨(1, 1), by simp, by omega, by omega⟩
      · exact ⟨(1, -1), by simp, by omega, by omega⟩
      · exact ⟨(-1, 1), by simp, by omega, by omega⟩
      · exact ⟨(-1, -1), by simp, by omega, by omega⟩
    obtain ⟨ij, hijmem, hije1, hije2⟩ := this
    refine ⟨ij, by simpa using hijmem, ?_⟩
    exact (nb_body_some_iff g r c ij _).mpr ⟨r', c', hije1, hije2, hr', hc', hobst, rfl⟩

theorem vh_length_le (g : Grid) (node : Node) :
    (g.get_vert_horz_neighbours node).length ≤ 4 := by
  simp only [get_vert_horz_neighbours]
  exact le_trans (List.length_filterMap_le _ _) (by simp)

theorem diag_length_le (g : Grid) (node : Node) :
    (g.get_diag_neighbors node).length ≤ 4 := by
  simp only [get_diag_neighbors]
  exact le_trans (List.length_filterMap_le _ _) (by simp)

end Grid

open Grid

/-- C10: for every node of a well-formed grid, get_vert_horz_neighbours
returns exactly the in-bounds orthogonally adjacent non-obstacle nodes
and get_diag_neighbors returns exactly the in-bounds diagonally adjacent
non-obstacle nodes, each list of length at most 4; in particular neither
raises on boundary nodes, and negative row or column positions are
excluded rather than wrapping to the opposite edge (adjacency is the
exact arithmetic relation on coordinates). -/
theorem neighbour_methods_exact {g : Grid} (hcoh : g.Coherent) {r c : Nat}
    (hr : r < g.rows) (hc : c < g.columns) :
    (∀ nd, nd ∈ g.get_vert_horz_neighbours (g.nodes r c) ↔
      ∃ r' c', r' < g.rows ∧ c' < g.columns ∧ OrthAdj (r, c) (r', c') ∧
        (g.nodes r' c').is_obstacle = false ∧ nd = g.nodes r' c') ∧
    (∀ nd, nd ∈ g.get_diag_neighbors (g.nodes r c) ↔
      ∃ r' c', r' < g.rows ∧ c' < g.columns ∧ DiagAdj (r, c) (r', c') ∧
        (g.nodes r' c').is_obstacle = false ∧ nd = g.nodes r' c') ∧
    (g.get_vert_horz_neighbours (g.nodes r c)).length ≤ 4 ∧
    (g.get_diag_neighbors (g.nodes r c)).length ≤ 4 :=
  ⟨fun nd => mem_vh_iff hcoh hr hc nd, fun nd => mem_diag_iff hcoh hr hc nd,
    vh_length_le g _, diag_length_le g _⟩

theorem neighbour_methods_exact_witness :
    (Grid.fresh 3 3 3 3 (0, 0) (2, 2)).Coherent ∧
    ((Grid.fresh 3 3 3 3 (0, 0) (2, 2)).get_vert_horz_neighbours
        ((Grid.fresh 3 3 3 3 (0, 0) (2, 2)).nodes 0 0)).length ≤ 4 :=
  ⟨by decide, (neighbour_methods_exact (by decide) (by decide)
    (show (0 : Nat) < 3 by decide)).2.2.1⟩

/-- C7: processing one neighbour nb of the extracted cell cur updates
nb's g cost and predecessor exactly when nb's g cost is unset or the
candidate cost (cur's g plus the movement cost) is strictly smaller; an
equal candidate is rejected and leaves grid and queue unchanged.  On an
update, when nb is already in the queue its key is decreased to the new f
cost, and otherwise nb is inserted with that f cost, after which it is
open (element_exists holds). -/
theorem relaxation_contract {q : MinPriorityQueue Coord} (hWF : WF q)
    (G : Grid) (cur nb : Coord) (cost : Int) :
    (∀ gv, (G.nodes nb.1 nb.2).g_cost = some gv →
      ¬ ((G.nodes cur.1 cur.2).g_cost.getD 0 + cost < gv) →
      Grid.relax_neighbour cur cost (G, q) nb = .ok (G, q)) ∧
    (((G.nodes nb.1 nb.2).g_cost = none ∨
      (∃ gv, (G.nodes nb.1 nb.2).g_cost = some gv ∧
        (G.nodes cur.1 cur.2).g_cost.getD 0 + cost < gv)) →
      ∃ G2 : Grid,
        (G2.nodes nb.1 nb.2).g_cost =
          some ((G.nodes cur.1 cur.2).g_cost.getD 0 + cost) ∧
        (G2.nodes nb.1 nb.2).prev = some cur ∧
        (∀ r c, ¬ (r = nb.1 ∧ c = nb.2) → G2.nodes r c = G.nodes r c) ∧
        (q.element_exists nb = true →
          ∀ q2, q.decrease_key nb ((G2.nodes nb.1 nb.2).get_f_cost) = .ok q2 →
            Grid.relax_neighbour cur cost (G, q) nb = .ok (G2, q2) ∧
            q2.get_key nb = .ok ((G2.nodes nb.1 nb.2).get_f_cost)) ∧
        (q.element_exists nb = false →
          Grid.relax_neighbour cur cost (G, q) nb =
            .ok (G2, q.insert ((G2.nodes nb.1 nb.2).get_f_cost) nb) ∧
          (q.insert ((G2.nodes nb.1 nb.2).get_f_cost) nb).element_exists nb = true)) := by
  constructor
  · intro gv hgv hnot
    unfold Grid.relax_neighbour
    simp only
    rw [show ((G.nodes nb.1 nb.2).relax_g_cost
        ((G.nodes cur.1 cur.2).g_cost.getD 0 + cost)) =
        (G.nodes nb.1 nb.2, false) from by
      unfold Node.relax_g_cost
      rw [hgv]
      show (if (G.nodes cur.1 cur.2).g_cost.getD 0 + cost < gv then _ else _) = _
      rw [if_neg hnot]]
    rfl
  · intro hupd
    set cand := (G.nodes cur.1 cur.2).g_cost.getD 0 + cost with hcand
    have hrelax : (G.nodes nb.1 nb.2).relax_g_cost cand =
        ({ G.nodes nb.1 nb.2 with g_cost := some cand }, true) := by
      unfold Node.relax_g_cost
      rcases hupd with hnone | ⟨gv, hgv, hlt⟩
      · rw [hnone]
      · rw [hgv]
        show (if cand < gv then _ else _) = _
        rw [if_pos hlt]
    set nd2 : Node :=
      ({ G.nodes nb.1 nb.2 with g_cost := some cand } : Node).set_prev cur with hnd2
    set G2 := G.setNode nb.1 nb.2 nd2 with hG2
    have hG2node : G2.nodes nb.1 nb.2 = nd2 := by
      show (if nb.1 = nb.1 ∧ nb.2 = nb.2 then nd2 else G.nodes nb.1 nb.2) = nd2
      rw [if_pos ⟨rfl, rfl⟩]
    have hstep : Grid.relax_neighbour cur cost (G, q) nb =
        (if q.element_exists nb then
          match q.decrease_key nb nd2.get_f_cost with
          | .ok q2 => .ok (G2, q2)
          | .error e => .error e
        else .ok (G2, q.insert nd2.get_f_cost nb)) := by
      unfold Grid.relax_neighbour
      simp only
      rw [hrelax]
      rfl
    refine ⟨G2, by rw [hG2node]; rfl, by rw [hG2node]; rfl, ?_, ?_, ?_⟩
    · intro r c hne
      show (if r = nb.1 ∧ c = nb.2 then nd2 else G.nodes r c) = G.nodes r c
      rw [if_neg hne]
    · intro hex q2 hq2
      rw [hG2node] at hq2
      constructor
      · rw [hstep, if_pos hex, hq2]
      · -- the new key is stored for nb
        have hinv : ∃ i, q.mapping nb = some i ∧
            nd2.get_f_cost ≤ keyAt q i := by
          cases hmap : q.mapping nb with
          | none =>
            have hq2' : (Except.error QErr.keyError :
                Except QErr (MinPriorityQueue Coord)) = Except.ok q2 := by
              rw [← hq2]
              unfold MinPriorityQueue.decrease_key
              rw [hmap]
            exact Except.noConfusion hq2'
          | some i =>
            by_cases hk : nd2.get_f_cost ≤ keyAt q i
            · exact ⟨i, rfl, hk⟩
            · have hq2' : (Except.error QErr.valueError :
                  Except QErr (MinPriorityQueue Coord)) = Except.ok q2 := by
                rw [← hq2]
                unfold MinPriorityQueue.decrease_key
                rw [hmap]
                show _ = (if nd2.get_f_cost ≤ keyAt q i then _ else _)
                rw [if_neg hk]
              exact Except.noConfusion hq2'
        obtain ⟨i, hmap, hk⟩ := hinv
        obtain ⟨R, hok, hWFR, hsz, hmem⟩ := decrease_key_ok hWF hmap hk
        have hq2R : R = q2 := by
          rw [hok] at hq2
          exact Except.ok.inj hq2
        have his : i < q.size := (hWF.2.1 nb i hmap).1
        have hida : idAt q i = nb := (hWF.2.1 nb i hmap).2
        have hpair : (nd2.get_f_cost, nb) ∈
            (q.setKey i nd2.get_f_cost).elements := by
          have hent := setKey_entryAt_self q his nd2.get_f_cost
          rw [hida] at hent
          exact hent ▸ entryAt_mem _ i (by rw [setKey_size]; exact his)
        rw [← hq2R, hG2node]
        exact get_key_of_mem hWFR.2 ((hmem _).mpr hpair)
    · intro hnex
      have hnone : q.mapping nb = none := by
        unfold MinPriorityQueue.element_exists at hnex
        cases hmap : q.mapping nb with
        | none => rfl
        | some i => rw [hmap] at hnex; exact Bool.noConfusion hnex
      refine ⟨?_, ?_⟩
      · rw [hstep, if_neg (by rw [hnex]; exact Bool.false_ne_true), hG2node]
      · rw [hG2node]
        have hspec := insert_spec hWF hnone nd2.get_f_cost
        have hWFi := hspec.1
        apply (element_exists_iff hWFi.2 nb).mpr
        apply List.mem_map.mpr
        exact ⟨(nd2.get_f_cost, nb), (hspec.2.2 _).mpr (Or.inr rfl), rfl⟩

theorem relaxation_contract_witness :
    Grid.relax_neighbour (0, 0) 10
      ((Grid.fresh 2 1 2 1 (0, 0) (0, 1)).init_run.grid, MinPriorityQueue.init [])
      (0, 1) ≠ .ok ((Grid.fresh 2 1 2 1 (0, 0) (0, 1)).init_run.grid,
        MinPriorityQueue.init []) := by
  have h := (relaxation_contract
    (show WF (MinPriorityQueue.init ([] : List (Int × Coord))) from
      init_WF (by decide))
    (Grid.fresh 2 1 2 1 (0, 0) (0, 1)).init_run.grid (0, 0) (0, 1) 10).2
    (Or.inl (by decide))
  obtain ⟨G2, hg, hp, hframe, hdec, hins⟩ := h
  have hcase := hins (by decide)
  rw [hcase.1]
  intro hcontra
  have : G2 = (Grid.fresh 2 1 2 1 (0, 0) (0, 1)).init_run.grid := by
    have := Except.ok.inj hcontra
    exact congrArg Prod.fst this
  rw [this] at hg
  have : ((Grid.fresh 2 1 2 1 (0, 0) (0, 1)).init_run.grid.nodes 0 1).g_cost = none := by
    decide
  rw [this] at hg
  exact Option.noConfusion hg

/-! ## Initialization of a search run -/

theorem Node.relax_g_cost_cases (n : Node) (c : Int) :
    n.relax_g_cost c = ({ n with g_cost := some c }, true) ∨
    n.relax_g_cost c = (n, false) := by
  unfold Node.relax_g_cost
  cases hg : n.g_cost with
  | none => exact Or.inl rfl
  | some gv =>
    by_cases hlt : c < gv
    · exact Or.inl (by show (if c < gv then _ else _) = _; rw [if_pos hlt])
    · exact Or.inr (by show (if c < gv then _ else _) = _; rw [if_neg hlt])

theorem Node.relax_g_cost_fields (n : Node) (c : Int) :
    ((n.relax_g_cost c).1).h_cost = n.h_cost ∧
    ((n.relax_g_cost c).1).prev = n.prev ∧
    ((n.relax_g_cost c).1).state = n.state := by
  rcases n.relax_g_cost_cases c with h | h <;> rw [h] <;> exact ⟨rfl, rfl, rfl⟩

/-- Under Coherent, calculate_all_h_costs stores the octile distance to
the target as the h cost of every in-range node and changes nothing
else. -/
theorem calc_h_costs_node {g : Grid} (hcoh : g.Coherent) {t : Coord}
    (ht : g.target = some t) (htb : g.inBounds t) {r c : Nat}
    (hr : r < g.rows) (hc : c < g.columns) :
    g.calculate_all_h_costs.nodes r c =
      (g.nodes r c).set_h_cost ((octile (r, c) t : Nat) : Int) := by
  obtain ⟨hcw, hch, hnodes⟩ := hcoh
  have hx := hnodes r hr c hc
  have htx := hnodes t.1 htb.1 t.2 htb.2
  unfold Grid.calculate_all_h_costs
  simp only [ht, Option.getD_some]
  rw [if_pos ⟨hr, hc⟩, hx.1, hx.2.1, htx.1, htx.2.1]
  have hoct : (octile (r, c) t : Nat) =
      14 * min (((r : Int) - (t.1 : Int)).natAbs) (((c : Int) - (t.2 : Int)).natAbs) +
      10 * (max (((r : Int) - (t.1 : Int)).natAbs) (((c : Int) - (t.2 : Int)).natAbs) -
        min (((r : Int) - (t.1 : Int)).natAbs) (((c : Int) - (t.2 : Int)).natAbs)) := rfl
  rw [hoct]
  refine congrArg (Node.set_h_cost (g.nodes r c)) ?_
  unfold Grid.DIAG_COST Grid.VERT_HORZ_COST
  omega

/-- Out-of-range slots are untouched by calculate_all_h_costs. -/
theorem calc_h_costs_frame (g : Grid) {r c : Nat}
    (h : ¬ (r < g.rows ∧ c < g.columns)) :
    g.calculate_all_h_costs.nodes r c = g.nodes r c := by
  show (if r < g.rows ∧ c < g.columns then _ else _) = _
  rw [if_neg h]

/-- C2 (amended): at the start of a search run only the heuristic is
recomputed (to the octile distance to the current target, over every
in-range cell) and the start cell's g cost is relaxed with candidate 0;
the g cost, predecessor and display state of every other cell, and the
predecessor and state of the start cell itself, are carried over
unchanged from before the run, and a start g cost at most 0 left by an
earlier run even survives the relaxation.  The run begins with an empty
closed set and a queue holding exactly the start reference. -/
theorem search_run_reset_amended {g : Grid} (hcoh : g.Coherent)
    {s t : Coord} (hs : g.start = some s) (ht : g.target = some t)
    (hsb : g.inBounds s) (htb : g.inBounds t) :
    (∀ r c, r < g.rows → c < g.columns →
      ((g.init_run).grid.nodes r c).h_cost = some ((octile (r, c) t : Nat) : Int)) ∧
    (∀ r c, ¬ (r = s.1 ∧ c = s.2) →
      ((g.init_run).grid.nodes r c).g_cost = (g.nodes r c).g_cost ∧
      ((g.init_run).grid.nodes r c).prev = (g.nodes r c).prev ∧
      ((g.init_run).grid.nodes r c).state = (g.nodes r c).state) ∧
    (((g.init_run).grid.nodes s.1 s.2).prev = (g.nodes s.1 s.2).prev ∧
     ((g.init_run).grid.nodes s.1 s.2).state = (g.nodes s.1 s.2).state) ∧
    ((g.nodes s.1 s.2).g_cost = none →
      ((g.init_run).grid.nodes s.1 s.2).g_cost = some 0) ∧
    (∀ gv, (g.nodes s.1 s.2).g_cost = some gv →
      ((g.init_run).grid.nodes s.1 s.2).g_cost =
        some (if 0 < gv then 0 else gv)) ∧
    (g.init_run).closed = [] ∧
    (g.init_run).opened.size = 1 ∧
    (g.init_run).opened.element_exists s = true := by
  have hgrid : (g.init_run).grid =
      (g.calculate_all_h_costs).setNode s.1 s.2
        (((g.calculate_all_h_costs).nodes s.1 s.2).relax_g_cost 0).1 := by
    unfold Grid.init_run
    rw [hs]
    rfl
  have hnodes2 : ∀ r c, (g.init_run).grid.nodes r c =
      (if r = s.1 ∧ c = s.2 then
        (((g.calculate_all_h_costs).nodes s.1 s.2).relax_g_cost 0).1
      else (g.calculate_all_h_costs).nodes r c) := by
    intro r c
    rw [hgrid]
    rfl
  have hcalcS : (g.calculate_all_h_costs).nodes s.1 s.2 =
      (g.nodes s.1 s.2).set_h_cost ((octile (s.1, s.2) t : Nat) : Int) :=
    calc_h_costs_node hcoh ht htb hsb.1 hsb.2
  refine ⟨?_, ?_, ?_, ?_, ?_, rfl, ?_, ?_⟩
  · intro r c hr hc
    rw [hnodes2]
    by_cases hrc : r = s.1 ∧ c = s.2
    · rw [if_pos hrc]
      rw [(((g.calculate_all_h_costs).nodes s.1 s.2).relax_g_cost_fields 0).1,
        hcalcS]
      obtain ⟨h1, h2⟩ := hrc
      rw [h1, h2]
      rfl
    · rw [if_neg hrc, calc_h_costs_node hcoh ht htb hr hc]
      rfl
  · intro r c hrc
    rw [hnodes2, if_neg hrc]
    by_cases hin : r < g.rows ∧ c < g.columns
    · rw [calc_h_costs_node hcoh ht htb hin.1 hin.2]
      exact ⟨rfl, rfl, rfl⟩
    · rw [calc_h_costs_frame g hin]
      exact ⟨rfl, rfl, rfl⟩
  · rw [hnodes2, if_pos ⟨rfl, rfl⟩]
    have hf := ((g.calculate_all_h_costs).nodes s.1 s.2).relax_g_cost_fields 0
    rw [hf.2.1, hf.2.2, hcalcS]
    exact ⟨rfl, rfl⟩
  · intro hnone
    rw [hnodes2, if_pos ⟨rfl, rfl⟩, hcalcS]
    have hg' : ((g.nodes s.1 s.2).set_h_cost
        ((octile (s.1, s.2) t : Nat) : Int)).g_cost = none := hnone
    have hrel : ((g.nodes s.1 s.2).set_h_cost
        ((octile (s.1, s.2) t : Nat) : Int)).relax_g_cost 0 =
        ({ (g.nodes s.1 s.2).set_h_cost ((octile (s.1, s.2) t : Nat) : Int) with
            g_cost := some 0 }, true) := by
      unfold Node.relax_g_cost
      rw [hg']
    rw [hrel]
  · intro gv hgv
    rw [hnodes2, if_pos ⟨rfl, rfl⟩, hcalcS]
    have hg' : ((g.nodes s.1 s.2).set_h_cost
        ((octile (s.1, s.2) t : Nat) : Int)).g_cost = some gv := hgv
    by_cases h0 : (0 : Int) < gv
    · have hrel : ((g.nodes s.1 s.2).set_h_cost
          ((octile (s.1, s.2) t : Nat) : Int)).relax_g_cost 0 =
          ({ (g.nodes s.1 s.2).set_h_cost ((octile (s.1, s.2) t : Nat) : Int) with
              g_cost := some 0 }, true) := by
        unfold Node.relax_g_cost
        rw [hg']
        show (if (0 : Int) < gv then _ else _) = _
        rw [if_pos h0]
      rw [hrel, if_pos h0]
    · have hrel : ((g.nodes s.1 s.2).set_h_cost
          ((octile (s.1, s.2) t : Nat) : Int)).relax_g_cost 0 =
          ((g.nodes s.1 s.2).set_h_cost ((octile (s.1, s.2) t : Nat) : Int),
            false) := by
        unfold Node.relax_g_cost
        rw [hg']
        show (if (0 : Int) < gv then _ else _) = _
        rw [if_neg h0]
      rw [hrel, if_neg h0]
      exact hgv
  · have hop : (g.init_run).opened =
        (MinPriorityQueue.init []).insert
          (((g.init_run).grid.nodes s.1 s.2).get_f_cost) s := by
      unfold Grid.init_run
      rw [hs]
      rfl
    have hWF0 : WF (MinPriorityQueue.init ([] : List (Int × Coord))) :=
      init_WF (by simp)
    have hnone : (MinPriorityQueue.init ([] : List (Int × Coord))).mapping s =
        none := rfl
    have hspec := insert_spec hWF0 hnone (((g.init_run).grid.nodes s.1 s.2).get_f_cost)
    rw [hop, hspec.2.1]
    rfl
  · have hop : (g.init_run).opened =
        (MinPriorityQueue.init []).insert
          (((g.init_run).grid.nodes s.1 s.2).get_f_cost) s := by
      unfold Grid.init_run
      rw [hs]
      rfl
    have hWF0 : WF (MinPriorityQueue.init ([] : List (Int × Coord))) :=
      init_WF (by simp)
    have hnone : (MinPriorityQueue.init ([] : List (Int × Coord))).mapping s =
        none := rfl
    have hspec := insert_spec hWF0 hnone (((g.init_run).grid.nodes s.1 s.2).get_f_cost)
    rw [hop]
    exact (element_exists_iff hspec.1.2 s).mpr
      (List.mem_map.mpr ⟨(_, s), (hspec.2.2 _).mpr (Or.inr rfl), rfl⟩)

theorem search_run_reset_amended_witness :
    (Grid.fresh 2 1 2 1 (0, 0) (0, 1)).Coherent ∧
    ((Grid.fresh 2 1 2 1 (0, 0) (0, 1)).init_run).opened.element_exists
      (0, 0) = true :=
  ⟨by decide, (search_run_reset_amended (by decide)
    (show (Grid.fresh 2 1 2 1 (0, 0) (0, 1)).start = some (0, 0) by decide)
    (show (Grid.fresh 2 1 2 1 (0, 0) (0, 1)).target = some (0, 1) by decide)
    (by decide) (by decide)).2.2.2.2.2.2.2⟩

/-- C2 is refuted as stated: on the two-cell grid with start (0,0) and
target (0,1), a first solve succeeds and leaves the target state TARGET,
but the g cost that run stored at (0,1) is still present (value 10) after
the initialization of a second run on the resulting grid — only the h
cost is recomputed — and because relaxation demands a strict improvement
the stale g cost makes the second, identical search drain its queue and
report no solution (target state NO_SOL_TARGET).  Leftover state thus
does influence a later run. -/
theorem state_reset_cex :
    ((Grid.fresh 2 1 2 1 (0, 0) (0, 1)).solve 5).stateAt 0 1 =
      some NState.TARGET ∧
    ((((Grid.fresh 2 1 2 1 (0, 0) (0, 1)).solve 5).gridD
        (Grid.fresh 2 1 2 1 (0, 0) (0, 1))).init_run.grid.nodes 0 1).g_cost =
      some 10 ∧
    ((((Grid.fresh 2 1 2 1 (0, 0) (0, 1)).solve 5).gridD
        (Grid.fresh 2 1 2 1 (0, 0) (0, 1))).solve 5).stateAt 0 1 =
      some NState.NO_SOL_TARGET := by
  exact ⟨by decide, by decide, by decide⟩

/-! ## The start of a run, as shared lemmas, and the start = target case -/

theorem calc_h_costs_keeps (g : Grid) (r c : Nat) :
    (g.calculate_all_h_costs.nodes r c).g_cost = (g.nodes r c).g_cost ∧
    (g.calculate_all_h_costs.nodes r c).prev = (g.nodes r c).prev ∧
    (g.calculate_all_h_costs.nodes r c).state = (g.nodes r c).state := by
  have hite : ∀ {α : Type} (P : Node → α), (∀ n v, P (n.set_h_cost v) = P n) →
      P (g.calculate_all_h_costs.nodes r c) = P (g.nodes r c) := by
    intro α P hP
    by_cases h : r < g.rows ∧ c < g.columns
    · show P (if r < g.rows ∧ c < g.columns then _ else _) = _
      rw [if_pos h]
      exact hP _ _
    · show P (if r < g.rows ∧ c < g.columns then _ else _) = _
      rw [if_neg h]
  exact ⟨hite Node.g_cost (fun n v => rfl), hite Node.prev (fun n v => rfl),
    hite Node.state (fun n v => rfl)⟩

theorem init_run_grid (g : Grid) {s : Coord} (hs : g.start = some s) :
    (g.init_run).grid =
      (g.calculate_all_h_costs).setNode s.1 s.2
        (((g.calculate_all_h_costs).nodes s.1 s.2).relax_g_cost 0).1 := by
  unfold Grid.init_run
  rw [hs]
  rfl

theorem init_run_nodes (g : Grid) {s : Coord} (hs : g.start = some s)
    (r c : Nat) :
    (g.init_run).grid.nodes r c =
      (if r = s.1 ∧ c = s.2 then
        (((g.calculate_all_h_costs).nodes s.1 s.2).relax_g_cost 0).1
      else (g.calculate_all_h_costs).nodes r c) := by
  rw [init_run_grid g hs]
  rfl

theorem init_run_opened (g : Grid) {s : Coord} (hs : g.start = some s) :
    (g.init_run).opened =
      (MinPriorityQueue.init []).insert
        (((g.init_run).grid.nodes s.1 s.2).get_f_cost) s := by
  unfold Grid.init_run
  rw [hs]
  rfl

theorem init_run_opened_spec (g : Grid) {s : Coord} (hs : g.start = some s) :
    WF (g.init_run).opened ∧ (g.init_run).opened.size = 1 ∧
    ∀ x, x ∈ (g.init_run).opened.elements ↔
      x = (((g.init_run).grid.nodes s.1 s.2).get_f_cost, s) := by
  have hWF0 : WF (MinPriorityQueue.init ([] : List (Int × Coord))) :=
    init_WF (by simp)
  have hnone : (MinPriorityQueue.init ([] : List (Int × Coord))).mapping s =
      none := rfl
  have hspec := insert_spec hWF0 hnone
    (((g.init_run).grid.nodes s.1 s.2).get_f_cost)
  rw [init_run_opened g hs]
  refine ⟨hspec.1, by rw [hspec.2.1]; rfl, fun x => ?_⟩
  rw [hspec.2.2 x]
  constructor
  · rintro (hx | hx)
    · rw [show (MinPriorityQueue.init ([] : List (Int × Coord))).elements = []
        from rfl] at hx
      exact absurd hx (List.not_mem_nil x)
    · exact hx
  · exact fun hx => Or.inr hx

/-- C9 (amended): with start and target both set to the same cell s (whose
g cost and predecessor are unset), the search does terminate immediately
in the found state with g cost 0 at s and closed set [s]; but the
subsequent path reconstruction of solve starts from the predecessor of
the target, which is still None, and steps through it, so solve ends in
the AttributeError outcome instead of delivering the grid.  (solve
catches only IndexError, so this error escapes to the caller.) -/
theorem trivial_path_amended {g : Grid} {s : Coord}
    (hs : g.start = some s) (ht : g.target = some s)
    (hgnone : (g.nodes s.1 s.2).g_cost = none)
    (hprev : (g.nodes s.1 s.2).prev = none) (fuel : Nat) :
    (∃ R, g.find_path_nonvisual (fuel + 1) =
      .found { grid := { (g.init_run).grid with solved := true },
               opened := R, closed := [s] }) ∧
    ((g.init_run).grid.nodes s.1 s.2).g_cost = some 0 ∧
    g.solve (fuel + 1) = .attrErrorPath := by
  have hkeep := calc_h_costs_keeps g s.1 s.2
  have hnodeS : (g.init_run).grid.nodes s.1 s.2 =
      (((g.calculate_all_h_costs).nodes s.1 s.2).relax_g_cost 0).1 := by
    rw [init_run_nodes g hs, if_pos ⟨rfl, rfl⟩]
  have hcg : ((g.calculate_all_h_costs).nodes s.1 s.2).g_cost = none := by
    rw [hkeep.1]
    exact hgnone
  have hrel : ((g.calculate_all_h_costs).nodes s.1 s.2).relax_g_cost 0 =
      ({ (g.calculate_all_h_costs).nodes s.1 s.2 with g_cost := some 0 },
        true) := by
    unfold Node.relax_g_cost
    rw [hcg]
  have hg0 : ((g.init_run).grid.nodes s.1 s.2).g_cost = some 0 := by
    rw [hnodeS, hrel]
  have hprev0 : ((g.init_run).grid.nodes s.1 s.2).prev = none := by
    rw [hnodeS, hrel]
    show ((g.calculate_all_h_costs).nodes s.1 s.2).prev = none
    rw [hkeep.2.1]
    exact hprev
  obtain ⟨hWF1, hsz1, hmem1⟩ := init_run_opened_spec g hs
  have hid0 : idAt (g.init_run).opened 0 = s := by
    have h0 : (0 : Nat) < (g.init_run).opened.size := by omega
    have hm := (hmem1 _).mp (entryAt_mem _ 0 h0)
    show ((g.init_run).opened.entryAt 0).2 = s
    rw [hm]
  obtain ⟨R, hext, hWFR, hszR, _, _⟩ :=
    extract_min_spec hWF1 (by omega : (g.init_run).opened.size ≠ 0)
  rw [hid0] at hext
  have hstep : Grid.find_path_step s g.init_run =
      .ok (.inl { grid := { (g.init_run).grid with solved := true },
                  opened := R, closed := [s] }) := by
    unfold Grid.find_path_step
    rw [hext]
    show (if s = s then _ else _) = _
    rw [if_pos rfl]
    rfl
  have hloop : g.find_path_nonvisual (fuel + 1) =
      .found { grid := { (g.init_run).grid with solved := true },
               opened := R, closed := [s] } := by
    unfold Grid.find_path_nonvisual
    rw [ht]
    show Grid.find_path_loop s (fuel + 1) g.init_run = _
    rw [show Grid.find_path_loop s (fuel + 1) g.init_run =
        (match Grid.find_path_step s g.init_run with
         | .error .indexError => .queueEmpty g.init_run
         | .error e => .raised e
         | .ok (.inl s') => .found s'
         | .ok (.inr s') => Grid.find_path_loop s fuel s') from rfl, hstep]
  refine ⟨⟨R, hloop⟩, hg0, ?_⟩
  have hprev1 : (({ (g.init_run).grid with solved := true } : Grid).nodes
      s.1 s.2).prev = none := hprev0
  have hst1 : ({ (g.init_run).grid with solved := true } : Grid).start =
      some s := by
    rw [init_run_grid g hs]
    exact hs
  have htgt1 : ({ (g.init_run).grid with solved := true } : Grid).target =
      some s := by
    rw [init_run_grid g hs]
    exact ht
  have hpp : ({ (g.init_run).grid with solved := true } : Grid).print_path
      (g.rows * g.columns + 1) = .attrError := by
    unfold Grid.print_path
    rw [if_pos (show ({ (g.init_run).grid with solved := true } : Grid).solved =
      true from rfl), hst1, htgt1]
    show Grid.print_path_loop s (g.rows * g.columns + 1)
        ({ (g.init_run).grid with solved := true })
        ((({ (g.init_run).grid with solved := true } : Grid).nodes s.1 s.2).prev)
        = _
    rw [hprev1]
    show (if (none : Option Coord) = some s then _ else _) = _
    rw [if_neg (by simp)]
  unfold Grid.solve
  rw [hs, ht, if_neg (by simp), hloop]
  show (match ({ (g.init_run).grid with solved := true } : Grid).print_path
      (g.rows * g.columns + 1) with
    | Grid.PathResult.ok g2 => Grid.SolveOutcome.done g2
    | Grid.PathResult.attrError => Grid.SolveOutcome.attrErrorPath
    | Grid.PathResult.outOfFuel => Grid.SolveOutcome.outOfFuel) = _
  rw [hpp]

theorem trivial_path_amended_witness :
    (({ Grid.create_grid 3 3 3 3 with
        start := some (1, 1), target := some (1, 1) } : Grid).nodes 1 1).g_cost
      = none ∧
    ({ Grid.create_grid 3 3 3 3 with
        start := some (1, 1), target := some (1, 1) } : Grid).solve 5 =
      .attrErrorPath :=
  ⟨by decide,
    (trivial_path_amended
      (show ({ Grid.create_grid 3 3 3 3 with
          start := some (1, 1), target := some (1, 1) } : Grid).start =
        some (1, 1) from rfl)
      (show ({ Grid.create_grid 3 3 3 3 with
          start := some (1, 1), target := some (1, 1) } : Grid).target =
        some (1, 1) from rfl)
      (by decide) (by decide) 4).2.2⟩

/-- C9 is refuted in its reconstruction half: on a 3 by 3 grid whose start
and target are both cell (1,1), the search part does finish found with
cost 0, but solve ends in the AttributeError outcome — print_path starts
from the target's predecessor, which is None for the trivial path, and
dereferences it (solve only catches IndexError), so no grid with an empty
interior path is ever delivered. -/
theorem trivial_path_cex :
    ({ Grid.create_grid 3 3 3 3 with
        start := some (1, 1), target := some (1, 1) } : Grid).solve 5 =
      Grid.SolveOutcome.attrErrorPath := by
  rfl

/-! ## Octile arithmetic -/

theorem octile_eq (a b : Coord) : octile a b =
    14 * min (((a.1 : Int) - (b.1 : Int)).natAbs)
        (((a.2 : Int) - (b.2 : Int)).natAbs) +
    10 * (max (((a.1 : Int) - (b.1 : Int)).natAbs)
        (((a.2 : Int) - (b.2 : Int)).natAbs) -
      min (((a.1 : Int) - (b.1 : Int)).natAbs)
        (((a.2 : Int) - (b.2 : Int)).natAbs)) := rfl

theorem octile_self (a : Coord) : octile a a = 0 := by
  rw [octile_eq]
  omega

theorem octile_comm (a b : Coord) : octile a b = octile b a := by
  rw [octile_eq, octile_eq]
  omega

theorem octile_orth {u v : Coord} (h : OrthAdj u v) (t : Coord) :
    octile u t ≤ octile v t + 10 ∧ octile v t ≤ octile u t + 10 := by
  unfold OrthAdj at h
  rw [octile_eq, octile_eq]
  omega

theorem octile_diag {u v : Coord} (h : DiagAdj u v) (t : Coord) :
    octile u t ≤ octile v t + 14 ∧ octile v t ≤ octile u t + 14 := by
  unfold DiagAdj at h
  rw [octile_eq, octile_eq]
  omega

/-- The octile distance is a lower bound on the cost of every path of the
movement model. -/
theorem octile_le_pathCost {g : Grid} {s v : Coord} {n : Nat}
    (h : g.PathCost s v n) : octile s v ≤ n := by
  induction h with
  | nil =>
    rw [octile_self]
  | orth hp hadj hb ho IH =>
    rename_i u' v' n'
    have h1 := (octile_orth hadj s).2
    have h2 := octile_comm s v'
    have h3 := octile_comm u' s
    omega
  | diag hp hadj hb ho IH =>
    rename_i u' v' n'
    have h1 := (octile_diag hadj s).2
    have h2 := octile_comm s v'
    have h3 := octile_comm u' s
    omega

/-- The heuristic is consistent: one admissible move changes the octile
distance to the target by at most the move's cost. -/
theorem octile_consistent {g : Grid} {u v : Coord} {w : Nat}
    (he : g.EdgeW u v w) (t : Coord) : octile u t ≤ w + octile v t := by
  obtain ⟨hadj, _, _⟩ := he
  rcases hadj with ⟨hw, hadj⟩ | ⟨hw, hadj⟩
  · have := (octile_orth hadj t).1
    omega
  · have := (octile_diag hadj t).1
    omega

/-- A path extended by one admissible move is a path. -/
theorem pathCost_step {g : Grid} {s u v : Coord} {w n : Nat}
    (hp : g.PathCost s u n) (he : g.EdgeW u v w) : g.PathCost s v (n + w) := by
  obtain ⟨hadj, hb, ho⟩ := he
  rcases hadj with ⟨hw, hadj⟩ | ⟨hw, hadj⟩
  · rw [hw]
    exact Grid.PathCost.orth hp hadj hb ho
  · rw [hw]
    exact Grid.PathCost.diag hp hadj hb ho

/-! ## The extracted identity leaves the queue -/

theorem extract_min_removes [Inhabited ι] [DecidableEq ι]
    {q : MinPriorityQueue ι} (hWF : WF q)
    {R : MinPriorityQueue ι} {a : ι} (h : q.extract_min = .ok (R, a)) :
    ∀ x ∈ R.elements, x.2 ≠ a := by
  by_cases hne : q.size = 0
  · rw [extract_min_err hne] at h
    exact Except.noConfusion h
  have hqlen : q.size = q.elements.length := rfl
  simp only [extract_min, if_neg hne] at h
  set e := q.entryAt (q.size - 1) with hedef
  set l1 := (q.elements.set 0 e).dropLast with hl1def
  set m1 : ι → Option Nat :=
    fun b => if b = (q.entryAt 0).2 then none else q.mapping b with hm1def
  have hl1len : l1.length = q.size - 1 := by
    simp [hl1def, size]
  have hq1sz : (MinPriorityQueue.mk l1 m1).size = q.size - 1 := hl1len
  have hq1ids : ∀ x ∈ l1, x.2 ≠ (q.entryAt 0).2 := by
    intro x hx hxa
    rcases List.mem_iff_getElem?.mp hx with ⟨m, hm⟩
    have hmlt : m < l1.length := (List.getElem?_eq_some_iff.mp hm).1
    have hmq : m < q.size - 1 := by omega
    have hset : l1[m]? = (q.elements.set 0 e)[m]? := by
      rw [hl1def]
      have h1 : m < (q.elements.set 0 e).length := by
        simp only [List.length_set]
        omega
      rw [List.getElem?_eq_getElem hmlt,
        List.getElem?_eq_getElem h1]
      exact congrArg some (List.getElem_dropLast _ m hmlt)
    by_cases hm0 : m = 0
    · have h0q : 0 < q.elements.length := by omega
      rw [hm0, List.getElem?_set_self' ] at hset
      rw [List.getElem?_eq_getElem h0q] at hset
      have hx0 : x = e := by
        rw [hm0] at hm
        rw [hm] at hset
        exact Option.some_inj.mp hset
      have hida : idAt q (q.size - 1) = a ∨ True := Or.inr trivial
      have : idAt q (q.size - 1) = idAt q 0 := by
        show (q.entryAt (q.size - 1)).2 = (q.entryAt 0).2
        rw [← hedef, ← hx0, hxa]
      have := mapOK_idAt_inj hWF.2 (by omega) (by omega) this
      omega
    · rw [List.getElem?_set_ne (by omega)] at hset
      have hxm : q.entryAt m = x := by
        apply entryAt_of_getElem?
        rw [← hset, hm]
      have : idAt q m = idAt q 0 := by
        show (q.entryAt m).2 = (q.entryAt 0).2
        rw [hxm, hxa]
      have := mapOK_idAt_inj hWF.2 (by omega) (by omega) this
      omega
  by_cases h1 : 0 < (MinPriorityQueue.mk l1 m1).size
  · rw [if_pos h1] at h
    have hpair := Except.ok.inj h
    have hR : ((MinPriorityQueue.mk l1
        (fun b => if b = idAt (MinPriorityQueue.mk l1 m1) 0 then some 0
          else m1 b)).min_heapify 0) = R := congrArg Prod.fst hpair
    have ha : (q.entryAt 0).2 = a := congrArg Prod.snd hpair
    intro x hx
    rw [← hR] at hx
    have hx1 : x ∈ l1 := (mh_aux_mem _ _ 0 x).mp hx
    rw [← ha]
    exact hq1ids x hx1
  · rw [if_neg h1] at h
    have hpair := Except.ok.inj h
    have hR : (MinPriorityQueue.mk l1 m1) = R := congrArg Prod.fst hpair
    have ha : (q.entryAt 0).2 = a := congrArg Prod.snd hpair
    intro x hx
    rw [← hR] at hx
    rw [← ha]
    exact hq1ids x hx

/-! ## The A* invariant: key lemma and extraction optimality -/

/-- Along every path from the start, either the path's endpoint is closed
with a g cost undercutting the path, or the queue holds an element whose
key undercuts the path cost plus the endpoint's heuristic. -/
theorem key_lemma {g : Grid} {s t : Coord} {S : SearchState}
    (hinv : AInv g s t S) (hsb : g.inBounds s) :
    ∀ v n, g.PathCost s v n →
      (v ∈ S.closed ∧ ∃ z, (S.grid.nodes v.1 v.2).g_cost = some z ∧
        z ≤ (n : Int)) ∨
      (∃ x ∈ S.opened.elements,
        x.1 ≤ (n : Int) + ((octile v t : Nat) : Int)) := by
  obtain ⟨hc, hcr⟩ := hinv
  intro v n hp
  induction hp with
  | nil =>
    by_cases hscl : s ∈ S.closed
    · exact Or.inl ⟨hscl, 0, hc.gstart, by omega⟩
    · right
      have hex : S.opened.element_exists s = true :=
        hc.openC s hsb (by rw [hc.gstart]; exact fun hcon => Option.noConfusion hcon)
          hscl
      obtain ⟨i, hi⟩ := Option.isSome_iff_exists.mp hex
      obtain ⟨his, hid⟩ := hc.wf.2.1 s i hi
      have hmem : S.opened.entryAt i ∈ S.opened.elements := entryAt_mem _ i his
      obtain ⟨gz, hgz, hkey⟩ := hc.keys _ hmem
      rw [show (S.opened.entryAt i).2 = s from hid] at hgz hkey
      rw [hc.gstart] at hgz
      have hgz0 : gz = 0 := (Option.some_inj.mp hgz).symm
      refine ⟨S.opened.entryAt i, hmem, ?_⟩
      rw [hkey, hgz0]
      omega
  | @orth u v' n' hp hadj hb ho IH =>
    have hedge : g.EdgeW u v' 10 := ⟨Or.inl ⟨rfl, hadj⟩, hb, ho⟩
    rcases IH with ⟨hucl, zu, hzu, hle⟩ | ⟨x, hx, hkle⟩
    · obtain ⟨zv, hzv, hzvle⟩ := hcr u hucl v' 10 hedge zu hzu
      by_cases hvcl : v' ∈ S.closed
      · exact Or.inl ⟨hvcl, zv, hzv, by push_cast at hzvle ⊢; omega⟩
      · right
        have hex := hc.openC v' hb
          (by rw [hzv]; exact fun hcon => Option.noConfusion hcon) hvcl
        obtain ⟨i, hi⟩ := Option.isSome_iff_exists.mp hex
        obtain ⟨his, hid⟩ := hc.wf.2.1 v' i hi
        have hmem : S.opened.entryAt i ∈ S.opened.elements := entryAt_mem _ i his
        obtain ⟨gz, hgz, hkey⟩ := hc.keys _ hmem
        rw [show (S.opened.entryAt i).2 = v' from hid] at hgz hkey
        rw [hzv] at hgz
        have hgzv : gz = zv := (Option.some_inj.mp hgz).symm
        refine ⟨S.opened.entryAt i, hmem, ?_⟩
        rw [hkey, hgzv]
        push_cast at hzvle ⊢
        omega
    · refine Or.inr ⟨x, hx, ?_⟩
      have hcons := octile_consistent hedge t
      push_cast at hkle ⊢
      omega
  | @diag u v' n' hp hadj hb ho IH =>
    have hedge : g.EdgeW u v' 14 := ⟨Or.inr ⟨rfl, hadj⟩, hb, ho⟩
    rcases IH with ⟨hucl, zu, hzu, hle⟩ | ⟨x, hx, hkle⟩
    · obtain ⟨zv, hzv, hzvle⟩ := hcr u hucl v' 14 hedge zu hzu
      by_cases hvcl : v' ∈ S.closed
      · exact Or.inl ⟨hvcl, zv, hzv, by push_cast at hzvle ⊢; omega⟩
      · right
        have hex := hc.openC v' hb
          (by rw [hzv]; exact fun hcon => Option.noConfusion hcon) hvcl
        obtain ⟨i, hi⟩ := Option.isSome_iff_exists.mp hex
        obtain ⟨his, hid⟩ := hc.wf.2.1 v' i hi
        have hmem : S.opened.entryAt i ∈ S.opened.elements := entryAt_mem _ i his
        obtain ⟨gz, hgz, hkey⟩ := hc.keys _ hmem
        rw [show (S.opened.entryAt i).2 = v' from hid] at hgz hkey
        rw [hzv] at hgz
        have hgzv : gz = zv := (Option.some_inj.mp hgz).symm
        refine ⟨S.opened.entryAt i, hmem, ?_⟩
        rw [hkey, hgzv]
        push_cast at hzvle ⊢
        omega
    · refine Or.inr ⟨x, hx, ?_⟩
      have hcons := octile_consistent hedge t
      push_cast at hkle ⊢
      omega

/-- The cell delivered by extract_min carries a g cost that is the cost
of a real path from the start and undercuts every path from the start:
extraction is optimal. -/
theorem extraction_optimal {g : Grid} {s t : Coord} {S : SearchState}
    (hinv : AInv g s t S) (hsb : g.inBounds s)
    {R : MinPriorityQueue Coord} {cur : Coord}
    (hext : S.opened.extract_min = .ok (R, cur)) :
    ∃ zc : Int, (S.grid.nodes cur.1 cur.2).g_cost = some zc ∧
      cur ∉ S.closed ∧ g.inBounds cur ∧
      (∀ n : Nat, g.PathCost s cur n → zc ≤ (n : Int)) ∧
      (∃ nc : Nat, zc = (nc : Int) ∧ g.PathCost s cur nc) := by
  have hsz : S.opened.size ≠ 0 := by
    intro h0
    rw [extract_min_err h0] at hext
    exact Except.noConfusion hext
  have hcur : cur = idAt S.opened 0 := by
    obtain ⟨R', hR', _⟩ := extract_min_spec hinv.1.wf hsz
    rw [hR'] at hext
    exact (congrArg Prod.snd (Except.ok.inj hext)).symm
  have h0s : (0 : Nat) < S.opened.size := Nat.pos_of_ne_zero hsz
  have hroot : S.opened.entryAt 0 ∈ S.opened.elements := entryAt_mem _ 0 h0s
  obtain ⟨gz, hgz, hkey⟩ := hinv.1.keys _ hroot
  have hid0 : (S.opened.entryAt 0).2 = cur := hcur.symm
  rw [hid0] at hgz hkey
  have hnotcl : cur ∉ S.closed := by
    have := hinv.1.qdisj _ hroot
    rw [hid0] at this
    exact this
  have hbnd : g.inBounds cur := by
    have := hinv.1.qbnd _ hroot
    rw [hid0] at this
    exact this
  obtain ⟨nc, hnc, hpc⟩ := hinv.1.gsound cur hbnd gz hgz
  refine ⟨gz, hgz, hnotcl, hbnd, ?_, nc, hnc, hpc⟩
  intro n hp
  rcases key_lemma hinv hsb cur n hp with ⟨hccl, _⟩ | ⟨x, hx, hkle⟩
  · exact absurd hccl hnotcl
  · rcases List.mem_iff_getElem?.mp hx with ⟨j, hj⟩
    have hjs : j < S.opened.size := by
      have := List.getElem?_eq_some_iff.mp hj
      simpa [size] using this.1
    have hentj : S.opened.entryAt j = x := entryAt_of_getElem? hj
    have hmin := root_min hinv.1.wf.1 j hjs
    have hkj : keyAt S.opened j = x.1 := by rw [keyAt, hentj]
    have hk0 : keyAt S.opened 0 = ((octile cur t : Nat) : Int) + gz := hkey
    rw [hkj, hk0] at hmin
    omega

/-! ## Preservation of the invariant by one neighbour relaxation -/

theorem closedRelax_mono {g G G2 : Grid} {cl cl2 : List Coord}
    (hsub : ∀ u ∈ cl, u ∈ cl2)
    (hfr : ∀ v ∈ cl2, G2.nodes v.1 v.2 = G.nodes v.1 v.2)
    (hmono : ∀ v : Coord, ∀ z : Int, (G.nodes v.1 v.2).g_cost = some z →
      ∃ z', (G2.nodes v.1 v.2).g_cost = some z' ∧ z' ≤ z)
    (h : ClosedRelaxOn g G cl) : ClosedRelaxOn g G2 cl := by
  intro u hu v w he zu hzu
  rw [hfr u (hsub u hu)] at hzu
  obtain ⟨zv, hzv, hle⟩ := h u hu v w he zu hzu
  obtain ⟨zv', hzv', hle'⟩ := hmono v zv hzv
  exact ⟨zv', hzv', by omega⟩

theorem relax_one_spec {g : Grid} {s t : Coord}
    {G : Grid} {q : MinPriorityQueue Coord} {cl' : List Coord}
    (hc : ACore g s t G q cl') {cur nb : Coord} {w : Nat}
    (hcurcl : cur ∈ cl') (hedge : g.EdgeW cur nb w)
    {zc : Int} (hzc : (G.nodes cur.1 cur.2).g_cost = some zc) :
    ∃ G2 q2, Grid.relax_neighbour cur (w : Int) (G, q) nb = .ok (G2, q2) ∧
      ACore g s t G2 q2 cl' ∧
      (∀ v ∈ cl', G2.nodes v.1 v.2 = G.nodes v.1 v.2) ∧
      (∀ v : Coord, ∀ z : Int, (G.nodes v.1 v.2).g_cost = some z →
        ∃ z', (G2.nodes v.1 v.2).g_cost = some z' ∧ z' ≤ z) ∧
      (∃ z, (G2.nodes nb.1 nb.2).g_cost = some z ∧ z ≤ zc + (w : Int)) := by
  obtain ⟨hadjw, hnbB, hnbO⟩ := hedge
  have hclne : cl' ≠ [] := by
    intro hnil
    rw [hnil] at hcurcl
    exact List.not_mem_nil cur hcurcl
  have hscl : s ∈ cl' := by
    rcases hc.startCl with h | ⟨hnil, _⟩
    · exact h
    · exact absurd hnil hclne
  by_cases hupd : (G.nodes nb.1 nb.2).g_cost = none ∨
      (∃ gv, (G.nodes nb.1 nb.2).g_cost = some gv ∧ zc + (w : Int) < gv)
  · -- the update case
    have hnbcl : nb ∉ cl' := by
      intro hmem
      obtain ⟨nc, hnceq, hpc⟩ := hc.gsound cur (hc.closedBnd cur hcurcl) zc hzc
      have hpath : g.PathCost s nb (nc + w) :=
        pathCost_step hpc ⟨hadjw, hnbB, hnbO⟩
      cases hgnb : (G.nodes nb.1 nb.2).g_cost with
      | none => exact (hc.closedG nb hmem) hgnb
      | some znb =>
        have hmin := hc.closedMin nb hmem znb hgnb (nc + w) hpath
        rcases hupd with hnone | ⟨gv, hgv, hlt⟩
        · rw [hgnb] at hnone
          exact Option.noConfusion hnone
        · rw [hgnb] at hgv
          have hgveq : znb = gv := Option.some_inj.mp hgv
          push_cast at hmin
          omega
    have hnbne : ∀ v : Coord, v ∈ cl' → v ≠ nb := by
      intro v hv hvnb
      exact hnbcl (hvnb ▸ hv)
    have hrelax : (G.nodes nb.1 nb.2).relax_g_cost
        ((G.nodes cur.1 cur.2).g_cost.getD 0 + (w : Int)) =
        ({ G.nodes nb.1 nb.2 with g_cost := some (zc + (w : Int)) }, true) := by
      rw [hzc]
      unfold Node.relax_g_cost
      rcases hupd with hnone | ⟨gv, hgv, hlt⟩
      · rw [hnone]
        rfl
      · rw [hgv]
        show (if Option.getD (some zc) 0 + (w : Int) < gv then _ else _) = _
        rw [if_pos (show Option.getD (some zc) 0 + (w : Int) < gv from hlt)]
        rfl
    set nd2 : Node :=
      ({ G.nodes nb.1 nb.2 with g_cost := some (zc + (w : Int)) } : Node).set_prev cur
      with hnd2
    set G2 := G.setNode nb.1 nb.2 nd2 with hG2
    have hG2nb : G2.nodes nb.1 nb.2 = nd2 := by
      show (if nb.1 = nb.1 ∧ nb.2 = nb.2 then nd2 else G.nodes nb.1 nb.2) = nd2
      rw [if_pos ⟨rfl, rfl⟩]
    have hG2frame : ∀ r c, ¬ (r = nb.1 ∧ c = nb.2) → G2.nodes r c = G.nodes r c := by
      intro r c hrc
      show (if r = nb.1 ∧ c = nb.2 then nd2 else G.nodes r c) = G.nodes r c
      rw [if_neg hrc]
    have hG2other : ∀ v : Coord, v ≠ nb → G2.nodes v.1 v.2 = G.nodes v.1 v.2 := by
      intro v hv
      refine hG2frame v.1 v.2 ?_
      rintro ⟨h1, h2⟩
      exact hv (Prod.ext h1 h2)
    have hG2g : (G2.nodes nb.1 nb.2).g_cost = some (zc + (w : Int)) := by
      rw [hG2nb]
      rfl
    have hf : nd2.get_f_cost = ((octile nb t : Nat) : Int) + (zc + (w : Int)) := by
      have hh : nd2.h_cost = some ((octile nb t : Nat) : Int) := by
        show (G.nodes nb.1 nb.2).h_cost = _
        exact hc.hset nb.1 nb.2 hnbB.1 hnbB.2
      unfold Node.get_f_cost
      rw [hh]
      rfl
    obtain ⟨nc, hnceq, hpc⟩ := hc.gsound cur (hc.closedBnd cur hcurcl) zc hzc
    have hpathnb : g.PathCost s nb (nc + w) :=
      pathCost_step hpc ⟨hadjw, hnbB, hnbO⟩
    -- the common construction of the new core from the new queue
    have hbuild : ∀ q2 : MinPriorityQueue Coord, WF q2 →
        (∀ x ∈ q2.elements,
          x = (nd2.get_f_cost, nb) ∨ (x ∈ q.elements ∧ x.2 ≠ nb)) →
        (∀ x ∈ q.elements, x.2 ≠ nb → x ∈ q2.elements) →
        ((nd2.get_f_cost, nb) ∈ q2.elements) →
        ACore g s t G2 q2 cl' := by
      intro q2 hWF2 hm2a hm2b hm2nb
      refine ⟨hc.dims, hc.ends, ?_, hc.unsolved, ?_, hWF2, ?_, ?_, ?_, ?_, ?_,
        hc.closedBnd, ?_, ?_, ?_, Or.inl hscl, hc.nodup, hc.tfree⟩
      · -- skeleton
        intro r c
        by_cases hrc : r = nb.1 ∧ c = nb.2
        · obtain ⟨h1, h2⟩ := hrc
          subst h1
          subst h2
          rw [hG2nb]
          exact hc.skel nb.1 nb.2
        · rw [hG2frame r c hrc]
          exact hc.skel r c
      · -- h costs
        intro r c hr hcc
        by_cases hrc : r = nb.1 ∧ c = nb.2
        · obtain ⟨h1, h2⟩ := hrc
          subst h1
          subst h2
          rw [hG2nb]
          exact hc.hset nb.1 nb.2 hr hcc
        · rw [hG2frame r c hrc]
          exact hc.hset r c hr hcc
      · -- g soundness
        intro v hvb z hz
        by_cases hv : v = nb
        · rw [hv, hG2g] at hz
          have hzeq : z = zc + (w : Int) := (Option.some_inj.mp hz).symm
          refine ⟨nc + w, ?_, hv ▸ hpathnb⟩
          push_cast
          omega
        · rw [hG2other v hv] at hz
          exact hc.gsound v hvb z hz
      · -- queue bounds
        intro x hx
        rcases hm2a x hx with hxe | ⟨hxq, _⟩
        · rw [hxe]
          exact hnbB
        · exact hc.qbnd x hxq
      · -- keys
        intro x hx
        rcases hm2a x hx with hxe | ⟨hxq, hxne⟩
        · refine ⟨zc + (w : Int), ?_, ?_⟩
          · rw [hxe]
            exact hG2g
          · rw [hxe, hf]
        · obtain ⟨gz, hgz, hkey⟩ := hc.keys x hxq
          refine ⟨gz, ?_, hkey⟩
          rw [hG2other x.2 hxne]
          exact hgz
      · -- queue-closed disjointness
        intro x hx
        rcases hm2a x hx with hxe | ⟨hxq, _⟩
        · rw [hxe]
          exact hnbcl
        · exact hc.qdisj x hxq
      · -- open completeness
        intro v hvb hvdef hvcl
        by_cases hv : v = nb
        · apply (element_exists_iff hWF2.2 v).mpr
          apply List.mem_map.mpr
          exact ⟨(nd2.get_f_cost, nb), hm2nb, by rw [hv]⟩
        · rw [hG2other v hv] at hvdef
          have hex := hc.openC v hvb hvdef hvcl
          obtain ⟨i, hi⟩ := Option.isSome_iff_exists.mp hex
          obtain ⟨his, hid⟩ := hc.wf.2.1 v i hi
          have hmem : q.entryAt i ∈ q.elements := entryAt_mem _ i his
          have hmem2 : q.entryAt i ∈ q2.elements :=
            hm2b _ hmem (by rw [show (q.entryAt i).2 = v from hid]; exact hv)
          apply (element_exists_iff hWF2.2 v).mpr
          apply List.mem_map.mpr
          exact ⟨q.entryAt i, hmem2, hid⟩
      · -- closed cells keep a g cost
        intro v hv
        rw [hG2other v (hnbne v hv)]
        exact hc.closedG v hv
      · -- closed minimality
        intro v hv z hz n hp
        rw [hG2other v (hnbne v hv)] at hz
        exact hc.closedMin v hv z hz n hp
      · -- start keeps g cost 0
        rw [hG2other s (hnbne s hscl)]
        exact hc.gstart
    have hmono : ∀ v : Coord, ∀ z : Int, (G.nodes v.1 v.2).g_cost = some z →
        ∃ z', (G2.nodes v.1 v.2).g_cost = some z' ∧ z' ≤ z := by
      intro v z hz
      by_cases hv : v = nb
      · rw [hv] at hz
        rcases hupd with hnone | ⟨gv, hgv, hlt⟩
        · rw [hz] at hnone
          exact Option.noConfusion hnone
        · rw [hz] at hgv
          have : z = gv := Option.some_inj.mp hgv
          refine ⟨zc + (w : Int), hv ▸ hG2g, by omega⟩
      · rw [← hG2other v hv] at hz
        exact ⟨z, hz, le_refl z⟩
    have hfrozen : ∀ v ∈ cl', G2.nodes v.1 v.2 = G.nodes v.1 v.2 :=
      fun v hv => hG2other v (hnbne v hv)
    have hrelaxed : ∃ z, (G2.nodes nb.1 nb.2).g_cost = some z ∧
        z ≤ zc + (w : Int) := ⟨zc + (w : Int), hG2g, le_refl _⟩
    by_cases hex : q.element_exists nb = true
    · -- nb is in the queue: its key is decreased
      obtain ⟨i, hi⟩ := Option.isSome_iff_exists.mp hex
      obtain ⟨his, hid⟩ := hc.wf.2.1 nb i hi
      have hqlen : q.size = q.elements.length := rfl
      have hrootp : q.entryAt i ∈ q.elements := entryAt_mem _ i his
      obtain ⟨gz, hgz, hkey⟩ := hc.keys _ hrootp
      rw [show (q.entryAt i).2 = nb from hid] at hgz hkey
      have hgzlt : zc + (w : Int) < gz := by
        rcases hupd with hnone | ⟨gv, hgv, hlt⟩
        · rw [hgz] at hnone
          exact Option.noConfusion hnone
        · rw [hgz] at hgv
          have : gz = gv := Option.some_inj.mp hgv
          omega
      have hkle : nd2.get_f_cost ≤ keyAt q i := by
        rw [hf, show keyAt q i = (q.entryAt i).1 from rfl, hkey]
        omega
      obtain ⟨R, hok, hWFR, hszR, hmemR⟩ := decrease_key_ok hc.wf hi hkle
      have hstep : Grid.relax_neighbour cur (w : Int) (G, q) nb =
          (if q.element_exists nb then
            match q.decrease_key nb nd2.get_f_cost with
            | .ok q2 => .ok (G2, q2)
            | .error e => .error e
          else .ok (G2, q.insert nd2.get_f_cost nb)) := by
        unfold Grid.relax_neighbour
        simp only
        rw [hrelax]
        rfl
      refine ⟨G2, R, ?_, ?_, hfrozen, hmono, hrelaxed⟩
      · rw [hstep, if_pos hex, hok]
      · refine hbuild R hWFR ?_ ?_ ?_
        · intro x hx
          have hx' : x ∈ (q.setKey i nd2.get_f_cost).elements := (hmemR x).mp hx
          rcases List.mem_iff_getElem?.mp hx' with ⟨m, hm⟩
          have hmlt : m < q.size := by
            have := (List.getElem?_eq_some_iff.mp hm).1
            simpa [setKey, size] using this
          by_cases hmi : m = i
          · left
            have hent : (q.setKey i nd2.get_f_cost).entryAt i =
                (nd2.get_f_cost, idAt q i) := setKey_entryAt_self q his _
            rw [hmi] at hm
            have := entryAt_of_getElem? hm
            rw [hent] at this
            rw [← this, show idAt q i = nb from hid]
          · right
            have hent : (q.setKey i nd2.get_f_cost).entryAt m = q.entryAt m :=
              setKey_entryAt_other q hmi _
            have hxm : q.entryAt m = x := by
              rw [← hent]
              exact entryAt_of_getElem? hm
            constructor
            · exact hxm ▸ entryAt_mem q m hmlt
            · intro hxnb
              have : idAt q m = idAt q i := by
                rw [show idAt q m = (q.entryAt m).2 from rfl, hxm, hxnb,
                  show idAt q i = nb from hid]
              exact hmi (mapOK_idAt_inj hc.wf.2 hmlt his this)
        · intro x hxq hxne
          rcases List.mem_iff_getElem?.mp hxq with ⟨m, hm⟩
          have hmlt : m < q.size := by
            have := (List.getElem?_eq_some_iff.mp hm).1
            simpa [size] using this
          have hmi : m ≠ i := by
            intro hc'
            apply hxne
            have := entryAt_of_getElem? hm
            rw [← this, hc']
            exact hid
          apply (hmemR x).mpr
          have hent : (q.setKey i nd2.get_f_cost).entryAt m = q.entryAt m :=
            setKey_entryAt_other q hmi _
          have : (q.setKey i nd2.get_f_cost).entryAt m = x := by
            rw [hent]
            exact entryAt_of_getElem? hm
          exact this ▸ entryAt_mem _ m (by rw [setKey_size]; exact hmlt)
        · apply (hmemR _).mpr
          have hent : (q.setKey i nd2.get_f_cost).entryAt i =
              (nd2.get_f_cost, idAt q i) := setKey_entryAt_self q his _
          rw [show idAt q i = nb from hid] at hent
          exact hent ▸ entryAt_mem _ i (by rw [setKey_size]; exact his)
    · -- nb is not in the queue: it is inserted
      have hnone : q.mapping nb = none := by
        cases hmap : q.mapping nb with
        | none => rfl
        | some i =>
          exact absurd (by unfold MinPriorityQueue.element_exists; rw [hmap]; rfl)
            hex
      obtain ⟨hWFi, hszi, hmemi⟩ := insert_spec hc.wf hnone nd2.get_f_cost
      have hstep : Grid.relax_neighbour cur (w : Int) (G, q) nb =
          (if q.element_exists nb then
            match q.decrease_key nb nd2.get_f_cost with
            | .ok q2 => .ok (G2, q2)
            | .error e => .error e
          else .ok (G2, q.insert nd2.get_f_cost nb)) := by
        unfold Grid.relax_neighbour
        simp only
        rw [hrelax]
        rfl
      refine ⟨G2, q.insert nd2.get_f_cost nb, ?_, ?_, hfrozen, hmono, hrelaxed⟩
      · rw [hstep, if_neg hex]
      · refine hbuild _ hWFi ?_ ?_ ?_
        · intro x hx
          rcases (hmemi x).mp hx with hxq | hxe
          · right
            refine ⟨hxq, ?_⟩
            intro hxnb
            obtain ⟨j, hj⟩ := mapping_of_mem hc.wf.2
              (List.mem_map.mpr ⟨x, hxq, hxnb⟩)
            rw [hnone] at hj
            exact Option.noConfusion hj
          · left
            exact hxe
        · intro x hxq _
          exact (hmemi x).mpr (Or.inl hxq)
        · exact (hmemi _).mpr (Or.inr rfl)
  · -- the no-update case: grid and queue are unchanged
    push_neg at hupd
    obtain ⟨hne, hforall⟩ := hupd
    cases hgnb : (G.nodes nb.1 nb.2).g_cost with
    | none => exact absurd hgnb hne
    | some gnb =>
      have hle : gnb ≤ zc + (w : Int) := hforall gnb hgnb
      have hnotlt : ¬ (zc + (w : Int) < gnb) := by omega
      have hrelax : (G.nodes nb.1 nb.2).relax_g_cost
          ((G.nodes cur.1 cur.2).g_cost.getD 0 + (w : Int)) =
          (G.nodes nb.1 nb.2, false) := by
        rw [hzc]
        unfold Node.relax_g_cost
        rw [hgnb]
        show (if Option.getD (some zc) 0 + (w : Int) < gnb then _ else _) = _
        rw [if_neg (show ¬ (Option.getD (some zc) 0 + (w : Int) < gnb) from hnotlt)]
      refine ⟨G, q, ?_, hc, fun v _ => rfl, fun v z hz => ⟨z, hz, le_refl z⟩,
        gnb, hgnb, hle⟩
      unfold Grid.relax_neighbour
      simp only
      rw [hrelax]
      rfl

theorem relax_list_spec {g : Grid} {s t : Coord}
    {cl' : List Coord} {cur : Coord} {w : Nat} :
    ∀ (nbs : List Coord) (G : Grid) (q : MinPriorityQueue Coord),
    ACore g s t G q cl' → cur ∈ cl' →
    (∀ nb ∈ nbs, g.EdgeW cur nb w) →
    ∀ zc : Int, (G.nodes cur.1 cur.2).g_cost = some zc →
    ∃ G2 q2, Grid.relax_neighbours cur (w : Int) (G, q) nbs = .ok (G2, q2) ∧
      ACore g s t G2 q2 cl' ∧
      (∀ v ∈ cl', G2.nodes v.1 v.2 = G.nodes v.1 v.2) ∧
      (∀ v : Coord, ∀ z : Int, (G.nodes v.1 v.2).g_cost = some z →
        ∃ z', (G2.nodes v.1 v.2).g_cost = some z' ∧ z' ≤ z) ∧
      (∀ nb ∈ nbs, ∃ z, (G2.nodes nb.1 nb.2).g_cost = some z ∧
        z ≤ zc + (w : Int)) := by
  intro nbs
  induction nbs with
  | nil =>
    intro G q hcore hcur hedges zc hzc
    exact ⟨G, q, rfl, hcore, fun v _ => rfl, fun v z hz => ⟨z, hz, le_refl z⟩,
      fun nb h => absurd h (List.not_mem_nil nb)⟩
  | cons nb rest IH =>
    intro G q hcore hcur hedges zc hzc
    obtain ⟨G1, q1, hok1, hcore1, hfr1, hmono1, z1, hz1, hz1le⟩ :=
      relax_one_spec hcore hcur (hedges nb (List.mem_cons_self nb rest)) hzc
    have hzc1 : (G1.nodes cur.1 cur.2).g_cost = some zc := by
      rw [hfr1 cur hcur]
      exact hzc
    obtain ⟨G2, q2, hok2, hcore2, hfr2, hmono2, hrel2⟩ :=
      IH G1 q1 hcore1 hcur (fun x hx => hedges x (List.mem_cons_of_mem nb hx))
        zc hzc1
    refine ⟨G2, q2, ?_, hcore2, ?_, ?_, ?_⟩
    · unfold Grid.relax_neighbours
      rw [List.foldlM_cons, hok1]
      show Grid.relax_neighbours cur (w : Int) (G1, q1) rest = .ok (G2, q2)
      exact hok2
    · intro v hv
      rw [hfr2 v hv, hfr1 v hv]
    · intro v z hz
      obtain ⟨z1', hz1', hle1⟩ := hmono1 v z hz
      obtain ⟨z2', hz2', hle2⟩ := hmono2 v z1' hz1'
      exact ⟨z2', hz2', by omega⟩
    · intro x hx
      rcases List.mem_cons.mp hx with hx1 | hxr
      · obtain ⟨z2', hz2', hle2⟩ := hmono2 nb z1 hz1
        refine ⟨z2', ?_, by omega⟩
        rw [hx1]
        exact hz2'
      · exact hrel2 x hxr

/-! ## The running grid stays coherent and its neighbour lists are the
admissible moves -/

theorem coherent_of_skel {g G : Grid} (hcoh : g.Coherent)
    (hdims : G.rows = g.rows ∧ G.columns = g.columns ∧
      G.width = g.width ∧ G.height = g.height)
    (hskel : ∀ r c, (G.nodes r c).row = (g.nodes r c).row ∧
      (G.nodes r c).col = (g.nodes r c).col ∧
      (G.nodes r c).pos = (g.nodes r c).pos ∧
      (G.nodes r c).state = (g.nodes r c).state) : G.Coherent := by
  obtain ⟨hd1, hd2, hd3, hd4⟩ := hdims
  obtain ⟨hcw, hch, hn⟩ := hcoh
  refine ⟨?_, ?_, ?_⟩
  · rw [hd3, hd2]
    exact hcw
  · rw [hd4, hd1]
    exact hch
  · intro r hr c hc
    rw [hd1] at hr
    rw [hd2] at hc
    obtain ⟨h1, h2, h3, _⟩ := hskel r c
    obtain ⟨k1, k2, k3⟩ := hn r hr c hc
    exact ⟨by rw [h1, k1], by rw [h2, k2],
      by rw [h3, k3, hd3, hd2, hd4, hd1]⟩

theorem vh_edge_iff {g G : Grid} (hcoh : g.Coherent)
    (hdims : G.rows = g.rows ∧ G.columns = g.columns ∧
      G.width = g.width ∧ G.height = g.height)
    (hskel : ∀ r c, (G.nodes r c).row = (g.nodes r c).row ∧
      (G.nodes r c).col = (g.nodes r c).col ∧
      (G.nodes r c).pos = (g.nodes r c).pos ∧
      (G.nodes r c).state = (g.nodes r c).state)
    {cur : Coord} (hcb : g.inBounds cur) :
    ∀ v : Coord, v ∈ G.vhNeighbourCoords cur ↔ g.EdgeW cur v 10 := by
  have hGcoh : G.Coherent := coherent_of_skel hcoh hdims hskel
  have hrb : cur.1 < G.rows := by rw [hdims.1]; exact hcb.1
  have hcbb : cur.2 < G.columns := by rw [hdims.2.1]; exact hcb.2
  have hobs : ∀ r c, (G.nodes r c).is_obstacle = (g.nodes r c).is_obstacle := by
    intro r c
    unfold Node.is_obstacle
    rw [(hskel r c).2.2.2]
  intro v
  constructor
  · intro hv
    unfold Grid.vhNeighbourCoords at hv
    obtain ⟨nd, hnd, hndv⟩ := List.mem_map.mp hv
    obtain ⟨r', c', hr', hc', hadj, hob, hnde⟩ :=
      (Grid.mem_vh_iff hGcoh hrb hcbb nd).mp hnd
    have hrow : nd.row = r' := by
      rw [hnde]
      exact (hGcoh.2.2 r' hr' c' hc').1
    have hcol : nd.col = c' := by
      rw [hnde]
      exact (hGcoh.2.2 r' hr' c' hc').2.1
    have hveq : v = (r', c') := by
      rw [← hndv, hrow, hcol]
    rw [hveq]
    refine ⟨Or.inl ⟨rfl, ?_⟩, ⟨by rw [← hdims.1]; exact hr',
      by rw [← hdims.2.1]; exact hc'⟩, ?_⟩
    · exact hadj
    · show (g.nodes r' c').is_obstacle = false
      rw [← hobs r' c']
      exact hob
  · intro ⟨hadj, hb, ho⟩
    have hadj' : OrthAdj (cur.1, cur.2) (v.1, v.2) := by
      rcases hadj with ⟨_, h⟩ | ⟨hw, _⟩
      · exact h
      · exact absurd hw (by omega)
    unfold Grid.vhNeighbourCoords
    apply List.mem_map.mpr
    refine ⟨G.nodes v.1 v.2, ?_, ?_⟩
    · apply (Grid.mem_vh_iff hGcoh hrb hcbb (G.nodes v.1 v.2)).mpr
      refine ⟨v.1, v.2, by rw [hdims.1]; exact hb.1,
        by rw [hdims.2.1]; exact hb.2, hadj', ?_, rfl⟩
      rw [hobs v.1 v.2]
      exact ho
    · have h1 := (hGcoh.2.2 v.1 (by rw [hdims.1]; exact hb.1) v.2
        (by rw [hdims.2.1]; exact hb.2))
      rw [h1.1, h1.2.1]

theorem diag_edge_iff {g G : Grid} (hcoh : g.Coherent)
    (hdims : G.rows = g.rows ∧ G.columns = g.columns ∧
      G.width = g.width ∧ G.height = g.height)
    (hskel : ∀ r c, (G.nodes r c).row = (g.nodes r c).row ∧
      (G.nodes r c).col = (g.nodes r c).col ∧
      (G.nodes r c).pos = (g.nodes r c).pos ∧
      (G.nodes r c).state = (g.nodes r c).state)
    {cur : Coord} (hcb : g.inBounds cur) :
    ∀ v : Coord, v ∈ G.diagNeighbourCoords cur ↔ g.EdgeW cur v 14 := by
  have hGcoh : G.Coherent := coherent_of_skel hcoh hdims hskel
  have hrb : cur.1 < G.rows := by rw [hdims.1]; exact hcb.1
  have hcbb : cur.2 < G.columns := by rw [hdims.2.1]; exact hcb.2
  have hobs : ∀ r c, (G.nodes r c).is_obstacle = (g.nodes r c).is_obstacle := by
    intro r c
    unfold Node.is_obstacle
    rw [(hskel r c).2.2.2]
  intro v
  constructor
  · intro hv
    unfold Grid.diagNeighbourCoords at hv
    obtain ⟨nd, hnd, hndv⟩ := List.mem_map.mp hv
    obtain ⟨r', c', hr', hc', hadj, hob, hnde⟩ :=
      (Grid.mem_diag_iff hGcoh hrb hcbb nd).mp hnd
    have hrow : nd.row = r' := by
      rw [hnde]
      exact (hGcoh.2.2 r' hr' c' hc').1
    have hcol : nd.col = c' := by
      rw [hnde]
      exact (hGcoh.2.2 r' hr' c' hc').2.1
    have hveq : v = (r', c') := by
      rw [← hndv, hrow, hcol]
    rw [hveq]
    refine ⟨Or.inr ⟨rfl, ?_⟩, ⟨by rw [← hdims.1]; exact hr',
      by rw [← hdims.2.1]; exact hc'⟩, ?_⟩
    · exact hadj
    · show (g.nodes r' c').is_obstacle = false
      rw [← hobs r' c']
      exact hob
  · intro ⟨hadj, hb, ho⟩
    have hadj' : DiagAdj (cur.1, cur.2) (v.1, v.2) := by
      rcases hadj with ⟨hw, _⟩ | ⟨_, h⟩
      · exact absurd hw (by omega)
      · exact h
    unfold Grid.diagNeighbourCoords
    apply List.mem_map.mpr
    refine ⟨G.nodes v.1 v.2, ?_, ?_⟩
    · apply (Grid.mem_diag_iff hGcoh hrb hcbb (G.nodes v.1 v.2)).mpr
      refine ⟨v.1, v.2, by rw [hdims.1]; exact hb.1,
        by rw [hdims.2.1]; exact hb.2, hadj', ?_, rfl⟩
      rw [hobs v.1 v.2]
      exact ho
    · have h1 := (hGcoh.2.2 v.1 (by rw [hdims.1]; exact hb.1) v.2
        (by rw [hdims.2.1]; exact hb.2))
      rw [h1.1, h1.2.1]

/-! ## Preservation of the invariant by one loop iteration -/

theorem step_preserves {g : Grid} {s t : Coord} (hcoh : g.Coherent)
    (hsb : g.inBounds s) {S : SearchState} (hinv : AInv g s t S) :
    (Grid.find_path_step t S = .error .indexError ∧ S.opened.size = 0) ∨
    (∃ S2, Grid.find_path_step t S = .ok (.inl S2) ∧ FoundSpec g s t S2) ∨
    (∃ S2, Grid.find_path_step t S = .ok (.inr S2) ∧ AInv g s t S2 ∧
      S2.closed.length = S.closed.length + 1) := by
  by_cases hsz : S.opened.size = 0
  · left
    refine ⟨?_, hsz⟩
    unfold Grid.find_path_step
    rw [extract_min_err hsz]
  · obtain ⟨p, hp⟩ := extract_min_isOk hsz
    obtain ⟨q', cur⟩ := p
    obtain ⟨zc, hzc, hcurcl, hcurb, hzcmin, nc, hnceq, hpc⟩ :=
      extraction_optimal hinv hsb hp
    obtain ⟨R0, hR0, hWFR, hszR, hfwd, hbwd⟩ := extract_min_spec hinv.1.wf hsz
    rw [hp] at hR0
    have hpair := Except.ok.inj hR0
    have hq'eq : R0 = q' := (congrArg Prod.fst hpair).symm
    rw [hq'eq] at hWFR hszR hfwd hbwd
    have hcid : cur = idAt S.opened 0 := congrArg Prod.snd hpair
    have hrem := extract_min_removes hinv.1.wf hp
    have hbwd' : ∀ x ∈ S.opened.elements, x.2 ≠ cur → x ∈ q'.elements := by
      intro x hx hxne
      exact hbwd x hx (by rw [← hcid]; exact hxne)
    by_cases hct : cur = t
    · right
      left
      refine
        ⟨{ grid := { S.grid with solved := true },
           opened := q',
           closed := S.closed ++ [cur] }, ?_, ?_⟩
      · unfold Grid.find_path_step
        rw [hp]
        show (if cur = t then _ else _) = _
        rw [if_pos hct]
      · refine ⟨rfl, hinv.1.ends.1, hinv.1.ends.2, ?_, ?_⟩
        · show t ∈ S.closed ++ [cur]
          refine List.mem_append.mpr (Or.inr ?_)
          rw [hct]
          exact List.mem_singleton_self t
        · intro v hv
          show ∃ z : Int, (S.grid.nodes v.1 v.2).g_cost = some z ∧ _
          rcases List.mem_append.mp hv with hvo | hvc
          · have hgdef := hinv.1.closedG v hvo
            cases hgv : (S.grid.nodes v.1 v.2).g_cost with
            | none => exact absurd hgv hgdef
            | some z =>
              exact ⟨z, rfl, fun n hp' => hinv.1.closedMin v hvo z hgv n hp',
                hinv.1.gsound v (hinv.1.closedBnd v hvo) z hgv⟩
          · have hveq : v = cur := List.mem_singleton.mp hvc
            refine ⟨zc, by rw [hveq]; exact hzc, ?_, ?_⟩
            · intro n hp'
              rw [hveq] at hp'
              exact hzcmin n hp'
            · refine ⟨nc, hnceq, ?_⟩
              rw [hveq]
              exact hpc
    · right
      right
      have hcurcl' : cur ∈ S.closed ++ [cur] :=
        List.mem_append.mpr (Or.inr (List.mem_singleton_self cur))
      have hcore0 : ACore g s t S.grid q' (S.closed ++ [cur]) := by
        refine ⟨hinv.1.dims, hinv.1.ends, hinv.1.skel, hinv.1.unsolved,
          hinv.1.hset, hWFR, hinv.1.gsound, ?_, ?_, ?_, ?_, ?_, ?_, ?_,
          hinv.1.gstart, ?_, ?_, ?_⟩
        · intro x hx
          exact hinv.1.qbnd x (hfwd x hx)
        · intro x hx
          exact hinv.1.keys x (hfwd x hx)
        · intro x hx hmem
          rcases List.mem_append.mp hmem with h1 | h2
          · exact hinv.1.qdisj x (hfwd x hx) h1
          · exact hrem x hx (List.mem_singleton.mp h2)
        · intro v hvb hvdef hvcl
          have hvne : v ≠ cur := fun hc' => hvcl (hc' ▸ hcurcl')
          have hvold : v ∉ S.closed :=
            fun hc' => hvcl (List.mem_append.mpr (Or.inl hc'))
          have hex := hinv.1.openC v hvb hvdef hvold
          obtain ⟨i, hi⟩ := Option.isSome_iff_exists.mp hex
          obtain ⟨his, hid⟩ := hinv.1.wf.2.1 v i hi
          have hmem : S.opened.entryAt i ∈ S.opened.elements :=
            entryAt_mem _ i his
          have hmem' : S.opened.entryAt i ∈ q'.elements :=
            hbwd' _ hmem
              (by rw [show (S.opened.entryAt i).2 = v from hid]; exact hvne)
          apply (element_exists_iff hWFR.2 v).mpr
          exact List.mem_map.mpr ⟨_, hmem', hid⟩
        · intro v hv
          rcases List.mem_append.mp hv with h1 | h2
          · exact hinv.1.closedBnd v h1
          · rw [List.mem_singleton.mp h2]
            exact hcurb
        · intro v hv
          rcases List.mem_append.mp hv with h1 | h2
          · exact hinv.1.closedG v h1
          · rw [List.mem_singleton.mp h2, hzc]
            exact fun hcon => Option.noConfusion hcon
        · intro v hv z hz n hp'
          rcases List.mem_append.mp hv with h1 | h2
          · exact hinv.1.closedMin v h1 z hz n hp'
          · have hveq := List.mem_singleton.mp h2
            rw [hveq] at hz hp'
            rw [hzc] at hz
            have hze : zc = z := Option.some_inj.mp hz
            have := hzcmin n hp'
            omega
        · left
          rcases hinv.1.startCl with h1 | ⟨hnil, hall⟩
          · exact List.mem_append.mpr (Or.inl h1)
          · have hcs : cur = s := by
              have hroot : S.opened.entryAt 0 ∈ S.opened.elements :=
                entryAt_mem _ 0 (Nat.pos_of_ne_zero hsz)
              have := hall _ hroot
              rw [hcid]
              exact this
            rw [← hcs]
            exact hcurcl'
        · refine List.Nodup.append hinv.1.nodup (List.nodup_singleton cur) ?_
          intro a ha hacur
          have : a = cur := List.mem_singleton.mp hacur
          rw [this] at ha
          exact hcurcl ha
        · intro hmem
          rcases List.mem_append.mp hmem with h1 | h2
          · exact hinv.1.tfree h1
          · exact hct (List.mem_singleton.mp h2).symm
      have hvhE := vh_edge_iff hcoh hinv.1.dims hinv.1.skel hcurb
      have hdgE := diag_edge_iff hcoh hinv.1.dims hinv.1.skel hcurb
      obtain ⟨G1, q1, hok1, hcore1, hfr1, hmono1, hrel1⟩ :=
        relax_list_spec (S.grid.vhNeighbourCoords cur) S.grid q' hcore0 hcurcl'
          (fun nb hnb => (hvhE nb).mp hnb) zc hzc
      have hzc1 : (G1.nodes cur.1 cur.2).g_cost = some zc := by
        rw [hfr1 cur hcurcl']
        exact hzc
      obtain ⟨G2, q2, hok2, hcore2, hfr2, hmono2, hrel2⟩ :=
        relax_list_spec (S.grid.diagNeighbourCoords cur) G1 q1 hcore1 hcurcl'
          (fun nb hnb => (hdgE nb).mp hnb) zc hzc1
      have hg2cur : (G2.nodes cur.1 cur.2).g_cost = some zc := by
        rw [hfr2 cur hcurcl']
        exact hzc1
      refine ⟨{ grid := G2, opened := q2, closed := S.closed ++ [cur] },
        ?_, ⟨hcore2, ?_⟩, ?_⟩
      · unfold Grid.find_path_step
        rw [hp]
        show (if cur = t then _ else _) = _
        rw [if_neg hct]
        show (match Grid.relax_neighbours cur Grid.VERT_HORZ_COST (S.grid, q')
            (S.grid.vhNeighbourCoords cur) with
          | Except.error e =>
            (Except.error e : Except QErr (SearchState ⊕ SearchState))
          | Except.ok (G1', q1') =>
            match Grid.relax_neighbours cur Grid.DIAG_COST (G1', q1')
                (S.grid.diagNeighbourCoords cur) with
            | Except.error e => Except.error e
            | Except.ok (G2', q2') =>
              Except.ok (Sum.inr
                { grid := G2', opened := q2', closed := S.closed ++ [cur] })) = _
        rw [show Grid.VERT_HORZ_COST = ((10 : Nat) : Int) from rfl,
          show Grid.DIAG_COST = ((14 : Nat) : Int) from rfl, hok1]
        show (match Grid.relax_neighbours cur ((14 : Nat) : Int) (G1, q1)
            (S.grid.diagNeighbourCoords cur) with
          | Except.error e =>
            (Except.error e : Except QErr (SearchState ⊕ SearchState))
          | Except.ok (G2', q2') =>
            Except.ok (Sum.inr
              { grid := G2', opened := q2', closed := S.closed ++ [cur] })) = _
        rw [hok2]
      · intro u hu v w he zu hzu
        rcases List.mem_append.mp hu with huo | huc
        · have hsub : ∀ x ∈ S.closed, x ∈ S.closed ++ [cur] :=
            fun x hx => List.mem_append.mpr (Or.inl hx)
          have hr1 : ClosedRelaxOn g G1 S.closed :=
            closedRelax_mono hsub hfr1 hmono1 hinv.2
          have hr2 : ClosedRelaxOn g G2 S.closed :=
            closedRelax_mono hsub hfr2 hmono2 hr1
          exact hr2 u huo v w he zu hzu
        · have hueq : u = cur := List.mem_singleton.mp huc
          rw [hueq] at hzu
          rw [hg2cur] at hzu
          have hzueq : zc = zu := Option.some_inj.mp hzu
          obtain ⟨hadj, hbv, hov⟩ := he
          rcases hadj with ⟨hw, hadjO⟩ | ⟨hw, hadjD⟩
          · have hvmem : v ∈ S.grid.vhNeighbourCoords cur :=
              (hvhE v).mpr ⟨Or.inl ⟨rfl, hueq ▸ hadjO⟩, hbv, hov⟩
            obtain ⟨z1, hz1, hle1⟩ := hrel1 v hvmem
            obtain ⟨z2, hz2, hle2⟩ := hmono2 v z1 hz1
            refine ⟨z2, hz2, ?_⟩
            rw [hw]
            push_cast at hle1 ⊢
            omega
          · have hvmem : v ∈ S.grid.diagNeighbourCoords cur :=
              (hdgE v).mpr ⟨Or.inr ⟨rfl, hueq ▸ hadjD⟩, hbv, hov⟩
            obtain ⟨z2, hz2, hle2⟩ := hrel2 v hvmem
            refine ⟨z2, hz2, ?_⟩
            rw [hw]
            push_cast at hle2 ⊢
            omega
      · show (S.closed ++ [cur]).length = S.closed.length + 1
        simp

/-! ## Termination of the loop within rows*columns+1 iterations -/

theorem closed_length_le {g : Grid} {cl : List Coord} (hnd : cl.Nodup)
    (hb : ∀ v ∈ cl, g.inBounds v) : cl.length ≤ g.rows * g.columns := by
  have hsub : cl.toFinset ⊆ Finset.range g.rows ×ˢ Finset.range g.columns := by
    intro v hv
    have := hb v (List.mem_toFinset.mp hv)
    exact Finset.mem_product.mpr
      ⟨Finset.mem_range.mpr this.1, Finset.mem_range.mpr this.2⟩
  have hcard := Finset.card_le_card hsub
  rw [List.toFinset_card_of_nodup hnd] at hcard
  simpa [Finset.card_product] using hcard

theorem find_path_loop_succ (tgt : Coord) (f : Nat) (S : SearchState) :
    Grid.find_path_loop tgt (f + 1) S =
      (match Grid.find_path_step tgt S with
       | Except.error QErr.indexError => SearchOutcome.queueEmpty S
       | Except.error e => SearchOutcome.raised e
       | Except.ok (Sum.inl s') => SearchOutcome.found s'
       | Except.ok (Sum.inr s') => Grid.find_path_loop tgt f s') := rfl

/-- With the invariant holding and enough fuel left, the loop ends either
in the found state (with the whole closed set optimal) or with an
emptied queue; it never raises and never runs out of fuel. -/
theorem loop_spec {g : Grid} {s t : Coord} (hcoh : g.Coherent)
    (hsb : g.inBounds s) :
    ∀ (fuel : Nat) (S : SearchState), AInv g s t S →
    g.rows * g.columns + 1 ≤ fuel + S.closed.length →
    (∃ S2, Grid.find_path_loop t fuel S = .found S2 ∧ FoundSpec g s t S2) ∨
    (∃ S2, Grid.find_path_loop t fuel S = .queueEmpty S2 ∧ AInv g s t S2 ∧
      S2.opened.size = 0) := by
  intro fuel
  induction fuel with
  | zero =>
    intro S hinv hf
    exfalso
    have := closed_length_le hinv.1.nodup hinv.1.closedBnd
    omega
  | succ f IH =>
    intro S hinv hf
    rcases step_preserves hcoh hsb hinv with
      ⟨herr, hsze⟩ | ⟨S2, hstep, hfound⟩ | ⟨S2, hstep, hinv2, hlen⟩
    · right
      refine ⟨S, ?_, hinv, hsze⟩
      rw [find_path_loop_succ, herr]
    · left
      refine ⟨S2, ?_, hfound⟩
      rw [find_path_loop_succ, hstep]
    · rcases IH S2 hinv2 (by omega) with ⟨S3, hS3, hFS⟩ | ⟨S3, hS3, hI3, hsz3⟩
      · left
        refine ⟨S3, ?_, hFS⟩
        rw [find_path_loop_succ, hstep]
        show Grid.find_path_loop t f S2 = _
        exact hS3
      · right
        refine ⟨S3, ?_, hI3, hsz3⟩
        rw [find_path_loop_succ, hstep]
        show Grid.find_path_loop t f S2 = _
        exact hS3

/-! ## The invariant holds when a run starts on a clean grid -/

theorem calc_h_costs_proj (g : Grid) (r c : Nat) {α : Type} (P : Node → α)
    (hP : ∀ n v, P (n.set_h_cost v) = P n) :
    P (g.calculate_all_h_costs.nodes r c) = P (g.nodes r c) := by
  by_cases h : r < g.rows ∧ c < g.columns
  · show P (if r < g.rows ∧ c < g.columns then _ else _) = _
    rw [if_pos h]
    exact hP _ _
  · show P (if r < g.rows ∧ c < g.columns then _ else _) = _
    rw [if_neg h]

theorem relax_g_cost_proj (n : Node) (c : Int) {α : Type} (P : Node → α)
    (hP : ∀ m : Node, ∀ z : Option Int,
      P { m with g_cost := z } = P m) :
    P ((n.relax_g_cost c).1) = P n := by
  rcases n.relax_g_cost_cases c with h | h
  · rw [h]
    exact hP n (some c)
  · rw [h]

theorem init_AInv {g : Grid} {s t : Coord} (hcoh : g.Coherent)
    (hs : g.start = some s) (ht : g.target = some t)
    (hsb : g.inBounds s) (htb : g.inBounds t)
    (hclean : ∀ r, r < g.rows → ∀ c, c < g.columns →
      (g.nodes r c).g_cost = none) :
    AInv g s t g.init_run := by
  have hkeepS := calc_h_costs_keeps g s.1 s.2
  have hcg : ((g.calculate_all_h_costs).nodes s.1 s.2).g_cost = none := by
    rw [hkeepS.1]
    exact hclean s.1 hsb.1 s.2 hsb.2
  have hrel : ((g.calculate_all_h_costs).nodes s.1 s.2).relax_g_cost 0 =
      ({ (g.calculate_all_h_costs).nodes s.1 s.2 with g_cost := some 0 },
        true) := by
    unfold Node.relax_g_cost
    rw [hcg]
  have hnodeS : (g.init_run).grid.nodes s.1 s.2 =
      (((g.calculate_all_h_costs).nodes s.1 s.2).relax_g_cost 0).1 := by
    rw [init_run_nodes g hs, if_pos ⟨rfl, rfl⟩]
  have hg0 : ((g.init_run).grid.nodes s.1 s.2).g_cost = some 0 := by
    rw [hnodeS, hrel]
  have hnodesOther : ∀ r c, ¬ (r = s.1 ∧ c = s.2) →
      (g.init_run).grid.nodes r c = (g.calculate_all_h_costs).nodes r c := by
    intro r c hrc
    rw [init_run_nodes g hs, if_neg hrc]
  have hgnone : ∀ v : Coord, g.inBounds v → v ≠ s →
      ((g.init_run).grid.nodes v.1 v.2).g_cost = none := by
    intro v hvb hvs
    have hrc : ¬ (v.1 = s.1 ∧ v.2 = s.2) := by
      rintro ⟨h1, h2⟩
      exact hvs (Prod.ext h1 h2)
    rw [hnodesOther v.1 v.2 hrc, (calc_h_costs_keeps g v.1 v.2).1]
    exact hclean v.1 hvb.1 v.2 hvb.2
  have hproj : ∀ (r c : Nat) {α : Type} (P : Node → α),
      (∀ n v, P (n.set_h_cost v) = P n) →
      (∀ m : Node, ∀ z : Option Int, P { m with g_cost := z } = P m) →
      P ((g.init_run).grid.nodes r c) = P (g.nodes r c) := by
    intro r c α P hP1 hP2
    by_cases hrc : r = s.1 ∧ c = s.2
    · obtain ⟨h1, h2⟩ := hrc
      subst h1
      subst h2
      rw [hnodeS, relax_g_cost_proj _ _ P hP2, calc_h_costs_proj g _ _ P hP1]
    · rw [hnodesOther r c hrc, calc_h_costs_proj g r c P hP1]
  have hhset : ∀ r c, r < g.rows → c < g.columns →
      ((g.init_run).grid.nodes r c).h_cost =
        some ((octile (r, c) t : Nat) : Int) := by
    intro r c hr hcc
    have hcalc := calc_h_costs_node hcoh ht htb hr hcc
    by_cases hrc : r = s.1 ∧ c = s.2
    · obtain ⟨h1, h2⟩ := hrc
      subst h1
      subst h2
      rw [hnodeS, relax_g_cost_proj _ _ Node.h_cost (fun m z => rfl), hcalc]
      rfl
    · rw [hnodesOther r c hrc, hcalc]
      rfl
  obtain ⟨hWF1, hsz1, hmem1⟩ := init_run_opened_spec g hs
  have hfval : ((g.init_run).grid.nodes s.1 s.2).get_f_cost =
      ((octile s t : Nat) : Int) + 0 := by
    unfold Node.get_f_cost
    rw [hg0, hhset s.1 s.2 hsb.1 hsb.2]
    rfl
  refine ⟨⟨⟨rfl, rfl, rfl, rfl⟩, ⟨?_, ?_⟩, ?_, rfl, hhset, hWF1, ?_, ?_, ?_,
    ?_, ?_, ?_, ?_, ?_, hg0, ?_, List.nodup_nil, List.not_mem_nil t⟩, ?_⟩
  · show g.start = g.start
    rfl
  · show g.target = g.target
    rfl
  · -- skeleton
    intro r c
    refine ⟨?_, ?_, ?_, ?_⟩
    · exact hproj r c Node.row (fun n v => rfl) (fun m z => rfl)
    · exact hproj r c Node.col (fun n v => rfl) (fun m z => rfl)
    · exact hproj r c Node.pos (fun n v => rfl) (fun m z => rfl)
    · exact hproj r c Node.state (fun n v => rfl) (fun m z => rfl)
  · -- g soundness
    intro v hvb z hz
    by_cases hvs : v = s
    · rw [hvs] at hz
      rw [hg0] at hz
      have hz0 : (0 : Int) = z := Option.some_inj.mp hz
      refine ⟨0, by omega, ?_⟩
      rw [hvs]
      exact Grid.PathCost.nil
    · rw [hgnone v hvb hvs] at hz
      exact Option.noConfusion hz
  · -- queue bounds
    intro x hx
    rw [(hmem1 x).mp hx]
    exact hsb
  · -- keys
    intro x hx
    have hxe := (hmem1 x).mp hx
    refine ⟨0, ?_, ?_⟩
    · rw [hxe]
      exact hg0
    · rw [hxe, hfval]
  · -- disjointness with the empty closed set
    intro x _
    exact List.not_mem_nil x.2
  · -- open completeness
    intro v hvb hvdef _
    by_cases hvs : v = s
    · apply (element_exists_iff hWF1.2 v).mpr
      apply List.mem_map.mpr
      refine ⟨(((g.init_run).grid.nodes s.1 s.2).get_f_cost, s), ?_, ?_⟩
      · exact (hmem1 _).mpr rfl
      · rw [hvs]
    · exact absurd (hgnone v hvb hvs) hvdef
  · -- closed bounds (empty)
    intro v hv
    exact absurd hv (List.not_mem_nil v)
  · -- closed g (empty)
    intro v hv
    exact absurd hv (List.not_mem_nil v)
  · -- closed minimality (empty)
    intro v hv
    exact absurd hv (List.not_mem_nil v)
  · -- start clause
    right
    refine ⟨rfl, ?_⟩
    intro x hx
    rw [(hmem1 x).mp hx]
  · -- closed relaxation (empty)
    intro u hu
    exact absurd hu (List.not_mem_nil u)

/-! ## C8: an unreachable target empties the queue and is reported as
no-solution -/

theorem reachable_closed {g : Grid} {s v : Coord} {n : Nat}
    (h : g.PathCost s v n) (P : Coord → Prop) (hs0 : P s)
    (hstep : ∀ u w : Coord, P u → g.inBounds w → g.isObst w = false →
      (OrthAdj u w ∨ DiagAdj u w) → P w) : P v := by
  induction h with
  | nil => exact hs0
  | orth hp hadj hb ho IH => exact hstep _ _ IH hb ho (Or.inl hadj)
  | diag hp hadj hb ho IH => exact hstep _ _ IH hb ho (Or.inr hadj)

/-- No path of the movement model reaches the enclosed target of
ringGrid: a step into the target would have to start on one of the eight
ring cells, which are obstacles and so can never be entered (and the
start is not adjacent to the target). -/
theorem ring_unreachable : ¬ ringGrid.Reachable (0, 0) (2, 2) := by
  rintro ⟨n, hp⟩
  have hP := reachable_closed hp
    (fun v => (v = ((0, 0) : Coord) ∨ ringGrid.isObst v = false) ∧
      v ≠ ((2, 2) : Coord)) ⟨Or.inl rfl, by decide⟩ ?_
  · exact hP.2 rfl
  · intro u w hPu hwB hwO hadj
    refine ⟨Or.inr hwO, ?_⟩
    intro hw2
    rw [hw2] at hadj
    obtain ⟨u1, u2⟩ := u
    have hring : (u1 = 1 ∨ u1 = 2 ∨ u1 = 3) ∧ (u2 = 1 ∨ u2 = 2 ∨ u2 = 3) ∧
        ¬ (u1 = 2 ∧ u2 = 2) := by
      rcases hadj with h | h
      · unfold OrthAdj at h
        omega
      · unfold DiagAdj at h
        omega
    obtain ⟨hPu1, hPu2⟩ := hPu
    rcases hPu1 with h00 | hobs
    · have h1 : u1 = 0 := congrArg Prod.fst h00
      have h2 : u2 = 0 := congrArg Prod.snd h00
      omega
    · obtain ⟨hu1, hu2, hne22⟩ := hring
      rcases hu1 with h1 | h1 | h1 <;> rcases hu2 with h2 | h2 | h2 <;>
        subst h1 <;> subst h2 <;>
        first
          | exact absurd hobs (by decide)
          | exact hne22 ⟨rfl, rfl⟩

/-- C8: with the target unreachable from the start (while both are set,
in bounds, and the per-cell g costs are clean, as on a fresh grid), the
search run of rows*columns+1 iterations drains the queue completely and
ends in the queue-empty exit — the IndexError raised by extract_min on
the empty queue.  solve translates that exit into the no-solution
outcome: it returns normally (done, no error reaches the caller), the
target's display state is set to the no-solution state, and the grid
stays unsolved. -/
theorem unreachable_no_solution {g : Grid} {s t : Coord} (hcoh : g.Coherent)
    (hs : g.start = some s) (ht : g.target = some t)
    (hsb : g.inBounds s) (htb : g.inBounds t)
    (hclean : ∀ r, r < g.rows → ∀ c, c < g.columns →
      (g.nodes r c).g_cost = none)
    (hsolved : g.solved = false)
    (hnr : ¬ g.Reachable s t) :
    ∃ S2, g.find_path_nonvisual (g.rows * g.columns + 1) = .queueEmpty S2 ∧
      S2.opened.size = 0 ∧
      g.solve (g.rows * g.columns + 1) = .done S2.grid.print_no_solution ∧
      ((S2.grid.print_no_solution).nodes t.1 t.2).state =
        NState.NO_SOL_TARGET ∧
      (S2.grid.print_no_solution).solved = false := by
  have hinv0 := init_AInv hcoh hs ht hsb htb hclean
  have hcl0 : (g.init_run).closed.length = 0 := rfl
  rcases loop_spec hcoh hsb (g.rows * g.columns + 1) g.init_run hinv0
      (by omega) with ⟨S2, hS2, hFS⟩ | ⟨S2, hS2, hinv2, hsz2⟩
  · exfalso
    obtain ⟨_, _, _, htin, hall⟩ := hFS
    obtain ⟨z, _, _, nc, _, hpc⟩ := hall t htin
    exact hnr ⟨nc, hpc⟩
  · have hfind : g.find_path_nonvisual (g.rows * g.columns + 1) =
        .queueEmpty S2 := by
      unfold Grid.find_path_nonvisual
      rw [ht]
      exact hS2
    have htgt : S2.grid.target = some t := by
      rw [hinv2.1.ends.2]
      exact ht
    refine ⟨S2, hfind, hsz2, ?_, ?_, ?_⟩
    · unfold Grid.solve
      rw [hs, ht, if_neg (by simp), hfind]
    · show ((S2.grid.print_no_solution).nodes t.1 t.2).state = _
      unfold Grid.print_no_solution
      rw [htgt]
      show ((if t.1 = t.1 ∧ t.2 = t.2 then
        (S2.grid.nodes t.1 t.2).set_no_sol_target
        else S2.grid.nodes t.1 t.2)).state = _
      rw [if_pos ⟨rfl, rfl⟩]
      rfl
    · show S2.grid.solved = false
      rw [hinv2.1.unsolved]
      exact hsolved

theorem unreachable_no_solution_witness :
    ringGrid.Coherent ∧
    (∃ S2, ringGrid.find_path_nonvisual
        (ringGrid.rows * ringGrid.columns + 1) = .queueEmpty S2 ∧
      S2.opened.size = 0 ∧
      ringGrid.solve (ringGrid.rows * ringGrid.columns + 1) =
        .done S2.grid.print_no_solution ∧
      ((S2.grid.print_no_solution).nodes 2 2).state =
        NState.NO_SOL_TARGET ∧
      (S2.grid.print_no_solution).solved = false) :=
  ⟨by decide, unreachable_no_solution (by decide)
    (show ringGrid.start = some (0, 0) by decide)
    (show ringGrid.target = some (2, 2) by decide)
    (by decide) (by decide) (by decide) (by decide) ring_unreachable⟩

/-! ## C1: optimality of the search on an obstacle-free grid -/

theorem fresh_facts {W H C R : Nat} {s0 t0 : Coord} (hne : s0 ≠ t0) :
    (Grid.fresh W H C R s0 t0).start = some s0 ∧
    (Grid.fresh W H C R s0 t0).target = some t0 ∧
    (Grid.fresh W H C R s0 t0).solved = false ∧
    ((Grid.fresh W H C R s0 t0).width = W ∧
      (Grid.fresh W H C R s0 t0).height = H ∧
      (Grid.fresh W H C R s0 t0).columns = C ∧
      (Grid.fresh W H C R s0 t0).rows = R) ∧
    (∀ r c : Nat, ((Grid.fresh W H C R s0 t0).nodes r c).row = r ∧
      ((Grid.fresh W H C R s0 t0).nodes r c).col = c ∧
      ((Grid.fresh W H C R s0 t0).nodes r c).pos =
        ((W / C) * c, (H / R) * r) ∧
      ((Grid.fresh W H C R s0 t0).nodes r c).g_cost = none ∧
      ((Grid.fresh W H C R s0 t0).nodes r c).is_obstacle = false) := by
  set g0 := Grid.create_grid W H C R with hg0
  have hA : g0.set_start_node s0 =
      { g0.setNode s0.1 s0.2 ((g0.nodes s0.1 s0.2).set_start) with
        start := some s0 } := by
    unfold Grid.set_start_node
    rw [if_pos (show g0.target ≠ some s0 from
      fun hcon => Option.noConfusion hcon)]
    rfl
  have hB : Grid.fresh W H C R s0 t0 =
      { (g0.set_start_node s0).setNode t0.1 t0.2
          (((g0.set_start_node s0).nodes t0.1 t0.2).set_target) with
        target := some t0 } := by
    show (g0.set_start_node s0).set_target_node t0 = _
    unfold Grid.set_target_node
    rw [if_pos (show (g0.set_start_node s0).start ≠ some t0 from by
      rw [hA]
      exact fun hcon => hne (Option.some_inj.mp hcon))]
    rw [hA]
    rfl
  have hAn : ∀ r c, (g0.set_start_node s0).nodes r c =
      (if r = s0.1 ∧ c = s0.2 then (g0.nodes r c).set_start
       else g0.nodes r c) := by
    intro r c
    rw [hA]
    show (if r = s0.1 ∧ c = s0.2 then (g0.nodes s0.1 s0.2).set_start
      else g0.nodes r c) = _
    by_cases h : r = s0.1 ∧ c = s0.2
    · rw [if_pos h, if_pos h]
      obtain ⟨h1, h2⟩ := h
      rw [h1, h2]
    · rw [if_neg h, if_neg h]
  have hBn : ∀ r c, (Grid.fresh W H C R s0 t0).nodes r c =
      (if r = t0.1 ∧ c = t0.2 then
        ((g0.set_start_node s0).nodes r c).set_target
       else (g0.set_start_node s0).nodes r c) := by
    intro r c
    rw [hB]
    show (if r = t0.1 ∧ c = t0.2 then
        ((g0.set_start_node s0).nodes t0.1 t0.2).set_target
      else (g0.set_start_node s0).nodes r c) = _
    by_cases h : r = t0.1 ∧ c = t0.2
    · rw [if_pos h, if_pos h]
      obtain ⟨h1, h2⟩ := h
      rw [h1, h2]
    · rw [if_neg h, if_neg h]
  refine ⟨by simp only [hB, hA, Grid.setNode],
    by simp only [hB],
    by simp only [hB, hA, Grid.setNode]; rfl,
    ⟨by simp only [hB, hA, Grid.setNode]; rfl,
      by simp only [hB, hA, Grid.setNode]; rfl,
      by simp only [hB, hA, Grid.setNode]; rfl,
      by simp only [hB, hA, Grid.setNode]; rfl⟩, ?_⟩
  intro r c
  rw [hBn r c, hAn r c]
  by_cases h2 : r = t0.1 ∧ c = t0.2
  · rw [if_pos h2]
    by_cases h1 : r = s0.1 ∧ c = s0.2
    · rw [if_pos h1]
      exact ⟨rfl, rfl, rfl, rfl, rfl⟩
    · rw [if_neg h1]
      exact ⟨rfl, rfl, rfl, rfl, rfl⟩
  · rw [if_neg h2]
    by_cases h1 : r = s0.1 ∧ c = s0.2
    · rw [if_pos h1]
      exact ⟨rfl, rfl, rfl, rfl, rfl⟩
    · rw [if_neg h1]
      exact ⟨rfl, rfl, rfl, rfl, rfl⟩

theorem fresh_coherent {W H C R : Nat} {s0 t0 : Coord} (hne : s0 ≠ t0)
    (hC : 0 < C) (hR : 0 < R) (hWC : C ≤ W) (hHR : R ≤ H) :
    (Grid.fresh W H C R s0 t0).Coherent := by
  obtain ⟨_, _, _, ⟨hw, hh, hcols, hrows⟩, hf⟩ := fresh_facts hne
    (W := W) (H := H) (C := C) (R := R)
  refine ⟨?_, ?_, ?_⟩
  · rw [hw, hcols]
    exact (Nat.one_le_div_iff hC).mpr hWC
  · rw [hh, hrows]
    exact (Nat.one_le_div_iff hR).mpr hHR
  · intro r hr c hcc
    refine ⟨(hf r c).1, (hf r c).2.1, ?_⟩
    rw [(hf r c).2.2.1, hw, hh, hcols, hrows]

/-- On an obstacle-free grid a monotone staircase path from (0,0)
realizes the octile distance exactly. -/
theorem free_path {g : Grid}
    (hfree : ∀ v : Coord, g.inBounds v → g.isObst v = false) :
    ∀ d r c : Nat, r + c = d → r < g.rows → c < g.columns →
      g.PathCost (0, 0) (r, c) (octile (0, 0) (r, c)) := by
  intro d
  induction d using Nat.strong_induction_on with
  | _ d IH =>
    intro r c hd hr hc
    by_cases hr0 : r = 0
    · subst hr0
      by_cases hc0 : c = 0
      · subst hc0
        have h0 : octile ((0, 0) : Coord) ((0, 0) : Coord) = 0 := octile_self _
        rw [h0]
        exact Grid.PathCost.nil
      · obtain ⟨c', rfl⟩ : ∃ c', c = c' + 1 := ⟨c - 1, by omega⟩
        have hprev := IH (0 + c') (by omega) 0 c' rfl hr (by omega)
        have hoct : octile ((0, 0) : Coord) ((0 : Nat), c' + 1) =
            octile ((0, 0) : Coord) ((0 : Nat), c') + 10 := by
          rw [octile_eq, octile_eq]
          omega
        rw [hoct]
        exact Grid.PathCost.orth hprev (Or.inl ⟨rfl, Or.inl rfl⟩) ⟨hr, hc⟩
          (hfree ((0 : Nat), c' + 1) ⟨hr, hc⟩)
    · by_cases hc0 : c = 0
      · subst hc0
        obtain ⟨r', rfl⟩ : ∃ r', r = r' + 1 := ⟨r - 1, by omega⟩
        have hprev := IH (r' + 0) (by omega) r' 0 rfl (by omega) hc
        have hoct : octile ((0, 0) : Coord) (r' + 1, (0 : Nat)) =
            octile ((0, 0) : Coord) (r', (0 : Nat)) + 10 := by
          rw [octile_eq, octile_eq]
          omega
        rw [hoct]
        exact Grid.PathCost.orth hprev (Or.inr ⟨rfl, Or.inl rfl⟩) ⟨hr, hc⟩
          (hfree (r' + 1, (0 : Nat)) ⟨hr, hc⟩)
      · obtain ⟨r', rfl⟩ : ∃ r', r = r' + 1 := ⟨r - 1, by omega⟩
        obtain ⟨c', rfl⟩ : ∃ c', c = c' + 1 := ⟨c - 1, by omega⟩
        have hprev := IH (r' + c') (by omega) r' c' rfl (by omega) (by omega)
        have hoct : octile ((0, 0) : Coord) (r' + 1, c' + 1) =
            octile ((0, 0) : Coord) (r', c') + 14 := by
          rw [octile_eq, octile_eq]
          omega
        rw [hoct]
        exact Grid.PathCost.diag hprev ⟨Or.inl rfl, Or.inl rfl⟩ ⟨hr, hc⟩
          (hfree (r' + 1, c' + 1) ⟨hr, hc⟩)

/-- C1: on a freshly constructed grid with no obstacles, the search from
(0,0) to (r,c) terminates in the found state within rows*columns+1
iterations, the target's recorded g cost equals
min(r,c)*14 + (max(r,c)-min(r,c))*10 (the octile distance), and more
generally every closed cell's recorded g cost is the cost of a real path
from the start that undercuts every path from the start — the true
shortest-path cost of the octile movement model. -/
theorem astar_optimal {W H C R r c : Nat}
    (hR : 0 < R) (hC : 0 < C) (hWC : C ≤ W) (hHR : R ≤ H)
    (hr : r < R) (hc : c < C) (hne : ¬ (r = 0 ∧ c = 0)) :
    ∃ S2, (Grid.fresh W H C R (0, 0) (r, c)).find_path_nonvisual
        (R * C + 1) = .found S2 ∧
      (S2.grid.nodes r c).g_cost =
        some ((octile (0, 0) (r, c) : Nat) : Int) ∧
      octile (0, 0) (r, c) = 14 * min r c + 10 * (max r c - min r c) ∧
      S2.grid.solved = true ∧
      (∀ v ∈ S2.closed, ∃ z : Int,
        (S2.grid.nodes v.1 v.2).g_cost = some z ∧
        (∀ n : Nat, (Grid.fresh W H C R (0, 0) (r, c)).PathCost (0, 0) v n →
          z ≤ (n : Int)) ∧
        (∃ nc : Nat, z = (nc : Int) ∧
          (Grid.fresh W H C R (0, 0) (r, c)).PathCost (0, 0) v nc)) := by
  have hnex : ((0, 0) : Coord) ≠ (r, c) := by
    intro hcon
    exact hne ⟨(congrArg Prod.fst hcon).symm, (congrArg Prod.snd hcon).symm⟩
  obtain ⟨hst, htg, hsv, ⟨hw, hh, hcols, hrows⟩, hf⟩ := fresh_facts hnex
    (W := W) (H := H) (C := C) (R := R)
  have hcoh := fresh_coherent hnex hC hR hWC hHR
  have hsb : (Grid.fresh W H C R (0, 0) (r, c)).inBounds (0, 0) :=
    ⟨by rw [hrows]; exact hR, by rw [hcols]; exact hC⟩
  have htb : (Grid.fresh W H C R (0, 0) (r, c)).inBounds (r, c) :=
    ⟨by rw [hrows]; exact hr, by rw [hcols]; exact hc⟩
  have hclean : ∀ r', r' < (Grid.fresh W H C R (0, 0) (r, c)).rows →
      ∀ c', c' < (Grid.fresh W H C R (0, 0) (r, c)).columns →
      ((Grid.fresh W H C R (0, 0) (r, c)).nodes r' c').g_cost = none :=
    fun r' _ c' _ => (hf r' c').2.2.2.1
  have hfree : ∀ v : Coord, (Grid.fresh W H C R (0, 0) (r, c)).inBounds v →
      (Grid.fresh W H C R (0, 0) (r, c)).isObst v = false :=
    fun v _ => (hf v.1 v.2).2.2.2.2
  have hinv0 := init_AInv hcoh hst htg hsb htb hclean
  have hcl0 : ((Grid.fresh W H C R (0, 0) (r, c)).init_run).closed.length = 0 :=
    rfl
  have hfuel : (Grid.fresh W H C R (0, 0) (r, c)).rows *
      (Grid.fresh W H C R (0, 0) (r, c)).columns + 1 ≤ (R * C + 1) +
      ((Grid.fresh W H C R (0, 0) (r, c)).init_run).closed.length := by
    rw [hrows, hcols, hcl0]
  have hpath := free_path hfree (r + c) r c rfl
    (by rw [hrows]; exact hr) (by rw [hcols]; exact hc)
  rcases loop_spec hcoh hsb (R * C + 1)
      (Grid.fresh W H C R (0, 0) (r, c)).init_run hinv0 hfuel with
    ⟨S2, hS2, hFS⟩ | ⟨S2, hS2, hinv2, hsz2⟩
  · obtain ⟨hsolved2, _, _, htin, hall⟩ := hFS
    obtain ⟨z, hz, hmin, nc', hnceq, hpc⟩ := hall (r, c) htin
    have hub := hmin (octile (0, 0) (r, c)) hpath
    have hlb := octile_le_pathCost hpc
    have hzoct : z = ((octile (0, 0) (r, c) : Nat) : Int) := by omega
    refine ⟨S2, ?_, ?_, ?_, hsolved2, hall⟩
    · unfold Grid.find_path_nonvisual
      rw [htg]
      exact hS2
    · rw [← hzoct]
      exact hz
    · rw [octile_eq]
      omega
  · exfalso
    rcases key_lemma hinv2 hsb (r, c) (octile (0, 0) (r, c)) hpath with
      ⟨hcl, _⟩ | ⟨x, hx, _⟩
    · exact hinv2.1.tfree hcl
    · have helts : S2.opened.elements = [] := List.length_eq_zero.mp hsz2
      rw [helts] at hx
      exact List.not_mem_nil x hx

theorem astar_optimal_witness :
    ((2 : Nat) < 3 ∧ ¬ ((2 : Nat) = 0 ∧ (2 : Nat) = 0)) ∧
    (∃ S2, (Grid.fresh 5 5 3 3 (0, 0) (2, 2)).find_path_nonvisual
        (3 * 3 + 1) = .found S2 ∧
      (S2.grid.nodes 2 2).g_cost =
        some ((octile (0, 0) (2, 2) : Nat) : Int) ∧
      octile (0, 0) (2, 2) = 14 * min 2 2 + 10 * (max 2 2 - min 2 2) ∧
      S2.grid.solved = true ∧
      (∀ v ∈ S2.closed, ∃ z : Int,
        (S2.grid.nodes v.1 v.2).g_cost = some z ∧
        (∀ n : Nat, (Grid.fresh 5 5 3 3 (0, 0) (2, 2)).PathCost (0, 0) v n →
          z ≤ (n : Int)) ∧
        (∃ nc : Nat, z = (nc : Int) ∧
          (Grid.fresh 5 5 3 3 (0, 0) (2, 2)).PathCost (0, 0) v nc))) :=
  ⟨⟨by decide, by decide⟩, astar_optimal (by decide) (by decide) (by decide)
    (by decide) (by decide) (by decide) (by decide)⟩

end PathFinder
